import Mathlib

/-! An implicit-list allocator (`mm-implicit.c`) and its heap invariants.

The C file keeps all of its state in raw memory handed out by `memlib`: every chunk
starts with a `header_t` (`size`, `allocated`) and the chunks are laid out back to
back.  The embedding below keeps that shape:

* a `Heap` is the global state of the C program: the variable `hdr_size`, the bounds
  kept by `memlib`, and the memory contents;
* memory is addressed by natural numbers; `NULL` is address `0`;
* the memory holds header objects (`hdr`) and payload bytes (`byte`).  A header
  occupies `hdr_size` bytes, so storing a header makes the payload bytes under it
  indeterminate, and storing a byte destroys every header object that covers it;
* `size_t` arithmetic is arithmetic modulo `2 ^ 64`; addresses are not reduced;
* every C function becomes a function into `Except Fault`; `Fault` lists the ways in
  which an execution leaves the behaviour described by the model;
* the `while` loops that walk the heap are given `mem_heapsize + 1` iterations, which
  is more than a heap tiled by chunks of at least one byte needs.

The file is organised as follows: the embedding of the C functions; the chunk list
described by a heap (`Seg`, `WF`) and the invariant (`Inv`) of the states reachable
from an empty heap (`Reachable`); the effect of every function on a tiled heap; the
properties of the allocator.
-/

namespace Malloc

/-! ## Machine arithmetic -/

/-- Number of values of a `size_t`. -/
def SIZE_MOD : Nat := 2 ^ 64

/-- Addition of two `size_t` values. -/
def uadd (a b : Nat) : Nat := (a + b) % SIZE_MOD

/-- Subtraction of two `size_t` values (wraps around below zero). -/
def usub (a b : Nat) : Nat := (a + SIZE_MOD - b % SIZE_MOD) % SIZE_MOD

/-- The next multiple of 16 at or above `n`, as a natural number. -/
def roundUp16 (n : Nat) : Nat := (n + 15) / 16 * 16

/-- Modelled from the spec: `align` is declared in `mm-common.h`, which is not part of
the sources.  It "rounds up to the next multiple of 16"; its result is a `size_t`. -/
def align (n : Nat) : Nat := roundUp16 n % SIZE_MOD

/-! ## Memory -/

/-- The null pointer. -/
def NULL : Nat := 0

/-- Modelled from the spec: `header_t` is declared in `mm-implicit.h`, which is not part
of the sources.  A header holds `size` ("total bytes spanned by this chunk, header
included") and `allocated`; these are the two fields the C file uses. -/
structure header_t where
  size : Nat
  allocated : Bool
deriving DecidableEq, Repr

/-- Ways in which an execution leaves the model. -/
inductive Fault where
  /-- a header was written through the failure result of `mem_sbrk` -/
  | failed_grow_deref
  /-- a header field was read or updated where no header object is stored -/
  | wild_header
  /-- a heap walk did not reach the end of the heap within `heapsize + 1` steps -/
  | no_progress
  /-- the `int` counter of the copy loop of `mm_realloc` overflowed -/
  | int_overflow
  /-- an `assert` failed -/
  | assert_failed
deriving DecidableEq, Repr

/-- The global state: `hdr_size`, the heap kept by `memlib` and the memory contents. -/
structure Heap where
  /-- the global `size_t hdr_size = sizeof(header_t)`; `header_t` is not part of the
  sources, so its width is left open -/
  hdr_size : Nat
  /-- `mem_heap_lo()` -/
  lo : Nat
  /-- `mem_heapsize()` -/
  size : Nat
  /-- the largest size the heap substrate can grow to -/
  cap : Nat
  /-- the header object stored at an address, if any -/
  hdr : Nat → Option header_t
  /-- the payload byte stored at an address; `none` is an indeterminate value -/
  byte : Nat → Option Nat

/-- Modelled from the spec: `heapSize() -> bytes` of the heap substrate (`memlib`). -/
def mem_heapsize (m : Heap) : Nat := m.size

/-- Modelled from the spec: `heapLowAddress() -> address` of the heap substrate. -/
def mem_heap_lo (m : Heap) : Nat := m.lo

/-- Modelled from the spec: `heapHighAddress() -> address`, the inclusive last valid
byte of the heap. -/
def mem_heap_hi (m : Heap) : Nat := m.lo + m.size - 1

/-- Modelled from the spec: `grow(bytes) -> pointer | OutOfMemory` "extends the heap by
exactly `bytes`, returns the start address of the new region".  `none` is
`OutOfMemory`; the substrate refuses to grow beyond `cap`. -/
def mem_sbrk (m : Heap) (incr : Nat) : Option (Heap × Nat) :=
  if m.size + incr ≤ m.cap then
    some ({ m with size := m.size + incr }, m.lo + m.size)
  else none

/-- Read the header object at `p`. -/
def load (m : Heap) (p : Nat) : Except Fault header_t :=
  match m.hdr p with
  | some h => .ok h
  | none => .error .wild_header

/-- Store a header object at `p`.  It occupies `[p, p + hdr_size)`: header objects that
overlap this range are destroyed and payload bytes in it become indeterminate. -/
def store (m : Heap) (p : Nat) (h : header_t) : Heap :=
  { m with
    hdr := fun x =>
      if x = p then some h
      else if x < p + m.hdr_size ∧ p < x + m.hdr_size then none
      else m.hdr x
    byte := fun x => if p ≤ x ∧ x < p + m.hdr_size then none else m.byte x }

/-- Store one byte at `x`; header objects covering `x` are destroyed. -/
def poke (m : Heap) (x : Nat) (b : Option Nat) : Heap :=
  { m with
    hdr := fun a => if a ≤ x ∧ x < a + m.hdr_size then none else m.hdr a
    byte := fun y => if y = x then b else m.byte y }

/-- The assignment `p->size = v`. -/
def set_size (m : Heap) (p v : Nat) : Except Fault Heap :=
  match m.hdr p with
  | some h => .ok (store m p { h with size := v })
  | none => .error .wild_header

/-- The assignment `p->allocated = b`. -/
def set_allocated (m : Heap) (p : Nat) (b : Bool) : Except Fault Heap :=
  match m.hdr p with
  | some h => .ok (store m p { h with allocated := b })
  | none => .error .wild_header

/-! ## The functions of `mm-implicit.c` -/

/-- The constant `static bool debug = false`. -/
def debug : Bool := false

/-- The C function `init_chunk`: both fields of the header at `p` are written. -/
def init_chunk (m : Heap) (p csz : Nat) (allocated : Bool) : Heap :=
  store m p ⟨csz, allocated⟩

/-- The C function `next_chunk`. -/
def next_chunk (m : Heap) (h : Nat) : Except Fault Nat :=
  if h = NULL then
    if mem_heapsize m = 0 then .ok NULL
    else .ok (mem_heap_lo m)
  else
    match load m h with
    | .error e => .error e
    | .ok hd =>
      let next := h + hd.size
      if next = mem_heap_hi m + 1 then .ok NULL
      else .ok next

/-- The C function `mm_init`. -/
def mm_init (m : Heap) : Except Fault Nat :=
  if m.hdr_size = align m.hdr_size then .ok 0 else .error .assert_failed

/-- The `while` loop of `first_fit`, started with `p`; the first argument bounds the
number of iterations. -/
def first_fit_loop (m : Heap) (csz : Nat) : Nat → Nat → Except Fault Nat
  | 0, _ => .error .no_progress
  | fuel + 1, p =>
    if p = NULL then .ok p
    else
      match load m p with
      | .error e => .error e
      | .ok hd =>
        if hd.allocated || decide (hd.size < csz) then
          match next_chunk m p with
          | .error e => .error e
          | .ok q => if q = NULL then .ok NULL else first_fit_loop m csz fuel q
        else .ok p

/-- The C function `first_fit`. -/
def first_fit (m : Heap) (csz : Nat) : Except Fault Nat :=
  match next_chunk m NULL with
  | .error e => .error e
  | .ok p => first_fit_loop m csz (mem_heapsize m + 1) p

/-- The C function `split`. -/
def split (m : Heap) (original csz : Nat) : Except Fault Heap :=
  match load m original with
  | .error e => .error e
  | .ok o =>
    let remain_size := usub o.size csz
    let min_payload := 16
    if remain_size < uadd m.hdr_size min_payload then .ok m
    else
      match set_size m original csz with
      | .error e => .error e
      | .ok m1 =>
        let n := original + csz
        .ok (init_chunk m1 n remain_size false)

/-- The C function `ask_os_for_chunk`.  The result of `mem_sbrk` is not tested:
`init_chunk` is run on it also when the heap could not grow. -/
def ask_os_for_chunk (m : Heap) (csz : Nat) : Except Fault (Heap × Nat) :=
  match mem_sbrk m csz with
  | none => .error .failed_grow_deref
  | some (m1, p) => .ok (init_chunk m1 p csz false, p)

/-- Modelled from the spec: `heap_info_t` is declared in `mm-implicit.h`, which is not
part of the sources.  It holds "count and total bytes of allocated chunks, count and
total bytes of free chunks"; the byte totals are taken to be `size_t` values. -/
structure heap_info_t where
  num_allocated_chunks : Nat
  num_free_chunks : Nat
  free_size : Nat
  allocated_size : Nat
deriving DecidableEq, Repr

/-- The `while` loop of `mm_checkheap`. -/
def checkheap_loop (m : Heap) : Nat → Nat → heap_info_t → Except Fault heap_info_t
  | 0, _, _ => .error .no_progress
  | fuel + 1, p, info =>
    if p = NULL then .ok info
    else
      match load m p with
      | .error e => .error e
      | .ok hd =>
        let info1 : heap_info_t :=
          if hd.allocated then
            { info with num_allocated_chunks := info.num_allocated_chunks + 1
                        allocated_size := uadd info.allocated_size hd.size }
          else
            { info with num_free_chunks := info.num_free_chunks + 1
                        free_size := uadd info.free_size hd.size }
        match next_chunk m p with
        | .error e => .error e
        | .ok q => checkheap_loop m fuel q info1

/-- The C function `mm_checkheap`. -/
def mm_checkheap (m : Heap) (verbose : Bool) : Except Fault heap_info_t :=
  let _ := verbose
  match next_chunk m NULL with
  | .error e => .error e
  | .ok p =>
    match checkheap_loop m (mem_heapsize m + 1) p ⟨0, 0, 0, 0⟩ with
    | .error e => .error e
    | .ok info =>
      if mem_heapsize m = uadd info.allocated_size info.free_size then .ok info
      else .error .assert_failed

/-! ### `mm_checkheap` with the state it leaves behind

`mm_checkheap` calls `next_chunk`, `mem_heapsize`, `mem_heap_lo` and `mem_heap_hi`, reads
header fields, and assigns to the fields of its local variable `info`.  Below, the
function and `next_chunk` are written once more as C functions that take the state
before the call and return the state after the call next to their result, so that what
the call does to the state is a property to be proved. -/

/-- The C function `next_chunk`: the state after the call and the returned pointer. -/
def next_chunk_st (m : Heap) (h : Nat) : Except Fault (Heap × Nat) :=
  if h = NULL then
    if mem_heapsize m = 0 then .ok (m, NULL)
    else .ok (m, mem_heap_lo m)
  else
    match load m h with
    | .error e => .error e
    | .ok hd =>
      let next := h + hd.size
      if next = mem_heap_hi m + 1 then .ok (m, NULL)
      else .ok (m, next)

/-- The `while` loop of `mm_checkheap`: the state after the loop and the value of the
local variable `info`. -/
def checkheap_loop_st : Nat → Heap → Nat → heap_info_t → Except Fault (Heap × heap_info_t)
  | 0, _, _, _ => .error .no_progress
  | fuel + 1, m, p, info =>
    if p = NULL then .ok (m, info)
    else
      match load m p with
      | .error e => .error e
      | .ok hd =>
        let info1 : heap_info_t :=
          if hd.allocated then
            { info with num_allocated_chunks := info.num_allocated_chunks + 1
                        allocated_size := uadd info.allocated_size hd.size }
          else
            { info with num_free_chunks := info.num_free_chunks + 1
                        free_size := uadd info.free_size hd.size }
        match next_chunk_st m p with
        | .error e => .error e
        | .ok (m1, q) => checkheap_loop_st fuel m1 q info1

/-- The C function `mm_checkheap`: the state after the call and the returned
statistics. -/
def mm_checkheap_st (m : Heap) (verbose : Bool) : Except Fault (Heap × heap_info_t) :=
  let _ := verbose
  match next_chunk_st m NULL with
  | .error e => .error e
  | .ok (m1, p) =>
    match checkheap_loop_st (mem_heapsize m1 + 1) m1 p ⟨0, 0, 0, 0⟩ with
    | .error e => .error e
    | .ok (m2, info) =>
      if mem_heapsize m2 = uadd info.allocated_size info.free_size then .ok (m2, info)
      else .error .assert_failed

/-- The block `if (debug) { mm_checkheap(true); }`. -/
def debug_check (m : Heap) : Except Fault Unit :=
  if debug then
    match mm_checkheap m true with
    | .error e => .error e
    | .ok _ => .ok ()
  else .ok ()

/-- The C function `mm_malloc`; the result is the new state and the returned pointer. -/
def mm_malloc (m : Heap) (size : Nat) : Except Fault (Heap × Nat) :=
  let size := align size
  let csz := uadd m.hdr_size size
  match first_fit m csz with
  | .error e => .error e
  | .ok p =>
    let found : Except Fault (Heap × Nat) :=
      if p = NULL then
        match ask_os_for_chunk m csz with
        | .error e => .error e
        | .ok (m1, p) =>
          match set_size m1 p csz with
          | .error e => .error e
          | .ok m2 => .ok (m2, p)
      else
        match split m p csz with
        | .error e => .error e
        | .ok m1 => .ok (m1, p)
    match found with
    | .error e => .error e
    | .ok (m1, p) =>
      match set_allocated m1 p true with
      | .error e => .error e
      | .ok m2 =>
        let p := p + m.hdr_size
        match debug_check m2 with
        | .error e => .error e
        | .ok _ => .ok (m2, p)

/-- The C function `payload2header`. -/
def payload2header (m : Heap) (p : Nat) : Nat := p - m.hdr_size

/-- The `while` loop of `coalesce`: returns the final `total_size`. -/
def coalesce_loop (m : Heap) : Nat → Nat → Nat → Except Fault Nat
  | 0, _, _ => .error .no_progress
  | fuel + 1, ptr, total_size =>
    if ptr = NULL then .ok total_size
    else
      match load m ptr with
      | .error e => .error e
      | .ok hd =>
        if hd.allocated then .ok total_size
        else
          match next_chunk m ptr with
          | .error e => .error e
          | .ok q => coalesce_loop m fuel q (uadd total_size hd.size)

/-- The C function `coalesce`. -/
def coalesce (m : Heap) (h : Nat) : Except Fault Heap :=
  match coalesce_loop m (mem_heapsize m + 1) h 0 with
  | .error e => .error e
  | .ok total_size => set_size m h total_size

/-- The C function `mm_free`. -/
def mm_free (m : Heap) (p : Nat) : Except Fault Heap :=
  let ptr := payload2header m p
  match set_allocated m ptr false with
  | .error e => .error e
  | .ok m1 =>
    match coalesce m1 ptr with
    | .error e => .error e
    | .ok m2 =>
      match debug_check m2 with
      | .error e => .error e
      | .ok _ => .ok m2

/-- The copy loop of `mm_realloc`, `for (i = ..; i < ..; i++) new_ptr[i] = old_ptr[i]`:
the first argument is the number of iterations left, the second is `i`. -/
def copy_loop (new_ptr old_ptr : Nat) : Nat → Nat → Heap → Heap
  | 0, _, m => m
  | k + 1, i, m =>
    copy_loop new_ptr old_ptr k (i + 1) (poke m (new_ptr + i) (m.byte (old_ptr + i)))

/-- The C function `mm_realloc`; the result is the new state and the returned pointer.
The counter of the copy loop is an `int`: it cannot count beyond `2 ^ 31 - 1`, and
incrementing it further is a signed overflow, which C leaves undefined.  A call that
would have to copy `2 ^ 31` bytes or more ends in `Fault.int_overflow`: the model says
nothing about what such a call does. -/
def mm_realloc (m : Heap) (ptr size : Nat) : Except Fault (Heap × Nat) :=
  let size := align size
  if ptr = NULL then mm_malloc m size
  else if size = 0 then
    match mm_free m ptr with
    | .error e => .error e
    | .ok m1 => .ok (m1, NULL)
  else
    let csz := uadd m.hdr_size size
    let h := payload2header m ptr
    match load m h with
    | .error e => .error e
    | .ok hd =>
      let original_size := hd.size
      if original_size ≥ csz then
        match split m h csz with
        | .error e => .error e
        | .ok m1 => .ok (m1, ptr)
      else
        match next_chunk m h with
        | .error e => .error e
        | .ok next =>
          let grow_in_place : Except Fault (Option Heap) :=
            if next = NULL then .ok none
            else
              match load m next with
              | .error e => .error e
              | .ok nh =>
                if !nh.allocated && decide (nh.size ≥ usub csz original_size) then
                  match set_size m h (uadd original_size nh.size) with
                  | .error e => .error e
                  | .ok m1 =>
                    match split m1 h csz with
                    | .error e => .error e
                    | .ok m2 => .ok (some m2)
                else .ok none
          match grow_in_place with
          | .error e => .error e
          | .ok (some m2) => .ok (m2, ptr)
          | .ok none =>
            match mm_malloc m size with
            | .error e => .error e
            | .ok (m1, new_ptr) =>
              let old_ptr := ptr
              let count := usub original_size m.hdr_size
              if count ≥ 2 ^ 31 then .error .int_overflow
              else
                let m2 := copy_loop new_ptr old_ptr count 0 m1
                match mm_free m2 ptr with
                | .error e => .error e
                | .ok m3 => .ok (m3, new_ptr)

/-! ## The chunk list described by a heap -/

/-- Sum of the sizes of a list of headers. -/
def total : List header_t → Nat
  | [] => 0
  | c :: L => c.size + total L

/-- `Seg m a L b`: the header objects `L` are stored back to back in `m`, the first at
address `a`, the last one ending at `b`; every chunk is at least as large as its
header. -/
def Seg (m : Heap) : Nat → List header_t → Nat → Prop
  | a, [], b => a = b
  | a, c :: L, b => m.hdr a = some c ∧ m.hdr_size ≤ c.size ∧ Seg m (a + c.size) L b

/-- `At a L x c`: in the walk of `L` that starts at address `a`, the chunk that starts at
address `x` has header `c`. -/
def At : Nat → List header_t → Nat → header_t → Prop
  | _, [], _, _ => False
  | a, c :: L, x, d => (x = a ∧ d = c) ∨ At (a + c.size) L x d

/-- A well-formed heap with chunk list `L`: the chunks `L` tile the heap from
`mem_heap_lo` to one past `mem_heap_hi`, and all addresses fit in a pointer. -/
structure WF (m : Heap) (L : List header_t) : Prop where
  lo_pos : 0 < m.lo
  hdr_pos : 0 < m.hdr_size
  hdr_small : m.hdr_size + 16 < SIZE_MOD
  fits : m.lo + m.cap < SIZE_MOD
  size_le : m.size ≤ m.cap
  seg : Seg m m.lo L (m.lo + m.size)

/-- The chunk `c` can serve a request for a chunk of `csz` bytes. -/
def fit (csz : Nat) (c : header_t) : Bool := !c.allocated && decide (csz ≤ c.size)

/-- The address of the first chunk of the walk of `L` from `a` that fits `csz`, or
`NULL`. -/
def find_fit (csz : Nat) : Nat → List header_t → Nat
  | _, [] => NULL
  | a, c :: L => if fit csz c then a else find_fit csz (a + c.size) L

/-- The chunks that take the place of `c` after `split` with `csz`. -/
def split_list (hdr csz : Nat) (c : header_t) : List header_t :=
  if c.size - csz < hdr + 16 then [c] else [⟨csz, c.allocated⟩, ⟨c.size - csz, false⟩]

/-- The leading free chunks of a list. -/
def free_run : List header_t → List header_t
  | [] => []
  | c :: L => if c.allocated then [] else c :: free_run L

/-- What follows the leading free chunks of a list. -/
def after_run : List header_t → List header_t
  | [] => []
  | c :: L => if c.allocated then c :: L else after_run L

/-- `Frame m m' p q`: `m'` has the constants of `m` and differs from `m` at most in
header objects that reach into `[p, q)` and in bytes inside `[p, q)`. -/
structure Frame (m m' : Heap) (p q : Nat) : Prop where
  hdr_size : m'.hdr_size = m.hdr_size
  lo : m'.lo = m.lo
  cap : m'.cap = m.cap
  hdr : ∀ x, x + m.hdr_size ≤ p ∨ q ≤ x → m'.hdr x = m.hdr x
  byte : ∀ x, x < p ∨ q ≤ x → m'.byte x = m.byte x

/-- The statistics `mm_checkheap` accumulates over a chunk list. -/
def stats : List header_t → heap_info_t → heap_info_t
  | [], info => info
  | c :: L, info =>
    stats L
      (if c.allocated then
        { info with num_allocated_chunks := info.num_allocated_chunks + 1
                    allocated_size := uadd info.allocated_size c.size }
      else
        { info with num_free_chunks := info.num_free_chunks + 1
                    free_size := uadd info.free_size c.size })

/-- The allocated chunks of a list. -/
def allocd (L : List header_t) : List header_t := L.filter (fun c => c.allocated)

/-- The free chunks of a list. -/
def freed (L : List header_t) : List header_t := L.filter (fun c => !c.allocated)

/-- The block cannot grow in place: the chunk after it is missing, allocated or too
small. -/
def no_room (csz : Nat) (c : header_t) : List header_t → Prop
  | [] => True
  | d :: _ => d.allocated = true ∨ d.size < csz - c.size

/-- The ledger of a client: the live pointers, each with the size it was requested
for. -/
abbrev Ledger := List (Nat × Nat)

/-- The invariant of the allocator: the heap is tiled by the chunks `L`, chunk sizes
are multiples of 16 when the header size is, and every pointer of the ledger is the
payload of an allocated chunk that holds the requested number of bytes. -/
structure Inv (m : Heap) (L : List header_t) (led : Ledger) : Prop where
  wf : WF m L
  al : m.hdr_size % 16 = 0 → ∀ d ∈ L, d.size % 16 = 0
  live : ∀ e ∈ led, ∃ x c, e.1 = x + m.hdr_size ∧ At m.lo L x c ∧ c.allocated = true ∧
    m.hdr_size + e.2 ≤ c.size

/-- The ledger without the pointer `p`. -/
def Ledger.remove (led : Ledger) (p : Nat) : Ledger := led.filter (fun e => decide (e.1 ≠ p))

/-- An empty heap, as the substrate hands it over before the first call: no bytes in
use, a non-null low address, room for the whole heap below `2 ^ 64`, and a header size
for which the assertion of `mm_init` holds. -/
structure EmptyHeap (m : Heap) : Prop where
  size_zero : m.size = 0
  lo_pos : 0 < m.lo
  fits : m.lo + m.cap < SIZE_MOD
  hdr_pos : 0 < m.hdr_size
  hdr_small : m.hdr_size + 16 < SIZE_MOD
  init_ok : mm_init m = .ok 0

/-- The states reachable from the heap `m0` by calls of `mm_malloc`, `mm_free` and
`mm_realloc` that return, together with the ledger of the client.  Pointer arguments
are live pointers of the ledger (or `NULL` for `mm_realloc`); requested sizes are sizes
whose chunk size `hdr_size + roundUp16 n` is a `size_t`.  Between calls the client may
write into the bytes it requested. -/
inductive Reachable (m0 : Heap) : Heap → Ledger → Prop where
  | start : Reachable m0 m0 []
  | malloc {m m' : Heap} {led : Ledger} {n p : Nat} :
      Reachable m0 m led → m.hdr_size + roundUp16 n < SIZE_MOD →
      mm_malloc m n = .ok (m', p) → Reachable m0 m' ((p, n) :: led)
  | free {m m' : Heap} {led : Ledger} {n p : Nat} :
      Reachable m0 m led → (p, n) ∈ led →
      mm_free m p = .ok m' → Reachable m0 m' (led.remove p)
  | realloc_null {m m' : Heap} {led : Ledger} {n q : Nat} :
      Reachable m0 m led → m.hdr_size + roundUp16 n < SIZE_MOD →
      mm_realloc m NULL n = .ok (m', q) → Reachable m0 m' ((q, n) :: led)
  | realloc_zero {m m' : Heap} {led : Ledger} {k p q : Nat} :
      Reachable m0 m led → (p, k) ∈ led →
      mm_realloc m p 0 = .ok (m', q) → Reachable m0 m' (led.remove p)
  | realloc {m m' : Heap} {led : Ledger} {n k p q : Nat} :
      Reachable m0 m led → (p, k) ∈ led → 0 < n → m.hdr_size + roundUp16 n < SIZE_MOD →
      mm_realloc m p n = .ok (m', q) → Reachable m0 m' ((q, n) :: led.remove p)
  | write {m : Heap} {led : Ledger} {n p i : Nat} (b : Nat) :
      Reachable m0 m led → (p, n) ∈ led → i < n →
      Reachable m0 (poke m (p + i) (some b)) led

/-! ## Concrete heaps used to instantiate the theorems -/

/-- An empty heap at address 4096 with a 16-byte header; it can grow to 4096 bytes. -/
def heap0 : Heap := ⟨16, 4096, 0, 4096, fun _ => none, fun _ => none⟩

/-- The state a call leaves behind (the state before the call if it faults). -/
def after (m : Heap) (r : Except Fault (Heap × Nat)) : Heap :=
  match r with
  | .ok (m', _) => m'
  | .error _ => m

/-- The state `mm_free` leaves behind (the state before the call if it faults). -/
def after_free (m : Heap) (r : Except Fault Heap) : Heap :=
  match r with
  | .ok m' => m'
  | .error _ => m

/-- `heap0` after `mm_malloc(8)`. -/
def heap1 : Heap := after heap0 (mm_malloc heap0 8)

/-- `heap0` after two calls `mm_malloc(8)`. -/
def heap2 : Heap := after heap1 (mm_malloc heap1 8)

/-- An empty heap whose substrate cannot grow at all. -/
def heap_full : Heap := ⟨16, 4096, 0, 0, fun _ => none, fun _ => none⟩

/-- `heap2` after releasing the first block. -/
def heap3 : Heap := after_free heap2 (mm_free heap2 4112)

/-- `heap2` after a third call `mm_malloc(8)`: three blocks. -/
def heap3b : Heap := after heap2 (mm_malloc heap2 8)

/-- `heap3b` after releasing the first block. -/
def heap4b : Heap := after_free heap3b (mm_free heap3b 4112)

/-- `heap4b` after releasing the second block. -/
def heap5b : Heap := after_free heap4b (mm_free heap4b 4144)

/-- `heap2` (two blocks) after releasing the first block and then the second. -/
def heap4 : Heap := after_free heap3 (mm_free heap3 4144)

/-- `heap0` after `mm_malloc(64)`. -/
def heap1c : Heap := after heap0 (mm_malloc heap0 64)

/-- `heap1c` after releasing its block. -/
def heap2c : Heap := after_free heap1c (mm_free heap1c 4112)

/-- `heap2c` after `mm_malloc(8)`. -/
def heap3c : Heap := after heap2c (mm_malloc heap2c 8)

/-- `heap1c` (one allocated chunk of 80 bytes) after `split` of that chunk with `csz = 0`. -/
def heap1d : Heap := after_free heap1c (split heap1c 4096 0)

/-! ## The subtractions evaluated by a call

The functions below are `split`, `mm_malloc` and `mm_realloc` again, each returning in
addition the list of the `size_t` subtractions `(minuend, subtrahend)` it evaluates:
`original->size - csz` in `split`, and `csz - original_size` and
`original_size - hdr_size` in `mm_realloc`.  In the condition
`next && !next->allocated && (next->size >= csz - original_size)` the subtraction is
evaluated only when the first two operands are true. -/

/-- A list of evaluated subtractions `(minuend, subtrahend)`. -/
abbrev SubLog := List (Nat × Nat)

/-- The function `split`, with the subtraction it evaluates. -/
def split_log (m : Heap) (original csz : Nat) : Except Fault (Heap × SubLog) :=
  match load m original with
  | .error e => .error e
  | .ok o =>
    let remain_size := usub o.size csz
    let min_payload := 16
    if remain_size < uadd m.hdr_size min_payload then .ok (m, [(o.size, csz)])
    else
      match set_size m original csz with
      | .error e => .error e
      | .ok m1 =>
        let n := original + csz
        .ok (init_chunk m1 n remain_size false, [(o.size, csz)])

/-- The function `mm_malloc`, with the subtractions it evaluates. -/
def mm_malloc_log (m : Heap) (size : Nat) : Except Fault ((Heap × Nat) × SubLog) :=
  let size := align size
  let csz := uadd m.hdr_size size
  match first_fit m csz with
  | .error e => .error e
  | .ok p =>
    let found : Except Fault ((Heap × Nat) × SubLog) :=
      if p = NULL then
        match ask_os_for_chunk m csz with
        | .error e => .error e
        | .ok (m1, p) =>
          match set_size m1 p csz with
          | .error e => .error e
          | .ok m2 => .ok ((m2, p), [])
      else
        match split_log m p csz with
        | .error e => .error e
        | .ok (m1, log) => .ok ((m1, p), log)
    match found with
    | .error e => .error e
    | .ok ((m1, p), log) =>
      match set_allocated m1 p true with
      | .error e => .error e
      | .ok m2 =>
        let p := p + m.hdr_size
        match debug_check m2 with
        | .error e => .error e
        | .ok _ => .ok ((m2, p), log)

/-- The function `mm_realloc`, with the subtractions it evaluates. -/
def mm_realloc_log (m : Heap) (ptr size : Nat) : Except Fault ((Heap × Nat) × SubLog) :=
  let size := align size
  if ptr = NULL then mm_malloc_log m size
  else if size = 0 then
    match mm_free m ptr with
    | .error e => .error e
    | .ok m1 => .ok ((m1, NULL), [])
  else
    let csz := uadd m.hdr_size size
    let h := payload2header m ptr
    match load m h with
    | .error e => .error e
    | .ok hd =>
      let original_size := hd.size
      if original_size ≥ csz then
        match split_log m h csz with
        | .error e => .error e
        | .ok (m1, log) => .ok ((m1, ptr), log)
      else
        match next_chunk m h with
        | .error e => .error e
        | .ok next =>
          let grow_in_place : Except Fault (Option Heap × SubLog) :=
            if next = NULL then .ok (none, [])
            else
              match load m next with
              | .error e => .error e
              | .ok nh =>
                if nh.allocated then .ok (none, [])
                else if nh.size ≥ usub csz original_size then
                  match set_size m h (uadd original_size nh.size) with
                  | .error e => .error e
                  | .ok m1 =>
                    match split_log m1 h csz with
                    | .error e => .error e
                    | .ok (m2, log) => .ok (some m2, (csz, original_size) :: log)
                else .ok (none, [(csz, original_size)])
          match grow_in_place with
          | .error e => .error e
          | .ok (some m2, log) => .ok ((m2, ptr), log)
          | .ok (none, log) =>
            match mm_malloc_log m size with
            | .error e => .error e
            | .ok ((m1, new_ptr), log1) =>
              let old_ptr := ptr
              let count := usub original_size m.hdr_size
              if count ≥ 2 ^ 31 then .error .int_overflow
              else
                let m2 := copy_loop new_ptr old_ptr count 0 m1
                match mm_free m2 ptr with
                | .error e => .error e
                | .ok m3 =>
                  .ok ((m3, new_ptr), log ++ log1 ++ [(original_size, m.hdr_size)])

/-- Forget the list of subtractions. -/
def drop_log {α : Type} (r : Except Fault (α × SubLog)) : Except Fault α :=
  match r with
  | .error e => .error e
  | .ok (a, _) => .ok a

/-- `heap3b` (three blocks) after releasing the second block. -/
def heap4e : Heap := after_free heap3b (mm_free heap3b 4144)

/-- `Kept m m' L' y d`: the chunk `d` that starts at `y` is a chunk of the walk `L'` of
`m'`, its header object is stored at `y` in `m'`, and all its bytes are the same in
`m'` as in `m`. -/
def Kept (m m' : Heap) (L' : List header_t) (y : Nat) (d : header_t) : Prop :=
  At m'.lo L' y d ∧ m'.hdr y = some d ∧ ∀ i, y ≤ i → i < y + d.size → m'.byte i = m.byte i

/-- `heap1` (one block) after releasing its block: one free chunk of 32 bytes. -/
def heap2o : Heap := after_free heap1 (mm_free heap1 4112)

/-- `heap2o` after `mm_malloc(2 ^ 64 - 16)`. -/
def heap3o : Heap := after heap2o (mm_malloc heap2o (2 ^ 64 - 16))

/-- `heap3o` after `mm_malloc(8)`. -/
def heap4o : Heap := after heap3o (mm_malloc heap3o 8)

/-- `heap1c` (one block of 64 bytes) after `mm_malloc(8)`: two blocks. -/
def heap2s : Heap := after heap1c (mm_malloc heap1c 8)

/-- `heap2s` after releasing the second block. -/
def heap3s : Heap := after_free heap2s (mm_free heap2s 4192)

/-- `heap3s` after `mm_realloc(4112, 8)`, which shrinks the first block in place. -/
def heap4s : Heap := after heap3s (mm_realloc heap3s 4112 8)

/-- `heap2` (two blocks) after `mm_realloc(4112, 2 ^ 64 - 16)`. -/
def heap3u : Heap := after heap2 (mm_realloc heap2 4112 (2 ^ 64 - 16))

/-! ## Arithmetic facts -/

theorem uadd_small {a b : Nat} (h : a + b < SIZE_MOD) : uadd a b = a + b := by
  unfold uadd; exact Nat.mod_eq_of_lt h

theorem usub_small {a b : Nat} (hb : b ≤ a) (ha : a < SIZE_MOD) : usub a b = a - b := by
  unfold usub
  have hb' : b % SIZE_MOD = b := Nat.mod_eq_of_lt (by omega)
  rw [hb']
  have : a + SIZE_MOD - b = (a - b) + SIZE_MOD := by omega
  rw [this, Nat.add_mod_right]
  exact Nat.mod_eq_of_lt (by omega)

theorem roundUp16_ge (n : Nat) : n ≤ roundUp16 n := by
  unfold roundUp16; omega

theorem roundUp16_mod (n : Nat) : roundUp16 n % 16 = 0 := by
  unfold roundUp16; omega

theorem align_small {n : Nat} (h : roundUp16 n < SIZE_MOD) : align n = roundUp16 n := by
  unfold align; exact Nat.mod_eq_of_lt h

theorem align_mod (n : Nat) : align n % 16 = 0 := by
  unfold align roundUp16 SIZE_MOD; omega

theorem roundUp16_idem (n : Nat) : roundUp16 (roundUp16 n) = roundUp16 n := by
  unfold roundUp16; omega

/-! ## Memory facts -/

@[simp] theorem store_hdr_size (m : Heap) (p : Nat) (h : header_t) :
    (store m p h).hdr_size = m.hdr_size := rfl
@[simp] theorem store_lo (m : Heap) (p : Nat) (h : header_t) : (store m p h).lo = m.lo := rfl
@[simp] theorem store_size (m : Heap) (p : Nat) (h : header_t) :
    (store m p h).size = m.size := rfl
@[simp] theorem store_cap (m : Heap) (p : Nat) (h : header_t) : (store m p h).cap = m.cap := rfl

@[simp] theorem store_hdr_same (m : Heap) (p : Nat) (h : header_t) :
    (store m p h).hdr p = some h := by
  simp [store]

theorem store_hdr_far (m : Heap) (p : Nat) (h : header_t) (x : Nat)
    (hx : x + m.hdr_size ≤ p ∨ p + m.hdr_size ≤ x) (hne : x ≠ p) :
    (store m p h).hdr x = m.hdr x := by
  simp only [store]
  rw [if_neg hne, if_neg (by omega)]

theorem store_byte_far (m : Heap) (p : Nat) (h : header_t) (x : Nat)
    (hx : x < p ∨ p + m.hdr_size ≤ x) : (store m p h).byte x = m.byte x := by
  simp only [store]
  rw [if_neg (by omega)]


/-! ## Chunk lists -/

theorem total_append (L1 L2 : List header_t) : total (L1 ++ L2) = total L1 + total L2 := by
  induction L1 with
  | nil => simp [total]
  | cons c L ih => simp [total, ih]; omega

theorem seg_end {m : Heap} {L : List header_t} {a b : Nat} (h : Seg m a L b) :
    a + total L = b := by
  induction L generalizing a with
  | nil => simpa [Seg, total] using h
  | cons c L ih =>
    obtain ⟨_, _, h3⟩ := h
    have := ih h3
    simp only [total]; omega

theorem seg_length {m : Heap} {L : List header_t} {a b : Nat} (h : Seg m a L b)
    (hp : 0 < m.hdr_size) : L.length ≤ total L := by
  induction L generalizing a with
  | nil => simp
  | cons c L ih =>
    obtain ⟨_, h2, h3⟩ := h
    have := ih h3
    simp only [total, List.length_cons]; omega

theorem seg_append {m : Heap} {L1 L2 : List header_t} {a b : Nat} :
    Seg m a (L1 ++ L2) b ↔ Seg m a L1 (a + total L1) ∧ Seg m (a + total L1) L2 b := by
  induction L1 generalizing a with
  | nil => simp [Seg, total]
  | cons c L ih =>
    simp only [List.cons_append, Seg, total, List.append_eq, ih, Nat.add_assoc, and_assoc]

/-- A walk only depends on the header objects stored at the places where a chunk of at
least header size can start. -/
theorem seg_frame {m m' : Heap} {L : List header_t} {a b : Nat} (h : Seg m a L b)
    (hs : m'.hdr_size = m.hdr_size)
    (hf : ∀ x, a ≤ x → x + m.hdr_size ≤ b → m'.hdr x = m.hdr x) : Seg m' a L b := by
  induction L generalizing a with
  | nil => exact h
  | cons c L ih =>
    obtain ⟨h1, h2, h3⟩ := h
    have he := seg_end h3
    refine ⟨?_, ?_, ih h3 ?_⟩
    · rw [hf a (Nat.le_refl a) (by omega)]; exact h1
    · rw [hs]; exact h2
    · intro x hx hxb; exact hf x (by omega) hxb

theorem at_append {a : Nat} {L1 L2 : List header_t} {x : Nat} {d : header_t} :
    At a (L1 ++ L2) x d ↔ At a L1 x d ∨ At (a + total L1) L2 x d := by
  induction L1 generalizing a with
  | nil => simp [At, total]
  | cons c L ih =>
    simp only [List.cons_append, At, total, List.append_eq, ih, Nat.add_assoc, or_assoc]

theorem at_decomp {a : Nat} {L : List header_t} {x : Nat} {d : header_t} (h : At a L x d) :
    ∃ L1 L2, L = L1 ++ d :: L2 ∧ x = a + total L1 := by
  induction L generalizing a with
  | nil => exact h.elim
  | cons c L ih =>
    rcases h with ⟨rfl, rfl⟩ | h
    · exact ⟨[], L, rfl, by simp [total]⟩
    · obtain ⟨L1, L2, rfl, rfl⟩ := ih h
      exact ⟨c :: L1, L2, rfl, by simp [total]; omega⟩

theorem at_mid (a : Nat) (L1 L2 : List header_t) (d : header_t) :
    At a (L1 ++ d :: L2) (a + total L1) d :=
  at_append.2 (Or.inr (Or.inl ⟨rfl, rfl⟩))

theorem at_mem {a : Nat} {L : List header_t} {x : Nat} {d : header_t} (h : At a L x d) :
    d ∈ L := by
  obtain ⟨L1, L2, rfl, _⟩ := at_decomp h
  simp

theorem at_bounds {a : Nat} {L : List header_t} {x : Nat} {d : header_t} (h : At a L x d) :
    a ≤ x ∧ x + d.size ≤ a + total L := by
  obtain ⟨L1, L2, rfl, rfl⟩ := at_decomp h
  simp only [total_append, total]; omega

/-- Two chunks of a walk are the same chunk or do not overlap. -/
theorem at_disjoint {hs a : Nat} {L : List header_t} (hp : ∀ c ∈ L, hs ≤ c.size)
    {x y : Nat} {d e : header_t} (hx : At a L x d) (hy : At a L y e) :
    (x = y ∧ d = e) ∨ x + d.size ≤ y ∨ y + e.size ≤ x := by
  induction L generalizing a with
  | nil => exact hx.elim
  | cons c L ih =>
    have hc := hp c (List.mem_cons_self _ _)
    have hp' : ∀ c ∈ L, hs ≤ c.size := fun c' h' => hp c' (List.mem_cons_of_mem _ h')
    rcases hx with ⟨rfl, rfl⟩ | hx <;> rcases hy with ⟨rfl, rfl⟩ | hy
    · exact Or.inl ⟨rfl, rfl⟩
    · have := at_bounds hy; right; left; omega
    · have := at_bounds hx; right; right; omega
    · exact ih hp' hx hy

theorem seg_sizes {m : Heap} {L : List header_t} {a b : Nat} (h : Seg m a L b) :
    ∀ c ∈ L, m.hdr_size ≤ c.size := by
  induction L generalizing a with
  | nil => simp
  | cons c L ih =>
    obtain ⟨_, h2, h3⟩ := h
    intro d hd
    rcases List.mem_cons.1 hd with rfl | hd
    · exact h2
    · exact ih h3 d hd

theorem seg_at {m : Heap} {L : List header_t} {a b x : Nat} {d : header_t} (h : Seg m a L b)
    (hx : At a L x d) : m.hdr x = some d := by
  obtain ⟨L1, L2, rfl, rfl⟩ := at_decomp hx
  exact (seg_append.1 h).2.1

/-! ## Heap walks on a tiled heap -/

theorem load_seg {m : Heap} {c : header_t} {L : List header_t} {p b : Nat}
    (h : Seg m p (c :: L) b) : load m p = .ok c := by
  simp [load, h.1]

theorem next_chunk_last {m : Heap} {c : header_t} {p : Nat} (hlo : 0 < m.lo) (hp : m.lo ≤ p)
    (h : Seg m p [c] (m.lo + m.size)) : next_chunk m p = .ok NULL := by
  obtain ⟨h1, _, h3⟩ := h
  have h3' : p + c.size = m.lo + m.size := h3
  have hne : p ≠ NULL := by unfold NULL; omega
  have hhi : mem_heap_hi m + 1 = m.lo + m.size := by unfold mem_heap_hi; omega
  simp [next_chunk, hne, load, h1, hhi, h3']

theorem next_chunk_cons {m : Heap} {c d : header_t} {L : List header_t} {p : Nat}
    (hlo : 0 < m.lo) (hh : 0 < m.hdr_size) (hp : m.lo ≤ p)
    (h : Seg m p (c :: d :: L) (m.lo + m.size)) : next_chunk m p = .ok (p + c.size) := by
  obtain ⟨h1, _, h3⟩ := h
  have he := seg_end h3
  have hd : m.hdr_size ≤ d.size := h3.2.1
  have hne : p ≠ NULL := by unfold NULL; omega
  have hhi : mem_heap_hi m + 1 = m.lo + m.size := by unfold mem_heap_hi; omega
  have hne2 : p + c.size ≠ m.lo + m.size := by simp only [total] at he; omega
  simp [next_chunk, hne, load, h1, hhi, hne2]

theorem fit_false_iff (csz : Nat) (c : header_t) :
    fit csz c = false ↔ (c.allocated || decide (c.size < csz)) = true := by
  unfold fit
  cases c.allocated <;> simp

theorem first_fit_loop_seg {m : Heap} (csz : Nat) (hlo : 0 < m.lo) (hh : 0 < m.hdr_size) :
    ∀ (L : List header_t) (c : header_t) (p fuel : Nat),
      Seg m p (c :: L) (m.lo + m.size) → m.lo ≤ p → L.length < fuel →
      first_fit_loop m csz fuel p = .ok (find_fit csz p (c :: L)) := by
  intro L
  induction L with
  | nil =>
    intro c p fuel h hp hf
    obtain ⟨f, rfl⟩ : ∃ f, fuel = f + 1 := ⟨fuel - 1, by omega⟩
    have hne : p ≠ NULL := by unfold NULL; omega
    by_cases hfit : fit csz c = true
    · have hcond : (c.allocated || decide (c.size < csz)) = false := by
        cases hb : (c.allocated || decide (c.size < csz))
        · rfl
        · rw [(fit_false_iff csz c).2 hb] at hfit; cases hfit
      simp [first_fit_loop, hne, load_seg h, hcond, find_fit, hfit]
    · have hfit' : fit csz c = false := by simpa using hfit
      have hcond := (fit_false_iff csz c).1 hfit'
      simp only [first_fit_loop, hne, load_seg h, hcond, find_fit, hfit', if_true, if_false,
        next_chunk_last hlo hp h]
      simp
  | cons d L ih =>
    intro c p fuel h hp hf
    obtain ⟨f, rfl⟩ : ∃ f, fuel = f + 1 := ⟨fuel - 1, by simp at hf; omega⟩
    have hne : p ≠ NULL := by unfold NULL; omega
    by_cases hfit : fit csz c = true
    · have hcond : (c.allocated || decide (c.size < csz)) = false := by
        cases hb : (c.allocated || decide (c.size < csz))
        · rfl
        · rw [(fit_false_iff csz c).2 hb] at hfit; cases hfit
      simp [first_fit_loop, hne, load_seg h, hcond, find_fit, hfit]
    · have hfit' : fit csz c = false := by simpa using hfit
      have hcond := (fit_false_iff csz c).1 hfit'
      have hq : p + c.size ≠ NULL := by unfold NULL; omega
      have hrec := ih d (p + c.size) f h.2.2 (by omega) (by simp at hf; omega)
      simp only [first_fit_loop, hne, load_seg h, hcond, if_true, if_false,
        next_chunk_cons hlo hh hp h, hq, hrec]
      simp [find_fit, hfit']

theorem first_fit_wf {m : Heap} {L : List header_t} (hw : WF m L) (csz : Nat) :
    first_fit m csz = .ok (find_fit csz m.lo L) := by
  cases L with
  | nil =>
    have hs : m.size = 0 := by have := seg_end hw.seg; simp [total] at this; omega
    simp [first_fit, next_chunk, mem_heapsize, hs, first_fit_loop, find_fit]
  | cons c L =>
    have he := seg_end hw.seg
    have hc : m.hdr_size ≤ c.size := hw.seg.2.1
    have hl := seg_length hw.seg.2.2 hw.hdr_pos
    have hpos := hw.hdr_pos
    have hs : m.size ≠ 0 := by simp only [total] at he; omega
    have := first_fit_loop_seg csz hw.lo_pos hw.hdr_pos L c m.lo (m.size + 1) hw.seg
      (Nat.le_refl _) (by simp only [total] at he; omega)
    simp [first_fit, next_chunk, mem_heapsize, mem_heap_lo, hs, this]

/-- The first fitting chunk, when there is one, sits behind chunks that do not fit. -/
theorem find_fit_found {csz a : Nat} {L : List header_t} (ha : 0 < a)
    (h : find_fit csz a L ≠ NULL) :
    ∃ L1 c L2, L = L1 ++ c :: L2 ∧ find_fit csz a L = a + total L1 ∧ fit csz c = true ∧
      ∀ d ∈ L1, fit csz d = false := by
  induction L generalizing a with
  | nil => exact (h rfl).elim
  | cons c L ih =>
    by_cases hfit : fit csz c = true
    · exact ⟨[], c, L, rfl, by simp [find_fit, hfit, total], hfit, by simp⟩
    · have hfit' : fit csz c = false := by simpa using hfit
      have h' : find_fit csz (a + c.size) L ≠ NULL := by simpa [find_fit, hfit'] using h
      obtain ⟨L1, d, L2, rfl, h2, h3, h4⟩ := ih (a := a + c.size) (by omega) h'
      refine ⟨c :: L1, d, L2, rfl, ?_, h3, ?_⟩
      · simp only [find_fit, hfit', total]; rw [if_neg (by simp), h2]; omega
      · intro e he
        rcases List.mem_cons.1 he with rfl | he
        · exact hfit'
        · exact h4 e he

theorem find_fit_null {csz a : Nat} {L : List header_t} (ha : 0 < a) :
    find_fit csz a L = NULL ↔ ∀ d ∈ L, fit csz d = false := by
  induction L generalizing a with
  | nil => simp [find_fit]
  | cons c L ih =>
    by_cases hfit : fit csz c = true
    · simp only [find_fit, hfit, if_true, List.mem_cons, forall_eq_or_imp]
      constructor
      · intro h; unfold NULL at h; omega
      · intro h; exact absurd h.1 (by simp)
    · have hfit' : fit csz c = false := by simpa using hfit
      simp only [find_fit, hfit', List.mem_cons, forall_eq_or_imp, true_and]
      rw [if_neg (by simp)]
      exact ih (a := a + c.size) (by omega)

/-! ## Local changes of the memory -/

theorem frame_refl (m : Heap) (p q : Nat) : Frame m m p q :=
  ⟨rfl, rfl, rfl, fun _ _ => rfl, fun _ _ => rfl⟩

theorem frame_trans {m1 m2 m3 : Heap} {p q : Nat} (h1 : Frame m1 m2 p q)
    (h2 : Frame m2 m3 p q) : Frame m1 m3 p q := by
  refine ⟨h2.hdr_size.trans h1.hdr_size, h2.lo.trans h1.lo, h2.cap.trans h1.cap, ?_, ?_⟩
  · intro x hx
    rw [h2.hdr x (by rw [h1.hdr_size]; exact hx), h1.hdr x hx]
  · intro x hx
    rw [h2.byte x hx, h1.byte x hx]

theorem frame_mono {m m' : Heap} {p q p' q' : Nat} (h : Frame m m' p q) (hp : p' ≤ p)
    (hq : q ≤ q') : Frame m m' p' q' := by
  refine ⟨h.hdr_size, h.lo, h.cap, ?_, ?_⟩
  · intro x hx; exact h.hdr x (by omega)
  · intro x hx; exact h.byte x (by omega)

theorem frame_store (m : Heap) (s : Nat) (c : header_t) (hh : 0 < m.hdr_size) :
    Frame m (store m s c) s (s + m.hdr_size) := by
  refine ⟨rfl, rfl, rfl, ?_, ?_⟩
  · intro x hx; exact store_hdr_far m s c x (by omega) (by omega)
  · intro x hx; exact store_byte_far m s c x hx

theorem seg_frame_left {m m' : Heap} {L : List header_t} {a b p q : Nat} (h : Seg m a L b)
    (hf : Frame m m' p q) (hb : b ≤ p) : Seg m' a L b :=
  seg_frame h hf.hdr_size (fun x _ hx => hf.hdr x (Or.inl (by omega)))

theorem seg_frame_right {m m' : Heap} {L : List header_t} {a b p q : Nat} (h : Seg m a L b)
    (hf : Frame m m' p q) (hb : q ≤ a) : Seg m' a L b :=
  seg_frame h hf.hdr_size (fun x hx _ => hf.hdr x (Or.inr (by omega)))

/-- Replacing the chunks in the middle of a tiled heap. -/
theorem wf_replace {m m' : Heap} {L1 Mid Mid' L2 : List header_t}
    (hw : WF m (L1 ++ (Mid ++ L2))) (hf : Frame m m' (m.lo + total L1)
      (m.lo + total L1 + total Mid)) (hs : m'.size = m.size)
    (hmid : Seg m' (m.lo + total L1) Mid' (m.lo + total L1 + total Mid)) :
    WF m' (L1 ++ (Mid' ++ L2)) := by
  have h1 := seg_append.1 hw.seg
  have h2 := seg_append.1 h1.2
  have hmt := seg_end hmid
  refine ⟨by rw [hf.lo]; exact hw.lo_pos, by rw [hf.hdr_size]; exact hw.hdr_pos,
    by rw [hf.hdr_size]; exact hw.hdr_small, by rw [hf.lo, hf.cap]; exact hw.fits,
    by rw [hs, hf.cap]; exact hw.size_le, ?_⟩
  rw [hf.lo, hs]
  refine seg_append.2 ⟨seg_frame_left h1.1 hf (Nat.le_refl _), seg_append.2 ⟨?_, ?_⟩⟩
  · have : m.lo + total L1 + total Mid' = m.lo + total L1 + total Mid := hmt
    rw [this]; exact hmid
  · have : m.lo + total L1 + total Mid' = m.lo + total L1 + total Mid := hmt
    rw [this]; exact seg_frame_right h2.2 hf (Nat.le_refl _)

theorem seg_store_head {m : Heap} {c c' : header_t} {L : List header_t} {p b : Nat}
    (h : Seg m p (c :: L) b) (hc : c'.size = c.size) (hh : 0 < m.hdr_size) :
    Seg (store m p c') p (c' :: L) b := by
  refine ⟨store_hdr_same m p c', ?_, ?_⟩
  · rw [hc]; exact h.2.1
  · rw [hc]
    have := h.2.1
    exact seg_frame_right h.2.2 (frame_store m p c' hh) (by omega)

theorem set_allocated_seg {m : Heap} {c : header_t} {L : List header_t} {p b : Nat}
    (h : Seg m p (c :: L) b) (v : Bool) :
    set_allocated m p v = .ok (store m p ⟨c.size, v⟩) := by
  simp [set_allocated, h.1]

theorem set_size_seg {m : Heap} {c : header_t} {L : List header_t} {p b : Nat}
    (h : Seg m p (c :: L) b) (v : Nat) :
    set_size m p v = .ok (store m p ⟨v, c.allocated⟩) := by
  simp [set_size, h.1]

/-- The effect of `split` on a chunk of a tiled heap. -/
theorem split_seg {m : Heap} {c : header_t} {L : List header_t} {p b csz : Nat}
    (h : Seg m p (c :: L) b) (hh : 0 < m.hdr_size) (hsm : m.hdr_size + 16 < SIZE_MOD)
    (h1 : m.hdr_size ≤ csz) (h2 : csz ≤ c.size) (h3 : c.size < SIZE_MOD) :
    ∃ m', split m p csz = .ok m' ∧ Seg m' p (split_list m.hdr_size csz c ++ L) b ∧
      Frame m m' p (p + c.size) ∧ m'.size = m.size := by
  have hc := h.2.1
  have hu : usub c.size csz = c.size - csz := usub_small h2 h3
  have ha : uadd m.hdr_size 16 = m.hdr_size + 16 := uadd_small hsm
  by_cases hr : c.size - csz < m.hdr_size + 16
  · refine ⟨m, ?_, ?_, frame_refl _ _ _, rfl⟩
    · simp [split, load_seg h, hu, ha, hr]
    · simpa [split_list, hr] using h
  · refine ⟨store (store m p ⟨csz, c.allocated⟩) (p + csz) ⟨c.size - csz, false⟩, ?_, ?_, ?_,
      rfl⟩
    · simp [split, load_seg h, hu, ha, hr, set_size_seg h, init_chunk]
    · have hf1 : Frame m (store m p ⟨csz, c.allocated⟩) p (p + c.size) :=
        frame_mono (frame_store m p _ hh) (Nat.le_refl _) (by omega)
      have hf2 : Frame (store m p ⟨csz, c.allocated⟩)
          (store (store m p ⟨csz, c.allocated⟩) (p + csz) ⟨c.size - csz, false⟩) p
          (p + c.size) :=
        frame_mono (frame_store _ (p + csz) _ hh) (by omega)
          (by simp only [store_hdr_size]; omega)
      simp only [split_list, hr, if_false, List.cons_append, List.nil_append]
      refine ⟨?_, h1, ?_, ?_, ?_⟩
      · rw [store_hdr_far _ _ _ _ (by simp only [store_hdr_size]; omega) (by omega)]
        exact store_hdr_same _ _ _
      · exact store_hdr_same _ _ _
      · show m.hdr_size ≤ c.size - csz
        omega
      · show Seg _ (p + csz + (c.size - csz)) L b
        have : p + csz + (c.size - csz) = p + c.size := by omega
        rw [this]
        exact seg_frame_right h.2.2 (frame_trans hf1 hf2) (Nat.le_refl _)
    · exact frame_trans
        (frame_mono (frame_store m p _ hh) (Nat.le_refl _) (by omega))
        (frame_mono (frame_store _ (p + csz) _ hh) (by omega)
          (by simp only [store_hdr_size]; omega))

/-- `split` leaves the first `csz - hdr_size` payload bytes of the chunk alone. -/
theorem split_bytes {m m' : Heap} {x csz : Nat} (h : split m x csz = .ok m') {y : Nat}
    (h1 : x + m.hdr_size ≤ y) (h2 : y < x + csz) : m'.byte y = m.byte y := by
  unfold split at h
  cases hl : m.hdr x with
  | none => simp [load, hl] at h
  | some o =>
    simp only [load, hl] at h
    by_cases hr : usub o.size csz < uadd m.hdr_size 16
    · rw [if_pos hr] at h
      have : m = m' := by simpa using h
      rw [this]
    · rw [if_neg hr] at h
      simp only [set_size, hl, init_chunk] at h
      have : store (store m x ⟨csz, o.allocated⟩) (x + csz) ⟨usub o.size csz, false⟩ = m' := by
        simpa using h
      rw [← this, store_byte_far _ _ _ _ (Or.inl h2), store_byte_far _ _ _ _ (Or.inr h1)]

/-! ## `mm_malloc` on a tiled heap -/

theorem find_fit_append {csz a : Nat} {L1 L : List header_t}
    (h : ∀ d ∈ L1, fit csz d = false) :
    find_fit csz a (L1 ++ L) = find_fit csz (a + total L1) L := by
  induction L1 generalizing a with
  | nil => simp [total]
  | cons c L1 ih =>
    have hc := h c (List.mem_cons_self _ _)
    have ih' := ih (a := a + c.size) (fun d hd => h d (List.mem_cons_of_mem _ hd))
    simp only [List.cons_append, find_fit, hc, total, List.append_eq]
    rw [if_neg (by simp), ih', Nat.add_assoc]

theorem debug_check_ok (m : Heap) : debug_check m = .ok () := by
  simp [debug_check, debug]

/-- The chunk size computed by `mm_malloc` when it does not wrap around. -/
theorem csz_small {hdr n : Nat} (h : hdr + roundUp16 n < SIZE_MOD) :
    uadd hdr (align n) = hdr + roundUp16 n := by
  rw [align_small (by omega), uadd_small h]

theorem wf_chunk_lt {m : Heap} {L1 L2 : List header_t} {c : header_t}
    (hw : WF m (L1 ++ c :: L2)) : m.lo + total L1 + c.size ≤ m.lo + m.size ∧
      c.size < SIZE_MOD := by
  have he := seg_end hw.seg
  have := hw.size_le
  have := hw.fits
  simp only [total_append, total] at he
  omega

/-- `mm_malloc` when first-fit finds the chunk `c`. -/
theorem mm_malloc_found {m : Heap} {L1 L2 : List header_t} {c : header_t} {n : Nat}
    (hw : WF m (L1 ++ c :: L2)) (hn : m.hdr_size + roundUp16 n < SIZE_MOD)
    (hfit : fit (m.hdr_size + roundUp16 n) c = true)
    (hnot : ∀ d ∈ L1, fit (m.hdr_size + roundUp16 n) d = false) :
    ∃ m', mm_malloc m n = .ok (m', m.lo + total L1 + m.hdr_size) ∧
      WF m' (L1 ++ (split_list m.hdr_size (m.hdr_size + roundUp16 n) ⟨c.size, true⟩ ++ L2)) ∧
      Frame m m' (m.lo + total L1) (m.lo + total L1 + c.size) ∧ m'.size = m.size := by
  have hseg := (seg_append.1 hw.seg).2
  have hcl := (wf_chunk_lt hw).2
  have hle : m.hdr_size + roundUp16 n ≤ c.size := by
    simp only [fit, Bool.and_eq_true, decide_eq_true_eq] at hfit; exact hfit.2
  have hfree : c.allocated = false := by
    simp only [fit, Bool.and_eq_true, Bool.not_eq_true'] at hfit; exact hfit.1
  obtain ⟨m1, hsp, hseg1, hfr1, hsz1⟩ :=
    split_seg hseg hw.hdr_pos hw.hdr_small (Nat.le_add_right _ _) hle hcl
  have hff : first_fit m (m.hdr_size + roundUp16 n) = .ok (m.lo + total L1) := by
    rw [first_fit_wf hw, find_fit_append hnot]
    simp [find_fit, hfit]
  have hne : m.lo + total L1 ≠ NULL := by have := hw.lo_pos; unfold NULL; omega
  have hpos1 : 0 < m1.hdr_size := by rw [hfr1.hdr_size]; exact hw.hdr_pos
  -- the chunk list after the split starts with a chunk at the same place
  obtain ⟨h0, T, hT, hT'⟩ : ∃ h0 T, split_list m.hdr_size (m.hdr_size + roundUp16 n) c = h0 :: T ∧
      split_list m.hdr_size (m.hdr_size + roundUp16 n) ⟨c.size, true⟩
        = ⟨h0.size, true⟩ :: T := by
    unfold split_list
    by_cases hr : c.size - (m.hdr_size + roundUp16 n) < m.hdr_size + 16
    · exact ⟨c, [], by simp [hr], by simp [hr]⟩
    · exact ⟨⟨m.hdr_size + roundUp16 n, c.allocated⟩,
        [⟨c.size - (m.hdr_size + roundUp16 n), false⟩], by simp [hr], by simp [hr]⟩
  rw [hT] at hseg1
  have hseg1' : Seg m1 (m.lo + total L1) (h0 :: (T ++ L2)) (m.lo + m.size) := hseg1
  have hsa := set_allocated_seg hseg1' true
  refine ⟨store m1 (m.lo + total L1) ⟨h0.size, true⟩, ?_, ?_, ?_, ?_⟩
  · simp only [mm_malloc, csz_small hn, hff, hne, if_false, hsp, hsa, debug_check_ok]
  · have hw' : WF m (L1 ++ ([c] ++ L2)) := hw
    have hfr : Frame m (store m1 (m.lo + total L1) ⟨h0.size, true⟩) (m.lo + total L1)
        (m.lo + total L1 + total [c]) := by
      simp only [total, Nat.add_zero]
      refine frame_trans hfr1 (frame_mono (frame_store m1 _ _ hpos1) (Nat.le_refl _) ?_)
      rw [hfr1.hdr_size]; have := hseg.2.1; omega
    refine wf_replace hw' hfr (by simpa using hsz1) ?_
    rw [hT']
    have hx := @seg_store_head _ _ ⟨h0.size, true⟩ _ _ _ hseg1' rfl hpos1
    have hx' := (@seg_append _ (⟨h0.size, true⟩ :: T) L2 _ _).1 hx
    have hx1 := hx'.1
    have hend : m.lo + total L1 + total (⟨h0.size, true⟩ :: T) = m.lo + total L1 + total [c] := by
      have e1 := seg_end hseg1'
      have e2 := seg_end hseg
      simp only [total, total_append] at e1 e2 ⊢
      omega
    rw [hend] at hx1
    exact hx1
  · refine frame_trans hfr1 (frame_mono (frame_store m1 _ _ hpos1) (Nat.le_refl _) ?_)
    rw [hfr1.hdr_size]; have := hseg.2.1; omega
  · simpa using hsz1

/-- `mm_malloc` when no free chunk fits and the heap can grow. -/
theorem mm_malloc_grow {m : Heap} {L : List header_t} {n : Nat}
    (hw : WF m L) (hn : m.hdr_size + roundUp16 n < SIZE_MOD)
    (hnot : ∀ d ∈ L, fit (m.hdr_size + roundUp16 n) d = false)
    (hcap : m.size + (m.hdr_size + roundUp16 n) ≤ m.cap) :
    ∃ m', mm_malloc m n = .ok (m', m.lo + m.size + m.hdr_size) ∧
      WF m' (L ++ [⟨m.hdr_size + roundUp16 n, true⟩]) ∧
      Frame m m' (m.lo + m.size) (m.lo + m.size + m.hdr_size) ∧
      m'.size = m.size + (m.hdr_size + roundUp16 n) := by
  have hff : first_fit m (m.hdr_size + roundUp16 n) = .ok NULL := by
    rw [first_fit_wf hw]; exact congrArg _ ((find_fit_null hw.lo_pos).2 hnot)
  have hpos := hw.hdr_pos
  let m1 : Heap := { m with size := m.size + (m.hdr_size + roundUp16 n) }
  let m' : Heap := store (store (store m1 (m.lo + m.size) ⟨m.hdr_size + roundUp16 n, false⟩)
    (m.lo + m.size) ⟨m.hdr_size + roundUp16 n, false⟩) (m.lo + m.size)
    ⟨m.hdr_size + roundUp16 n, true⟩
  have hfr : Frame m m' (m.lo + m.size) (m.lo + m.size + m.hdr_size) := by
    have f0 : Frame m m1 (m.lo + m.size) (m.lo + m.size + m.hdr_size) :=
      ⟨rfl, rfl, rfl, fun _ _ => rfl, fun _ _ => rfl⟩
    exact frame_trans (frame_trans (frame_trans f0 (frame_store m1 _ _ hpos))
      (frame_store _ _ _ hpos)) (frame_store _ _ _ hpos)
  refine ⟨m', ?_, ?_, hfr, rfl⟩
  · simp only [mm_malloc, csz_small hn, hff, if_true, ask_os_for_chunk, mem_sbrk, hcap,
      init_chunk, set_size, set_allocated, store_hdr_same, debug_check_ok]
  · have he := seg_end hw.seg
    refine ⟨hw.lo_pos, hw.hdr_pos, hw.hdr_small, hw.fits, hcap, ?_⟩
    show Seg m' m.lo (L ++ [⟨m.hdr_size + roundUp16 n, true⟩])
      (m.lo + (m.size + (m.hdr_size + roundUp16 n)))
    refine seg_append.2 ⟨?_, ?_⟩
    · rw [he]; exact seg_frame_left hw.seg hfr (Nat.le_refl _)
    · rw [he]
      exact ⟨store_hdr_same _ _ _, Nat.le_add_right _ _, by
        show m.lo + m.size + (m.hdr_size + roundUp16 n) = _; omega⟩

/-! ## `mm_checkheap` on a tiled heap -/

theorem checkheap_loop_seg {m : Heap} (hlo : 0 < m.lo) (hh : 0 < m.hdr_size) :
    ∀ (L : List header_t) (c : header_t) (p fuel : Nat) (info : heap_info_t),
      Seg m p (c :: L) (m.lo + m.size) → m.lo ≤ p → L.length + 1 < fuel →
      checkheap_loop m fuel p info = .ok (stats (c :: L) info) := by
  intro L
  induction L with
  | nil =>
    intro c p fuel info h hp hf
    obtain ⟨f, rfl⟩ : ∃ f, fuel = f + 2 := ⟨fuel - 2, by simp at hf; omega⟩
    have hne : p ≠ NULL := by unfold NULL; omega
    simp only [checkheap_loop, hne, load_seg h, if_false, next_chunk_last hlo hp h, stats]
    simp
  | cons d L ih =>
    intro c p fuel info h hp hf
    obtain ⟨f, rfl⟩ : ∃ f, fuel = f + 1 := ⟨fuel - 1, by omega⟩
    have hne : p ≠ NULL := by unfold NULL; omega
    have hrec := fun i => ih d (p + c.size) f i h.2.2 (by omega) (by simp at hf; omega)
    simp only [checkheap_loop, hne, load_seg h, if_false, next_chunk_cons hlo hh hp h, hrec]
    rfl

theorem total_allocd_freed (L : List header_t) :
    total (allocd L) + total (freed L) = total L := by
  induction L with
  | nil => rfl
  | cons c L ih =>
    cases hc : c.allocated <;> simp only [allocd, freed] at ih ⊢ <;>
      simp [List.filter, hc, total] <;> omega

theorem stats_eq (L : List header_t) (info : heap_info_t)
    (h : info.allocated_size + info.free_size + total L < SIZE_MOD) :
    stats L info = ⟨info.num_allocated_chunks + (allocd L).length,
      info.num_free_chunks + (freed L).length, info.free_size + total (freed L),
      info.allocated_size + total (allocd L)⟩ := by
  induction L generalizing info with
  | nil => simp [stats, allocd, freed, total]
  | cons c L ih =>
    cases hc : c.allocated
    · have hu : uadd info.free_size c.size = info.free_size + c.size :=
        uadd_small (by simp only [total] at h; omega)
      have e1 : stats (c :: L) info = stats L { info with
          num_free_chunks := info.num_free_chunks + 1
          free_size := info.free_size + c.size } := by simp [stats, hc, hu]
      rw [e1, ih _ (by simp only [total] at h ⊢; omega)]
      simp [allocd, freed, List.filter, hc, total]
      omega
    · have hu : uadd info.allocated_size c.size = info.allocated_size + c.size :=
        uadd_small (by simp only [total] at h; omega)
      have e1 : stats (c :: L) info = stats L { info with
          num_allocated_chunks := info.num_allocated_chunks + 1
          allocated_size := info.allocated_size + c.size } := by simp [stats, hc, hu]
      rw [e1, ih _ (by simp only [total] at h ⊢; omega)]
      simp [allocd, freed, List.filter, hc, total]
      omega

/-- On a tiled heap `mm_checkheap` returns the statistics of the chunk list, and its
assertion holds. -/
theorem mm_checkheap_wf {m : Heap} {L : List header_t} (hw : WF m L) (verbose : Bool) :
    mm_checkheap m verbose = .ok ⟨(allocd L).length, (freed L).length, total (freed L),
      total (allocd L)⟩ := by
  have he := seg_end hw.seg
  have hb : total L < SIZE_MOD := by have := hw.fits; have := hw.size_le; omega
  have hst := stats_eq L ⟨0, 0, 0, 0⟩ (by simpa using hb)
  simp only [Nat.zero_add] at hst
  have hsum := total_allocd_freed L
  have hassert : m.size = uadd (total (allocd L)) (total (freed L)) := by
    rw [uadd_small (by omega)]; omega
  cases L with
  | nil =>
    have hs : m.size = 0 := by simp [total] at he; omega
    simp [mm_checkheap, next_chunk, mem_heapsize, hs, checkheap_loop, allocd, freed, total,
      uadd]
  | cons c L =>
    have hc : m.hdr_size ≤ c.size := hw.seg.2.1
    have hl := seg_length hw.seg.2.2 hw.hdr_pos
    have hpos := hw.hdr_pos
    have hs : m.size ≠ 0 := by simp only [total] at he; omega
    have hloop := checkheap_loop_seg hw.lo_pos hw.hdr_pos L c m.lo (m.size + 1) ⟨0, 0, 0, 0⟩
      hw.seg (Nat.le_refl _) (by simp only [total] at he; omega)
    simp only [mm_checkheap, next_chunk, mem_heapsize, mem_heap_lo, hs, if_true, if_false,
      NULL, hloop, hst, ← hassert]

/-! ## `coalesce` and `mm_free` on a tiled heap -/

theorem free_run_append (L : List header_t) : free_run L ++ after_run L = L := by
  induction L with
  | nil => rfl
  | cons c L ih => cases hc : c.allocated <;> simp [free_run, after_run, hc, ih]

theorem total_free_run_le (L : List header_t) : total (free_run L) ≤ total L := by
  have := congrArg total (free_run_append L)
  rw [total_append] at this; omega

theorem coalesce_loop_seg {m : Heap} (hlo : 0 < m.lo) (hh : 0 < m.hdr_size) :
    ∀ (L : List header_t) (c : header_t) (p fuel t : Nat),
      Seg m p (c :: L) (m.lo + m.size) → m.lo ≤ p → L.length + 1 < fuel →
      t + total (c :: L) < SIZE_MOD →
      coalesce_loop m fuel p t = .ok (t + total (free_run (c :: L))) := by
  intro L
  induction L with
  | nil =>
    intro c p fuel t h hp hf ht
    obtain ⟨f, rfl⟩ : ∃ f, fuel = f + 2 := ⟨fuel - 2, by simp at hf; omega⟩
    have hne : p ≠ NULL := by unfold NULL; omega
    cases hc : c.allocated
    · have hu : uadd t c.size = t + c.size := uadd_small (by simp only [total] at ht; omega)
      simp [coalesce_loop, hne, load_seg h, hc, next_chunk_last hlo hp h, free_run, total, hu]
    · simp [coalesce_loop, hne, load_seg h, hc, free_run, total]
  | cons d L ih =>
    intro c p fuel t h hp hf ht
    obtain ⟨f, rfl⟩ : ∃ f, fuel = f + 1 := ⟨fuel - 1, by omega⟩
    have hne : p ≠ NULL := by unfold NULL; omega
    cases hc : c.allocated
    · have hu : uadd t c.size = t + c.size := uadd_small (by simp only [total] at ht; omega)
      have hrec := ih d (p + c.size) f (t + c.size) h.2.2 (by omega) (by simp at hf; omega)
        (by simp only [total] at ht ⊢; omega)
      simp only [coalesce_loop, hne, load_seg h, hc, if_false, next_chunk_cons hlo hh hp h, hu,
        hrec]
      simp [free_run, hc, total, Nat.add_assoc]
    · simp [coalesce_loop, hne, load_seg h, hc, free_run, total]

/-- The effect of `coalesce` on a free chunk `c` of a tiled heap. -/
theorem coalesce_wf {m : Heap} {L1 L2 : List header_t} {c : header_t}
    (hw : WF m (L1 ++ c :: L2)) (hc : c.allocated = false) :
    ∃ m', coalesce m (m.lo + total L1) = .ok m' ∧
      WF m' (L1 ++ ⟨c.size + total (free_run L2), false⟩ :: after_run L2) ∧
      Frame m m' (m.lo + total L1) (m.lo + total L1 + m.hdr_size) ∧ m'.size = m.size := by
  have hseg := (seg_append.1 hw.seg).2
  have he := seg_end hseg
  have hl := seg_length hseg hw.hdr_pos
  have hb := wf_chunk_lt hw
  have hfits := hw.fits
  have hsl := hw.size_le
  have hLt : total (c :: L2) ≤ m.size := by omega
  have hloop := coalesce_loop_seg hw.lo_pos hw.hdr_pos L2 c (m.lo + total L1) (m.size + 1) 0
    hseg (by omega) (by simp only [List.length_cons] at hl; omega) (by omega)
  have hrun : total (free_run (c :: L2)) = c.size + total (free_run L2) := by
    simp [free_run, hc, total]
  rw [Nat.zero_add, hrun] at hloop
  have hfr := frame_store m (m.lo + total L1) ⟨c.size + total (free_run L2), c.allocated⟩
    hw.hdr_pos
  refine ⟨store m (m.lo + total L1) ⟨c.size + total (free_run L2), c.allocated⟩, ?_, ?_,
    hfr, rfl⟩
  · simp only [coalesce, mem_heapsize, hloop, set_size_seg hseg]
  · have hw' : WF m (L1 ++ ((c :: free_run L2) ++ after_run L2)) := by
      rw [List.cons_append, free_run_append]; exact hw
    have hcs := hseg.2.1
    rw [hc] at hfr ⊢
    refine @wf_replace _ _ _ _ [⟨c.size + total (free_run L2), false⟩] _ hw'
      (frame_mono hfr (Nat.le_refl _) (by simp only [total]; omega)) rfl ?_
    exact ⟨store_hdr_same _ _ _, by show m.hdr_size ≤ c.size + _; omega, by
      show _ + (c.size + total (free_run L2)) = _
      simp only [total]⟩

/-- The effect of `mm_free` on the chunk `c` of a tiled heap. -/
theorem mm_free_wf {m : Heap} {L1 L2 : List header_t} {c : header_t}
    (hw : WF m (L1 ++ c :: L2)) :
    ∃ m', mm_free m (m.lo + total L1 + m.hdr_size) = .ok m' ∧
      WF m' (L1 ++ ⟨c.size + total (free_run L2), false⟩ :: after_run L2) ∧
      Frame m m' (m.lo + total L1) (m.lo + total L1 + m.hdr_size) ∧ m'.size = m.size := by
  have hseg := (seg_append.1 hw.seg).2
  have hfr1 := frame_store m (m.lo + total L1) ⟨c.size, false⟩ hw.hdr_pos
  have hw1 : WF (store m (m.lo + total L1) ⟨c.size, false⟩) (L1 ++ ([⟨c.size, false⟩] ++ L2)) := by
    have hw' : WF m (L1 ++ ([c] ++ L2)) := hw
    have hcs := hseg.2.1
    refine wf_replace hw' (frame_mono hfr1 (Nat.le_refl _) (by simp only [total]; omega)) rfl ?_
    exact ⟨store_hdr_same _ _ _, hcs, by show _ + c.size = _; simp only [total]; omega⟩
  obtain ⟨m', h1, h2, h3, h4⟩ := coalesce_wf (c := ⟨c.size, false⟩) hw1 rfl
  refine ⟨m', ?_, h2, frame_trans hfr1 h3, by simpa using h4⟩
  have hp : payload2header m (m.lo + total L1 + m.hdr_size) = m.lo + total L1 := by
    unfold payload2header; omega
  simp only [store_lo] at h1
  simp only [mm_free, hp, set_allocated_seg hseg, h1, debug_check_ok]

/-! ## `mm_realloc` on a tiled heap -/

theorem payload2header_add (m : Heap) (x : Nat) :
    payload2header m (x + m.hdr_size) = x := by
  unfold payload2header; omega

theorem align_ne_zero {n : Nat} (h0 : 0 < n) (h : roundUp16 n < SIZE_MOD) : align n ≠ 0 := by
  rw [align_small h]; have := roundUp16_ge n; omega

/-- Shrinking (or keeping) a block: `split` is applied to its chunk. -/
theorem mm_realloc_shrink {m : Heap} {L1 L2 : List header_t} {c : header_t} {n : Nat}
    (hw : WF m (L1 ++ c :: L2)) (h0 : 0 < n) (hn : m.hdr_size + roundUp16 n < SIZE_MOD)
    (hle : m.hdr_size + roundUp16 n ≤ c.size) :
    ∃ m', mm_realloc m (m.lo + total L1 + m.hdr_size) n
        = .ok (m', m.lo + total L1 + m.hdr_size) ∧
      WF m' (L1 ++ (split_list m.hdr_size (m.hdr_size + roundUp16 n) c ++ L2)) ∧
      Frame m m' (m.lo + total L1) (m.lo + total L1 + c.size) ∧ m'.size = m.size ∧
      ∀ y, m.lo + total L1 + m.hdr_size ≤ y →
        y < m.lo + total L1 + (m.hdr_size + roundUp16 n) → m'.byte y = m.byte y := by
  have hseg := (seg_append.1 hw.seg).2
  have hcl := (wf_chunk_lt hw).2
  obtain ⟨m1, hsp, hseg1, hfr1, hsz1⟩ :=
    split_seg hseg hw.hdr_pos hw.hdr_small (Nat.le_add_right _ _) hle hcl
  have hne : m.lo + total L1 + m.hdr_size ≠ NULL := by have := hw.lo_pos; unfold NULL; omega
  have ha : align n ≠ 0 := align_ne_zero h0 (by omega)
  refine ⟨m1, ?_, ?_, hfr1, hsz1, fun y h1 h2 => split_bytes hsp h1 h2⟩
  · have hge : c.size ≥ m.hdr_size + roundUp16 n := hle
    simp only [mm_realloc, hne, ha, if_false, csz_small hn, payload2header_add, load_seg hseg,
      hge, if_true, hsp]
  · have hw' : WF m (L1 ++ ([c] ++ L2)) := hw
    refine wf_replace hw' (by simpa [total] using hfr1) hsz1 ?_
    have hx := (@seg_append _ (split_list m.hdr_size (m.hdr_size + roundUp16 n) c)
      L2 _ _).1 hseg1
    have e1 := seg_end hx.2
    have e2 := seg_end hseg.2.2
    have : m.lo + total L1 + total (split_list m.hdr_size (m.hdr_size + roundUp16 n) c)
        = m.lo + total L1 + total [c] := by simp only [total]; omega
    rw [← this]; exact hx.1

/-- Growing a block into the free chunk `d` that follows it. -/
theorem mm_realloc_absorb {m : Heap} {L1 L3 : List header_t} {c d : header_t} {n : Nat}
    (hw : WF m (L1 ++ c :: d :: L3)) (h0 : 0 < n) (hn : m.hdr_size + roundUp16 n < SIZE_MOD)
    (hlt : c.size < m.hdr_size + roundUp16 n) (hd : d.allocated = false)
    (hroom : m.hdr_size + roundUp16 n - c.size ≤ d.size) :
    ∃ m', mm_realloc m (m.lo + total L1 + m.hdr_size) n
        = .ok (m', m.lo + total L1 + m.hdr_size) ∧
      WF m' (L1 ++ (split_list m.hdr_size (m.hdr_size + roundUp16 n)
        ⟨c.size + d.size, c.allocated⟩ ++ L3)) ∧
      Frame m m' (m.lo + total L1) (m.lo + total L1 + (c.size + d.size)) ∧
      m'.size = m.size ∧
      ∀ y, m.lo + total L1 + m.hdr_size ≤ y →
        y < m.lo + total L1 + (m.hdr_size + roundUp16 n) → m'.byte y = m.byte y := by
  have hseg := (seg_append.1 hw.seg).2
  have hcl := (wf_chunk_lt hw).2
  have he := seg_end hw.seg
  have hfits := hw.fits
  have hsl := hw.size_le
  have hcd : c.size + d.size < SIZE_MOD := by
    simp only [total_append, total] at he; omega
  have hpos := hw.hdr_pos
  have hcs := hseg.2.1
  have hne : m.lo + total L1 + m.hdr_size ≠ NULL := by have := hw.lo_pos; unfold NULL; omega
  have ha : align n ≠ 0 := align_ne_zero h0 (by omega)
  have hnx := next_chunk_cons hw.lo_pos hw.hdr_pos (by omega) hseg
  have hnn : m.lo + total L1 + c.size ≠ NULL := by unfold NULL; omega
  -- the chunk after absorbing `d`
  have hfr0 := frame_store m (m.lo + total L1) ⟨c.size + d.size, c.allocated⟩ hpos
  have hseg0 : Seg (store m (m.lo + total L1) ⟨c.size + d.size, c.allocated⟩) (m.lo + total L1)
      (⟨c.size + d.size, c.allocated⟩ :: L3) (m.lo + m.size) := by
    refine ⟨store_hdr_same _ _ _, by show m.hdr_size ≤ c.size + d.size; omega, ?_⟩
    show Seg _ (m.lo + total L1 + (c.size + d.size)) L3 _
    have h3 := hseg.2.2.2.2
    rw [Nat.add_assoc] at h3
    exact seg_frame_right h3 hfr0 (by omega)
  obtain ⟨m1, hsp, hseg1, hfr1, hsz1⟩ :=
    split_seg hseg0 hpos hw.hdr_small (Nat.le_add_right _ _)
      (by show m.hdr_size + roundUp16 n ≤ c.size + d.size; omega) hcd
  have hfr : Frame m m1 (m.lo + total L1) (m.lo + total L1 + (c.size + d.size)) :=
    frame_trans (frame_mono hfr0 (Nat.le_refl _) (by omega)) hfr1
  have hbytes : ∀ y, m.lo + total L1 + m.hdr_size ≤ y →
      y < m.lo + total L1 + (m.hdr_size + roundUp16 n) → m1.byte y = m.byte y := by
    intro y h1 h2
    rw [split_bytes hsp (by simpa using h1) (by simpa using h2)]
    exact store_byte_far _ _ _ _ (Or.inr h1)
  refine ⟨m1, ?_, ?_, hfr, by simpa using hsz1, hbytes⟩
  · have hge : ¬ c.size ≥ m.hdr_size + roundUp16 n := by omega
    have hus : usub (m.hdr_size + roundUp16 n) c.size = m.hdr_size + roundUp16 n - c.size :=
      usub_small (by omega) hn
    have hua : uadd c.size d.size = c.size + d.size := uadd_small hcd
    have hld : load m (m.lo + total L1 + c.size) = .ok d := load_seg hseg.2.2
    have hroom' : d.size ≥ m.hdr_size + roundUp16 n - c.size := hroom
    simp only [store_hdr_size] at hsp
    simp only [mm_realloc, hne, ha, if_false, csz_small hn, payload2header_add, load_seg hseg,
      hge, hnx, hnn, hld, hd, hus, hua, hroom', set_size_seg hseg, hsp, Bool.not_false,
      Bool.true_and, decide_True, if_true]
  · have hw' : WF m (L1 ++ ([c, d] ++ L3)) := hw
    refine wf_replace hw' (by simpa [total] using hfr) (by simpa using hsz1) ?_
    simp only [store_hdr_size] at hseg1
    have hx := (@seg_append _ (split_list m.hdr_size (m.hdr_size + roundUp16 n)
      ⟨c.size + d.size, c.allocated⟩) L3 _ _).1 hseg1
    have e1 := seg_end hx.2
    have e2 := seg_end hseg.2.2.2.2
    have : m.lo + total L1 + total (split_list m.hdr_size (m.hdr_size + roundUp16 n)
        ⟨c.size + d.size, c.allocated⟩) = m.lo + total L1 + total [c, d] := by
      simp only [total]; omega
    rw [← this]; exact hx.1

/-- The relocation path of `mm_realloc`: allocate, copy, release. -/
theorem mm_realloc_move {m : Heap} {L1 L2 : List header_t} {c : header_t} {n : Nat}
    (hw : WF m (L1 ++ c :: L2)) (h0 : 0 < n) (hn : m.hdr_size + roundUp16 n < SIZE_MOD)
    (hlt : c.size < m.hdr_size + roundUp16 n)
    (hno : no_room (m.hdr_size + roundUp16 n) c L2) :
    mm_realloc m (m.lo + total L1 + m.hdr_size) n =
      match mm_malloc m (align n) with
      | .error e => .error e
      | .ok (m1, new_ptr) =>
        if c.size - m.hdr_size ≥ 2 ^ 31 then .error .int_overflow
        else
          match mm_free (copy_loop new_ptr (m.lo + total L1 + m.hdr_size)
            (c.size - m.hdr_size) 0 m1) (m.lo + total L1 + m.hdr_size) with
          | .error e => .error e
          | .ok m3 => .ok (m3, new_ptr) := by
  have hseg := (seg_append.1 hw.seg).2
  have hcl := (wf_chunk_lt hw).2
  have hpos := hw.hdr_pos
  have hcs := hseg.2.1
  have hne : m.lo + total L1 + m.hdr_size ≠ NULL := by have := hw.lo_pos; unfold NULL; omega
  have ha : align n ≠ 0 := align_ne_zero h0 (by omega)
  have hge : ¬ c.size ≥ m.hdr_size + roundUp16 n := by omega
  have hus : usub c.size m.hdr_size = c.size - m.hdr_size := usub_small hcs hcl
  cases L2 with
  | nil =>
    have hnx := next_chunk_last hw.lo_pos (by omega) hseg
    simp only [mm_realloc, hne, ha, if_false, csz_small hn, payload2header_add, load_seg hseg,
      hge, hnx, if_true, hus]
  | cons d L3 =>
    have hnx := next_chunk_cons hw.lo_pos hw.hdr_pos (by omega) hseg
    have hnn : m.lo + total L1 + c.size ≠ NULL := by unfold NULL; omega
    have hld : load m (m.lo + total L1 + c.size) = .ok d := load_seg hseg.2.2
    have hus2 : usub (m.hdr_size + roundUp16 n) c.size = m.hdr_size + roundUp16 n - c.size :=
      usub_small (by omega) hn
    have hcond : (!d.allocated && decide (d.size ≥ m.hdr_size + roundUp16 n - c.size)) = false := by
      rcases hno with h | h
      · simp [h]
      · have : ¬ d.size ≥ m.hdr_size + roundUp16 n - c.size := by omega
        simp [this]
    simp only [mm_realloc, hne, ha, if_false, csz_small hn, payload2header_add, load_seg hseg,
      hge, hnx, hnn, hld, hus2, hcond, hus]
    rfl

/-! ## The invariant -/

theorem wf_empty {m : Heap} (h : EmptyHeap m) : WF m [] :=
  ⟨h.lo_pos, h.hdr_pos, h.hdr_small, h.fits, by rw [h.size_zero]; exact Nat.zero_le _,
    by show m.lo = m.lo + m.size; rw [h.size_zero]; rfl⟩

theorem inv_empty {m : Heap} (h : EmptyHeap m) : Inv m [] [] :=
  ⟨wf_empty h, fun _ d hd => by simp at hd, fun e he => by simp at he⟩

theorem frame_poke (m : Heap) (y : Nat) (b : Option Nat) :
    Frame m (poke m y b) y (y + 1) := by
  refine ⟨rfl, rfl, rfl, ?_, ?_⟩
  · intro x hx
    simp only [poke]
    rw [if_neg (by omega)]
  · intro x hx
    simp only [poke]
    rw [if_neg (by omega)]

/-- A change confined to the payload of one chunk keeps the heap tiled. -/
theorem wf_payload_frame {m m' : Heap} {L : List header_t} {x p q : Nat} {c : header_t}
    (hw : WF m L) (hat : At m.lo L x c) (hf : Frame m m' p q) (hs : m'.size = m.size)
    (hp : x + m.hdr_size ≤ p) (hq : q ≤ x + c.size) : WF m' L := by
  obtain ⟨L1, L2, rfl, rfl⟩ := at_decomp hat
  have hseg := (seg_append.1 hw.seg).2
  have hw' : WF m (L1 ++ ([c] ++ L2)) := hw
  have hf' : Frame m m' (m.lo + total L1 + m.hdr_size) (m.lo + total L1 + c.size) :=
    frame_mono hf hp hq
  have hfull : Frame m m' (m.lo + total L1) (m.lo + total L1 + total [c]) :=
    frame_mono hf' (by omega) (by simp [total])
  refine @wf_replace _ _ _ _ [c] _ hw' hfull hs ?_
  refine ⟨?_, by rw [hf.hdr_size]; exact hseg.2.1, by show _ + c.size = _; simp [total]⟩
  rw [hf'.hdr _ (Or.inl (Nat.le_refl _))]; exact hseg.1

theorem copy_loop_frame (new_ptr old_ptr : Nat) :
    ∀ (k i : Nat) (m : Heap),
      Frame m (copy_loop new_ptr old_ptr k i m) (new_ptr + i) (new_ptr + i + k) ∧
      (copy_loop new_ptr old_ptr k i m).size = m.size := by
  intro k
  induction k with
  | zero => intro i m; exact ⟨frame_refl _ _ _, rfl⟩
  | succ k ih =>
    intro i m
    obtain ⟨h1, h2⟩ := ih (i + 1) (poke m (new_ptr + i) (m.byte (old_ptr + i)))
    refine ⟨?_, by rw [copy_loop, h2]; rfl⟩
    rw [copy_loop]
    exact frame_trans (frame_mono (frame_poke m _ _) (Nat.le_refl _) (by omega))
      (frame_mono h1 (by omega) (by omega))

theorem total_mod16 {L : List header_t} (h : ∀ d ∈ L, d.size % 16 = 0) : total L % 16 = 0 := by
  induction L with
  | nil => rfl
  | cons c L ih =>
    have h1 := h c (List.mem_cons_self _ _)
    have h2 := ih (fun d hd => h d (List.mem_cons_of_mem _ hd))
    simp only [total]; omega

/-- Replacing the chunks `Mid` by `Mid'` keeps the invariant when the ledger entries
are chunks outside `Mid` or allocated chunks of `Mid'`. -/
theorem inv_replace {m m' : Heap} {L1 Mid Mid' L2 : List header_t} {led led' : Ledger}
    (hi : Inv m (L1 ++ (Mid ++ L2)) led) (hw' : WF m' (L1 ++ (Mid' ++ L2)))
    (hh : m'.hdr_size = m.hdr_size) (hlo : m'.lo = m.lo) (htot : total Mid' = total Mid)
    (hal : m.hdr_size % 16 = 0 → ∀ d ∈ Mid', d.size % 16 = 0)
    (hlive : ∀ e ∈ led',
      (e ∈ led ∧ ∀ x c, e.1 = x + m.hdr_size → c.allocated = true →
        ¬ At (m.lo + total L1) Mid x c) ∨
      (∃ x c, e.1 = x + m.hdr_size ∧ At (m.lo + total L1) Mid' x c ∧ c.allocated = true ∧
        m.hdr_size + e.2 ≤ c.size)) :
    Inv m' (L1 ++ (Mid' ++ L2)) led' := by
  refine ⟨hw', ?_, ?_⟩
  · intro h16 d hd
    rw [hh] at h16
    rcases List.mem_append.1 hd with h | h
    · exact hi.al h16 d (List.mem_append_left _ h)
    · rcases List.mem_append.1 h with h | h
      · exact hal h16 d h
      · exact hi.al h16 d (List.mem_append_right _ (List.mem_append_right _ h))
  · intro e he
    rw [hh, hlo]
    rcases hlive e he with ⟨hmem, hout⟩ | ⟨x, c, h1, h2, h3, h4⟩
    · obtain ⟨x, c, h1, h2, h3, h4⟩ := hi.live e hmem
      refine ⟨x, c, h1, ?_, h3, h4⟩
      rcases at_append.1 h2 with h | h
      · exact at_append.2 (Or.inl h)
      · rcases at_append.1 h with h | h
        · exact (hout x c h1 h3 h).elim
        · refine at_append.2 (Or.inr (at_append.2 (Or.inr ?_)))
          rw [htot]; exact h
    · exact ⟨x, c, h1, at_append.2 (Or.inr (at_append.2 (Or.inl h2))), h3, h4⟩

theorem mem_remove {led : Ledger} {p : Nat} {e : Nat × Nat} :
    e ∈ led.remove p ↔ e ∈ led ∧ e.1 ≠ p := by
  simp [Ledger.remove]

/-- A change confined to the payload of one chunk keeps the invariant. -/
theorem inv_payload_frame {m m' : Heap} {L : List header_t} {led : Ledger} {x p q : Nat}
    {c : header_t} (hi : Inv m L led) (hat : At m.lo L x c) (hf : Frame m m' p q)
    (hs : m'.size = m.size) (hp : x + m.hdr_size ≤ p) (hq : q ≤ x + c.size) :
    Inv m' L led := by
  refine ⟨wf_payload_frame hi.wf hat hf hs hp hq, ?_, ?_⟩
  · rw [hf.hdr_size]; exact hi.al
  · rw [hf.hdr_size, hf.lo]; exact hi.live

/-- A client write into a requested byte keeps the invariant. -/
theorem inv_poke {m : Heap} {L : List header_t} {led : Ledger} {p n i : Nat} (b : Option Nat)
    (hi : Inv m L led) (hp : (p, n) ∈ led) (hlt : i < n) : Inv (poke m (p + i) b) L led := by
  obtain ⟨x, c, h1, h2, h3, h4⟩ := hi.live _ hp
  simp only at h1 h4
  have hw := wf_payload_frame hi.wf h2 (frame_poke m (p + i) b) rfl (by omega) (by omega)
  exact ⟨hw, hi.al, hi.live⟩

/-! ## `mm_malloc` keeps the invariant -/

/-- When first-fit finds nothing and the heap cannot grow, `mm_malloc` initialises a
header through the failure result of `mem_sbrk`. -/
theorem mm_malloc_failed_grow (m : Heap) (n : Nat)
    (hff : first_fit m (uadd m.hdr_size (align n)) = .ok NULL)
    (hs : mem_sbrk m (uadd m.hdr_size (align n)) = none) :
    mm_malloc m n = .error .failed_grow_deref := by
  simp only [mm_malloc, hff, if_true, ask_os_for_chunk, hs]

theorem total_split_list {hdr csz : Nat} {c : header_t} (h : csz ≤ c.size) :
    total (split_list hdr csz c) = c.size := by
  unfold split_list
  split <;> simp only [total] <;> omega

theorem split_list_head {hdr csz : Nat} (c : header_t) (h : csz ≤ c.size) (a : Nat) :
    ∃ h0, At a (split_list hdr csz c) a h0 ∧ h0.allocated = c.allocated ∧ csz ≤ h0.size := by
  unfold split_list
  split
  · exact ⟨c, Or.inl ⟨rfl, rfl⟩, rfl, h⟩
  · exact ⟨⟨csz, c.allocated⟩, Or.inl ⟨rfl, rfl⟩, rfl, Nat.le_refl _⟩

theorem split_list_mod16 {hdr csz : Nat} {c : header_t} (h1 : c.size % 16 = 0)
    (h2 : csz % 16 = 0) : ∀ d ∈ split_list hdr csz c, d.size % 16 = 0 := by
  unfold split_list
  split
  · intro d hd; simp at hd; rw [hd]; exact h1
  · intro d hd
    simp at hd
    rcases hd with rfl | rfl
    · exact h2
    · show (c.size - csz) % 16 = 0; omega

/-- The three ways a call of `mm_malloc` on a tiled heap ends. -/
theorem mm_malloc_spec {m : Heap} {L : List header_t} {n : Nat} (hw : WF m L)
    (hn : m.hdr_size + roundUp16 n < SIZE_MOD) :
    (∃ L1 c L2 m', L = L1 ++ c :: L2 ∧ fit (m.hdr_size + roundUp16 n) c = true ∧
      (∀ d ∈ L1, fit (m.hdr_size + roundUp16 n) d = false) ∧
      mm_malloc m n = .ok (m', m.lo + total L1 + m.hdr_size) ∧
      WF m' (L1 ++ (split_list m.hdr_size (m.hdr_size + roundUp16 n) ⟨c.size, true⟩ ++ L2)) ∧
      Frame m m' (m.lo + total L1) (m.lo + total L1 + c.size) ∧ m'.size = m.size) ∨
    ((∀ d ∈ L, fit (m.hdr_size + roundUp16 n) d = false) ∧
      m.size + (m.hdr_size + roundUp16 n) ≤ m.cap ∧
      ∃ m', mm_malloc m n = .ok (m', m.lo + m.size + m.hdr_size) ∧
        WF m' (L ++ [⟨m.hdr_size + roundUp16 n, true⟩]) ∧
        Frame m m' (m.lo + m.size) (m.lo + m.size + m.hdr_size) ∧
        m'.size = m.size + (m.hdr_size + roundUp16 n)) ∨
    ((∀ d ∈ L, fit (m.hdr_size + roundUp16 n) d = false) ∧
      ¬ m.size + (m.hdr_size + roundUp16 n) ≤ m.cap ∧
      mm_malloc m n = .error .failed_grow_deref) := by
  by_cases hf : find_fit (m.hdr_size + roundUp16 n) m.lo L = NULL
  · have hnot := (find_fit_null hw.lo_pos).1 hf
    right
    by_cases hcap : m.size + (m.hdr_size + roundUp16 n) ≤ m.cap
    · exact Or.inl ⟨hnot, hcap, mm_malloc_grow hw hn hnot hcap⟩
    · refine Or.inr ⟨hnot, hcap, ?_⟩
      apply mm_malloc_failed_grow
      · rw [csz_small hn, first_fit_wf hw, hf]
      · rw [csz_small hn]; simp [mem_sbrk, hcap]
  · obtain ⟨L1, c, L2, rfl, _, hfit, hnot⟩ := find_fit_found hw.lo_pos hf
    obtain ⟨m', h⟩ := mm_malloc_found hw hn hfit hnot
    exact Or.inl ⟨L1, c, L2, m', rfl, hfit, hnot, h⟩

theorem fit_iff {csz : Nat} {c : header_t} :
    fit csz c = true ↔ c.allocated = false ∧ csz ≤ c.size := by
  simp [fit]

/-- A returning call of `mm_malloc` keeps the invariant; the new pointer enters the
ledger with the requested size. -/
theorem inv_malloc {m m' : Heap} {L : List header_t} {led : Ledger} {n p : Nat}
    (hi : Inv m L led) (hn : m.hdr_size + roundUp16 n < SIZE_MOD)
    (hm : mm_malloc m n = .ok (m', p)) :
    ∃ L', Inv m' L' ((p, n) :: led) ∧
      ∀ x c, At m.lo L x c → c.allocated = true → At m.lo L' x c := by
  have hge := roundUp16_ge n
  rcases mm_malloc_spec hi.wf hn with
    ⟨L1, c, L2, m'', rfl, hfit, _, hcall, hw', hfr, _⟩ | ⟨hnot, hcap, m'', hcall, hw', hfr, hsz⟩ |
    ⟨_, _, herr⟩
  · rw [hcall] at hm
    obtain ⟨rfl, rfl⟩ : m'' = m' ∧ m.lo + total L1 + m.hdr_size = p := by
      simpa using hm
    obtain ⟨hfree, hle⟩ := fit_iff.1 hfit
    have htot : total (split_list m.hdr_size (m.hdr_size + roundUp16 n) ⟨c.size, true⟩)
        = total [c] := by
      rw [total_split_list (by exact hle)]; simp [total]
    refine ⟨_, @inv_replace _ _ _ [c] _ _ _ _ hi hw' hfr.hdr_size hfr.lo ?_ ?_ ?_, ?_⟩
    · exact htot
    · intro h16
      apply split_list_mod16
      · exact hi.al h16 c (by simp)
      · have := roundUp16_mod n; omega
    · intro e he
      rcases List.mem_cons.1 he with rfl | he
      · right
        obtain ⟨h0, ha, hb, hc⟩ := @split_list_head m.hdr_size _
          (⟨c.size, true⟩ : header_t) (by exact hle) (m.lo + total L1)
        exact ⟨_, h0, rfl, ha, hb, by show m.hdr_size + n ≤ h0.size; omega⟩
      · left
        refine ⟨he, ?_⟩
        intro x d _ hd hat
        rcases hat with ⟨_, rfl⟩ | hat
        · rw [hfree] at hd; cases hd
        · exact hat
    · intro x d hat hd
      rcases at_append.1 hat with h | h
      · exact at_append.2 (Or.inl h)
      · rcases h with ⟨_, rfl⟩ | h
        · rw [hfree] at hd; cases hd
        · refine at_append.2 (Or.inr (at_append.2 (Or.inr ?_)))
          rw [htot]; simpa [total] using h
  · rw [hcall] at hm
    obtain ⟨rfl, rfl⟩ : m'' = m' ∧ m.lo + m.size + m.hdr_size = p := by
      simpa using hm
    have he := seg_end hi.wf.seg
    refine ⟨_, ⟨hw', ?_, ?_⟩, fun x c hat _ => at_append.2 (Or.inl hat)⟩
    · intro h16 d hd
      rw [hfr.hdr_size] at h16
      rcases List.mem_append.1 hd with h | h
      · exact hi.al h16 d h
      · simp at h; rw [h]
        show (m.hdr_size + roundUp16 n) % 16 = 0
        have := roundUp16_mod n; omega
    · intro e he'
      rw [hfr.hdr_size, hfr.lo]
      rcases List.mem_cons.1 he' with rfl | he'
      · refine ⟨m.lo + m.size, ⟨m.hdr_size + roundUp16 n, true⟩, rfl, ?_, rfl, ?_⟩
        · rw [← he]; exact at_mid m.lo L [] _
        · show m.hdr_size + n ≤ m.hdr_size + roundUp16 n; omega
      · obtain ⟨x, c, h1, h2, h3, h4⟩ := hi.live e he'
        exact ⟨x, c, h1, at_append.2 (Or.inl h2), h3, h4⟩
  · rw [herr] at hm; cases hm

/-! ## `mm_free` and `mm_realloc` keep the invariant -/

theorem free_run_free {L : List header_t} {d : header_t} (h : d ∈ free_run L) :
    d.allocated = false := by
  induction L with
  | nil => simp [free_run] at h
  | cons c L ih =>
    cases hc : c.allocated
    · have h' : d ∈ c :: free_run L := by simpa [free_run, hc] using h
      rcases List.mem_cons.1 h' with h1 | h1
      · rw [h1]; exact hc
      · exact ih h1
    · simp [free_run, hc] at h

theorem free_run_mem {L : List header_t} {d : header_t} (h : d ∈ free_run L) : d ∈ L := by
  have := free_run_append L
  rw [← this]; exact List.mem_append_left _ h

/-- Releasing the chunk `c`: the invariant holds for the coalesced chunk list. -/
theorem inv_free_at {m m' : Heap} {L1 L2 : List header_t} {c : header_t} {led : Ledger}
    (hi : Inv m (L1 ++ c :: L2) led)
    (hw' : WF m' (L1 ++ ⟨c.size + total (free_run L2), false⟩ :: after_run L2))
    (hh : m'.hdr_size = m.hdr_size) (hlo : m'.lo = m.lo) :
    Inv m' (L1 ++ ⟨c.size + total (free_run L2), false⟩ :: after_run L2)
      (led.remove (m.lo + total L1 + m.hdr_size)) := by
  have hi' : Inv m (L1 ++ ((c :: free_run L2) ++ after_run L2)) led := by
    rw [List.cons_append, free_run_append]; exact hi
  refine @inv_replace _ _ _ _ [⟨c.size + total (free_run L2), false⟩] _ _ _ hi' hw' hh hlo
    (by simp [total]) ?_ ?_
  · intro h16 d hd
    simp at hd; rw [hd]
    show (c.size + total (free_run L2)) % 16 = 0
    have h1 := hi.al h16 c (by simp)
    have h2 := total_mod16 (L := free_run L2)
      (fun e he => hi.al h16 e (by simp [free_run_mem he]))
    omega
  · intro e he
    obtain ⟨hmem, hne⟩ := mem_remove.1 he
    left
    refine ⟨hmem, ?_⟩
    intro x d hx hd hat
    rcases hat with ⟨rfl, _⟩ | hat
    · exact hne hx
    · rw [free_run_free (at_mem hat)] at hd; cases hd

/-- A call of `mm_free` on a live pointer returns and keeps the invariant. -/
theorem inv_free {m : Heap} {L : List header_t} {led : Ledger} {p k : Nat}
    (hi : Inv m L led) (hp : (p, k) ∈ led) :
    ∃ m' L', mm_free m p = .ok m' ∧ Inv m' L' (led.remove p) ∧ m'.size = m.size ∧
      Frame m m' (p - m.hdr_size) p := by
  obtain ⟨x, c, h1, h2, _, _⟩ := hi.live _ hp
  simp only at h1
  obtain ⟨L1, L2, rfl, rfl⟩ := at_decomp h2
  obtain ⟨m', hcall, hw', hfr, hsz⟩ := mm_free_wf hi.wf
  subst h1
  refine ⟨m', _, hcall, inv_free_at hi hw' hfr.hdr_size hfr.lo, hsz, ?_⟩
  have : m.lo + total L1 + m.hdr_size - m.hdr_size = m.lo + total L1 := by omega
  rw [this]; exact hfr

theorem inv_weaken {m : Heap} {L : List header_t} {led : Ledger} {q n n' : Nat}
    (hi : Inv m L ((q, n') :: led)) (h : n ≤ n') : Inv m L ((q, n) :: led) := by
  refine ⟨hi.wf, hi.al, ?_⟩
  intro e he
  rcases List.mem_cons.1 he with rfl | he
  · obtain ⟨x, c, h1, h2, h3, h4⟩ := hi.live (q, n') (List.mem_cons_self _ _)
    exact ⟨x, c, h1, h2, h3, by simp only at h4 ⊢; omega⟩
  · exact hi.live e (List.mem_cons_of_mem _ he)

/-- The pointer returned by `mm_malloc` is not a live pointer. -/
theorem malloc_fresh {m m' : Heap} {L : List header_t} {led : Ledger} {n p : Nat}
    (hi : Inv m L led) (hn : m.hdr_size + roundUp16 n < SIZE_MOD)
    (hm : mm_malloc m n = .ok (m', p)) : ∀ e ∈ led, e.1 ≠ p := by
  intro e he hep
  obtain ⟨x, c, h1, h2, h3, h4⟩ := hi.live e he
  have hb := at_bounds h2
  have hpos := hi.wf.hdr_pos
  have hend := seg_end hi.wf.seg
  rcases mm_malloc_spec hi.wf hn with
    ⟨L1, c0, L2, m'', rfl, hfit, _, hcall, _⟩ | ⟨_, _, m'', hcall, _⟩ | ⟨_, _, herr⟩
  · rw [hcall] at hm
    obtain ⟨_, hpp⟩ : m'' = m' ∧ m.lo + total L1 + m.hdr_size = p := by simpa using hm
    have hx : x = m.lo + total L1 := by omega
    have hat0 := at_mid m.lo L1 L2 c0
    rw [← hx] at hat0
    rcases at_disjoint (seg_sizes hi.wf.seg) h2 hat0 with ⟨_, hcc⟩ | hd | hd
    · rw [hcc, (fit_iff.1 hfit).1] at h3; cases h3
    · omega
    · have := seg_sizes hi.wf.seg c0 (by simp); omega
  · rw [hcall] at hm
    obtain ⟨_, hpp⟩ : m'' = m' ∧ m.lo + m.size + m.hdr_size = p := by simpa using hm
    omega
  · rw [herr] at hm; cases hm

theorem remove_cons_ne {led : Ledger} {p q n : Nat} (h : q ≠ p) :
    Ledger.remove ((q, n) :: led) p = (q, n) :: led.remove p := by
  simp [Ledger.remove, List.filter, h]

theorem no_room_or (csz : Nat) (c : header_t) (L2 : List header_t) :
    no_room csz c L2 ∨ ∃ d L3, L2 = d :: L3 ∧ d.allocated = false ∧ csz - c.size ≤ d.size := by
  cases L2 with
  | nil => exact Or.inl trivial
  | cons d L3 =>
    cases hd : d.allocated
    · by_cases h : d.size < csz - c.size
      · exact Or.inl (Or.inr h)
      · exact Or.inr ⟨d, L3, rfl, hd, by omega⟩
    · exact Or.inl (Or.inl hd)

theorem malloc_consts {m m' : Heap} {L : List header_t} {n p : Nat} (hw : WF m L)
    (hn : m.hdr_size + roundUp16 n < SIZE_MOD) (hm : mm_malloc m n = .ok (m', p)) :
    m'.hdr_size = m.hdr_size ∧ m'.lo = m.lo ∧ m'.cap = m.cap ∧ m.size ≤ m'.size := by
  rcases mm_malloc_spec hw hn with
    ⟨L1, c0, L2, m'', rfl, _, _, hcall, _, hfr, hsz⟩ | ⟨_, _, m'', hcall, _, hfr, hsz⟩ |
    ⟨_, _, herr⟩
  · rw [hcall] at hm
    obtain ⟨rfl, _⟩ : m'' = m' ∧ m.lo + total L1 + m.hdr_size = p := by simpa using hm
    exact ⟨hfr.hdr_size, hfr.lo, hfr.cap, by omega⟩
  · rw [hcall] at hm
    obtain ⟨rfl, _⟩ : m'' = m' ∧ m.lo + m.size + m.hdr_size = p := by simpa using hm
    exact ⟨hfr.hdr_size, hfr.lo, hfr.cap, by omega⟩
  · rw [herr] at hm; cases hm

theorem align_zero : align 0 = 0 := by decide

theorem mm_realloc_null (m : Heap) (n : Nat) : mm_realloc m NULL n = mm_malloc m (align n) := by
  simp [mm_realloc]

theorem mm_realloc_zero (m : Heap) (p : Nat) (hp : p ≠ NULL) :
    mm_realloc m p 0 = match mm_free m p with
      | .error e => .error e
      | .ok m1 => .ok (m1, NULL) := by
  simp [mm_realloc, hp, align_zero]

theorem inv_realloc_null {m m' : Heap} {L : List header_t} {led : Ledger} {n q : Nat}
    (hi : Inv m L led) (hn : m.hdr_size + roundUp16 n < SIZE_MOD)
    (hm : mm_realloc m NULL n = .ok (m', q)) : ∃ L', Inv m' L' ((q, n) :: led) := by
  rw [mm_realloc_null] at hm
  have ha : align n = roundUp16 n := align_small (by omega)
  rw [ha] at hm
  obtain ⟨L', h, _⟩ := inv_malloc hi (by rw [roundUp16_idem]; exact hn) hm
  exact ⟨L', inv_weaken h (roundUp16_ge n)⟩

theorem live_ne_null {m : Heap} {L : List header_t} {led : Ledger} {p k : Nat}
    (hi : Inv m L led) (hp : (p, k) ∈ led) : p ≠ NULL := by
  obtain ⟨x, c, h1, _⟩ := hi.live _ hp
  have := hi.wf.hdr_pos
  simp only at h1
  unfold NULL; omega

theorem inv_realloc_zero {m m' : Heap} {L : List header_t} {led : Ledger} {p k q : Nat}
    (hi : Inv m L led) (hp : (p, k) ∈ led) (hm : mm_realloc m p 0 = .ok (m', q)) :
    ∃ L', Inv m' L' (led.remove p) := by
  rw [mm_realloc_zero m p (live_ne_null hi hp)] at hm
  obtain ⟨m1, L', hf, hinv, _⟩ := inv_free hi hp
  rw [hf] at hm
  obtain ⟨rfl, _⟩ : m1 = m' ∧ NULL = q := by simpa using hm
  exact ⟨L', hinv⟩

/-- A returning call of `mm_realloc` with a live pointer and a positive size keeps the
invariant: the returned pointer replaces the old one in the ledger. -/
theorem inv_realloc {m m' : Heap} {L : List header_t} {led : Ledger} {p k n q : Nat}
    (hi : Inv m L led) (hp : (p, k) ∈ led) (h0 : 0 < n)
    (hn : m.hdr_size + roundUp16 n < SIZE_MOD) (hm : mm_realloc m p n = .ok (m', q)) :
    ∃ L', Inv m' L' ((q, n) :: led.remove p) ∧ m'.hdr_size = m.hdr_size ∧ m'.lo = m.lo ∧
      m'.cap = m.cap := by
  obtain ⟨x, c, h1, h2, h3, h4⟩ := hi.live _ hp
  simp only at h1 h4
  obtain ⟨L1, L2, rfl, rfl⟩ := at_decomp h2
  subst h1
  have hge := roundUp16_ge n
  have h16 := roundUp16_mod n
  by_cases hle : m.hdr_size + roundUp16 n ≤ c.size
  · -- shrink
    obtain ⟨m1, hcall, hw', hfr, _⟩ := mm_realloc_shrink hi.wf h0 hn hle
    rw [hcall] at hm
    obtain ⟨rfl, rfl⟩ : m1 = m' ∧ m.lo + total L1 + m.hdr_size = q := by simpa using hm
    refine ⟨_, @inv_replace _ _ _ [c] _ _ _ _ hi hw' hfr.hdr_size hfr.lo ?_ ?_ ?_, hfr.hdr_size,
      hfr.lo, hfr.cap⟩
    · rw [total_split_list hle]; simp [total]
    · intro hh
      exact split_list_mod16 (hi.al hh c (by simp)) (by omega)
    · intro e he
      rcases List.mem_cons.1 he with rfl | he
      · right
        obtain ⟨h0', ha, hb, hc⟩ := @split_list_head m.hdr_size _ c hle (m.lo + total L1)
        exact ⟨_, h0', rfl, ha, by rw [hb]; exact h3, by
          show m.hdr_size + n ≤ h0'.size; omega⟩
      · obtain ⟨hmem, hne⟩ := mem_remove.1 he
        left
        refine ⟨hmem, ?_⟩
        intro x d hx _ hat
        rcases hat with ⟨rfl, _⟩ | hat
        · exact hne hx
        · exact hat
  · have hlt : c.size < m.hdr_size + roundUp16 n := by omega
    rcases no_room_or (m.hdr_size + roundUp16 n) c L2 with hno | ⟨d, L3, rfl, hd, hroom⟩
    · -- relocate
      rw [mm_realloc_move hi.wf h0 hn hlt hno] at hm
      have ha : align n = roundUp16 n := align_small (by omega)
      cases hmal : mm_malloc m (align n) with
      | error e => rw [hmal] at hm; cases hm
      | ok r =>
        obtain ⟨m1, q1⟩ := r
        rw [hmal] at hm
        simp only at hm
        by_cases hcnt : c.size - m.hdr_size ≥ 2 ^ 31
        · rw [if_pos hcnt] at hm; cases hm
        · rw [if_neg hcnt] at hm
          rw [ha] at hmal
          have hn' : m.hdr_size + roundUp16 (roundUp16 n) < SIZE_MOD := by
            rw [roundUp16_idem]; exact hn
          obtain ⟨La, hia, _⟩ := inv_malloc hi hn' hmal
          have hfresh := malloc_fresh hi hn' hmal _ hp
          obtain ⟨hc1, hc2, hc3, _⟩ := malloc_consts hi.wf hn' hmal
          -- the copy stays inside the payload of the new chunk
          obtain ⟨xq, cq, g1, g2, g3, g4⟩ := hia.live (q1, roundUp16 n) (List.mem_cons_self _ _)
          simp only at g1 g4
          have hcp := copy_loop_frame q1 (m.lo + total L1 + m.hdr_size) (c.size - m.hdr_size) 0 m1
          have hic := inv_payload_frame hia g2 hcp.1 hcp.2 (by omega) (by omega)
          obtain ⟨m3, L', hf, hinv, _, hff⟩ := inv_free hic (List.mem_cons_of_mem _ hp)
          rw [hf] at hm
          obtain ⟨rfl, rfl⟩ : m3 = m' ∧ q1 = q := by simpa using hm
          rw [remove_cons_ne (fun h => hfresh h.symm)] at hinv
          exact ⟨L', inv_weaken hinv hge, by rw [hff.hdr_size, hcp.1.hdr_size, hc1],
            by rw [hff.lo, hcp.1.lo, hc2], by rw [hff.cap, hcp.1.cap, hc3]⟩
    · -- grow into the following chunk
      obtain ⟨m1, hcall, hw', hfr, _⟩ := mm_realloc_absorb hi.wf h0 hn hlt hd hroom
      rw [hcall] at hm
      obtain ⟨rfl, rfl⟩ : m1 = m' ∧ m.lo + total L1 + m.hdr_size = q := by simpa using hm
      have hsum : m.hdr_size + roundUp16 n ≤
          (⟨c.size + d.size, c.allocated⟩ : header_t).size := by
        show m.hdr_size + roundUp16 n ≤ c.size + d.size; omega
      refine ⟨_, @inv_replace _ _ _ [c, d] _ _ _ _ hi hw' hfr.hdr_size hfr.lo ?_ ?_ ?_, hfr.hdr_size,
        hfr.lo, hfr.cap⟩
      · rw [total_split_list hsum]; simp [total]
      · intro hh
        refine split_list_mod16 ?_ (by omega)
        have e1 := hi.al hh c (by simp)
        have e2 := hi.al hh d (by simp)
        show (c.size + d.size) % 16 = 0
        omega
      · intro e he
        rcases List.mem_cons.1 he with rfl | he
        · right
          obtain ⟨h0', ha, hb, hc⟩ := @split_list_head m.hdr_size _
            (⟨c.size + d.size, c.allocated⟩ : header_t) hsum (m.lo + total L1)
          exact ⟨_, h0', rfl, ha, by rw [hb]; exact h3, by
            show m.hdr_size + n ≤ h0'.size; omega⟩
        · obtain ⟨hmem, hne⟩ := mem_remove.1 he
          left
          refine ⟨hmem, ?_⟩
          intro x e' hx he' hat
          rcases hat with ⟨rfl, _⟩ | ⟨_, rfl⟩ | hat
          · exact hne hx
          · rw [hd] at he'; cases he'
          · exact hat

/-- Every reachable state satisfies the invariant, and the constants of the heap never
change. -/
theorem reachable_inv {m0 m : Heap} {led : Ledger} (h0 : EmptyHeap m0)
    (h : Reachable m0 m led) :
    ∃ L, Inv m L led ∧ m.hdr_size = m0.hdr_size ∧ m.lo = m0.lo ∧ m.cap = m0.cap := by
  induction h with
  | start => exact ⟨[], inv_empty h0, rfl, rfl, rfl⟩
  | malloc _ hn hm ih =>
    obtain ⟨L, hi, e1, e2, e3⟩ := ih
    obtain ⟨L', hi', _⟩ := inv_malloc hi hn hm
    obtain ⟨c1, c2, c3, _⟩ := malloc_consts hi.wf hn hm
    exact ⟨L', hi', c1.trans e1, c2.trans e2, c3.trans e3⟩
  | free _ hp hm ih =>
    obtain ⟨L, hi, e1, e2, e3⟩ := ih
    obtain ⟨m1, L', hf, hinv, _, hfr⟩ := inv_free hi hp
    rw [hf] at hm
    obtain rfl : m1 = _ := by simpa using hm
    exact ⟨L', hinv, hfr.hdr_size.trans e1, hfr.lo.trans e2, hfr.cap.trans e3⟩
  | realloc_null _ hn hm ih =>
    obtain ⟨L, hi, e1, e2, e3⟩ := ih
    obtain ⟨L', hi'⟩ := inv_realloc_null hi hn hm
    rw [mm_realloc_null, align_small (by omega)] at hm
    obtain ⟨c1, c2, c3, _⟩ := malloc_consts hi.wf (by rw [roundUp16_idem]; exact hn) hm
    exact ⟨L', hi', c1.trans e1, c2.trans e2, c3.trans e3⟩
  | realloc_zero _ hp hm ih =>
    obtain ⟨L, hi, e1, e2, e3⟩ := ih
    rw [mm_realloc_zero _ _ (live_ne_null hi hp)] at hm
    obtain ⟨m1, L', hf, hinv, _, hfr⟩ := inv_free hi hp
    rw [hf] at hm
    obtain ⟨rfl, _⟩ : m1 = _ ∧ NULL = _ := by simpa using hm
    exact ⟨L', hinv, hfr.hdr_size.trans e1, hfr.lo.trans e2, hfr.cap.trans e3⟩
  | realloc _ hp hpos hn hm ih =>
    obtain ⟨L, hi, e1, e2, e3⟩ := ih
    obtain ⟨L', hi', c1, c2, c3⟩ := inv_realloc hi hp hpos hn hm
    exact ⟨L', hi', c1.trans e1, c2.trans e2, c3.trans e3⟩
  | write b _ hp hlt ih =>
    obtain ⟨L, hi, e1, e2, e3⟩ := ih
    exact ⟨L, inv_poke (some b) hi hp hlt, e1, e2, e3⟩

/-! ## Facts read off the code, on arbitrary heaps -/

theorem first_fit_loop_post (m : Heap) (csz : Nat) :
    ∀ (fuel p q : Nat), first_fit_loop m csz fuel p = .ok q → q ≠ NULL →
      ∃ hd, m.hdr q = some hd ∧ hd.allocated = false ∧ csz ≤ hd.size := by
  intro fuel
  induction fuel with
  | zero => intro p q h; simp [first_fit_loop] at h
  | succ f ih =>
    intro p q h hq
    unfold first_fit_loop at h
    by_cases hp : p = NULL
    · rw [if_pos hp] at h
      have : p = q := by simpa using h
      exact (hq (this ▸ hp)).elim
    · rw [if_neg hp] at h
      cases hl : m.hdr p with
      | none => simp [load, hl] at h
      | some hd =>
        simp only [load, hl] at h
        by_cases hc : (hd.allocated || decide (hd.size < csz)) = true
        · rw [if_pos hc] at h
          cases hn : next_chunk m p with
          | error e => simp [hn] at h
          | ok r =>
            simp only [hn] at h
            by_cases hr : r = NULL
            · rw [if_pos hr] at h
              have : NULL = q := by simpa using h
              exact (hq this.symm).elim
            · rw [if_neg hr] at h
              exact ih r q h hq
        · rw [if_neg hc] at h
          have hpq : p = q := by simpa using h
          subst hpq
          simp only [Bool.or_eq_true, decide_eq_true_eq, not_or, Bool.not_eq_true, not_lt] at hc
          exact ⟨hd, hl, hc.1, hc.2⟩

theorem first_fit_post {m : Heap} {csz q : Nat} (h : first_fit m csz = .ok q)
    (hq : q ≠ NULL) : ∃ hd, m.hdr q = some hd ∧ hd.allocated = false ∧ csz ≤ hd.size := by
  unfold first_fit at h
  cases hn : next_chunk m NULL with
  | error e => simp [hn] at h
  | ok p =>
    simp only [hn] at h
    exact first_fit_loop_post m csz _ p q h hq

/-- The header that `mm_malloc` leaves in front of the block it returns. -/
theorem mm_malloc_header {m m' : Heap} {n p : Nat} (hm : mm_malloc m n = .ok (m', p)) :
    m'.hdr_size = m.hdr_size ∧
    ∃ c, m'.hdr (p - m.hdr_size) = some c ∧ c.allocated = true ∧
      uadd m.hdr_size (align n) ≤ c.size := by
  unfold mm_malloc at hm
  cases hff : first_fit m (uadd m.hdr_size (align n)) with
  | error e => simp [hff] at hm
  | ok p0 =>
    simp only [hff] at hm
    by_cases h0 : p0 = NULL
    · simp only [h0, if_true, ask_os_for_chunk, mem_sbrk] at hm
      by_cases hcap : m.size + uadd m.hdr_size (align n) ≤ m.cap
      · simp only [hcap, if_true, init_chunk, set_size, store_hdr_same, set_allocated,
          debug_check_ok] at hm
        obtain ⟨e1, e2⟩ := Prod.mk.inj (Except.ok.inj hm)
        subst e1 e2
        refine ⟨rfl, ⟨uadd m.hdr_size (align n), true⟩, ?_, rfl, Nat.le_refl _⟩
        rw [Nat.add_sub_cancel]
        exact store_hdr_same _ _ _
      · simp [hcap] at hm
    · obtain ⟨hd, hl, hfree, hsz⟩ := first_fit_post hff h0
      simp only [h0, if_false, split, load, hl] at hm
      by_cases hr : usub hd.size (uadd m.hdr_size (align n)) < uadd m.hdr_size 16
      · simp only [hr, if_true, set_allocated, hl, debug_check_ok] at hm
        obtain ⟨e1, e2⟩ := Prod.mk.inj (Except.ok.inj hm)
        subst e1 e2
        refine ⟨rfl, ⟨hd.size, true⟩, ?_, rfl, hsz⟩
        rw [Nat.add_sub_cancel]
        exact store_hdr_same _ _ _
      · simp only [hr, if_false, set_size, hl, init_chunk] at hm
        by_cases hz : uadd m.hdr_size (align n) = 0
        · simp only [hz, Nat.add_zero, store_hdr_same, set_allocated, debug_check_ok] at hm
          obtain ⟨e1, e2⟩ := Prod.mk.inj (Except.ok.inj hm)
          subst e1 e2
          refine ⟨rfl, ⟨usub hd.size 0, true⟩, ?_, rfl, by rw [hz]; exact Nat.zero_le _⟩
          rw [Nat.add_sub_cancel]
          exact store_hdr_same _ _ _
        · by_cases hlt : uadd m.hdr_size (align n) < m.hdr_size
          · -- the second header overlaps the first: the first is destroyed
            have hnone : (store (store m p0 ⟨uadd m.hdr_size (align n), hd.allocated⟩)
                (p0 + uadd m.hdr_size (align n))
                ⟨usub hd.size (uadd m.hdr_size (align n)), false⟩).hdr p0 = none := by
              simp only [store]
              rw [if_neg (by omega), if_pos ⟨by omega, by omega⟩]
            simp [set_allocated, hnone] at hm
          · have hsome : (store (store m p0 ⟨uadd m.hdr_size (align n), hd.allocated⟩)
                (p0 + uadd m.hdr_size (align n))
                ⟨usub hd.size (uadd m.hdr_size (align n)), false⟩).hdr p0 =
                some ⟨uadd m.hdr_size (align n), hd.allocated⟩ := by
              rw [store_hdr_far _ _ _ _ (Or.inl (by simp only [store_hdr_size]; omega))
                (by omega)]
              exact store_hdr_same _ _ _
            simp only [set_allocated, hsome, debug_check_ok] at hm
            obtain ⟨e1, e2⟩ := Prod.mk.inj (Except.ok.inj hm)
            subst e1 e2
            refine ⟨rfl, ⟨uadd m.hdr_size (align n), true⟩, ?_, rfl, Nat.le_refl _⟩
            rw [Nat.add_sub_cancel]
            exact store_hdr_same _ _ _

/-! ## `mm_realloc` and the contents of the block -/

theorem malloc_grow_of_ok {m m' : Heap} {L : List header_t} {n p : Nat} (hw : WF m L)
    (hn : m.hdr_size + roundUp16 n < SIZE_MOD)
    (hnot : ∀ d ∈ L, fit (m.hdr_size + roundUp16 n) d = false)
    (hm : mm_malloc m n = .ok (m', p)) :
    p = m.lo + m.size + m.hdr_size ∧ WF m' (L ++ [⟨m.hdr_size + roundUp16 n, true⟩]) ∧
      m'.size = m.size + (m.hdr_size + roundUp16 n) ∧ m'.hdr_size = m.hdr_size ∧
      m'.lo = m.lo := by
  rcases mm_malloc_spec hw hn with
    ⟨L1, c, L2, _, rfl, hfit, _, _⟩ | ⟨_, _, m'', hcall, hw', hfr, hsz⟩ | ⟨_, _, herr⟩
  · rw [hnot c (by simp)] at hfit; cases hfit
  · rw [hcall] at hm
    obtain ⟨rfl, rfl⟩ : m'' = m' ∧ m.lo + m.size + m.hdr_size = p := by simpa using hm
    exact ⟨rfl, hw', hsz, hfr.hdr_size, hfr.lo⟩
  · rw [herr] at hm; cases hm

theorem malloc_found_of_ok {m m' : Heap} {L1 L2 : List header_t} {c : header_t} {n p : Nat}
    (hw : WF m (L1 ++ c :: L2)) (hn : m.hdr_size + roundUp16 n < SIZE_MOD)
    (hfit : fit (m.hdr_size + roundUp16 n) c = true)
    (hnot : ∀ d ∈ L1, fit (m.hdr_size + roundUp16 n) d = false)
    (hm : mm_malloc m n = .ok (m', p)) :
    p = m.lo + total L1 + m.hdr_size ∧
      WF m' (L1 ++ (split_list m.hdr_size (m.hdr_size + roundUp16 n) ⟨c.size, true⟩ ++ L2)) ∧
      m'.size = m.size ∧ m'.hdr_size = m.hdr_size ∧ m'.lo = m.lo := by
  obtain ⟨m'', hcall, hw', hfr, hsz⟩ := mm_malloc_found hw hn hfit hnot
  rw [hcall] at hm
  obtain ⟨rfl, rfl⟩ : m'' = m' ∧ m.lo + total L1 + m.hdr_size = p := by simpa using hm
  exact ⟨rfl, hw', hsz, hfr.hdr_size, hfr.lo⟩

theorem free_of_ok {m m' : Heap} {L1 L2 : List header_t} {c : header_t} {p : Nat}
    (hw : WF m (L1 ++ c :: L2)) (hp : p = m.lo + total L1 + m.hdr_size)
    (hm : mm_free m p = .ok m') :
    WF m' (L1 ++ ⟨c.size + total (free_run L2), false⟩ :: after_run L2) ∧
      m'.size = m.size ∧ m'.hdr_size = m.hdr_size ∧ m'.lo = m.lo := by
  obtain ⟨m'', hcall, hw', hfr, hsz⟩ := mm_free_wf hw
  rw [hp, hcall] at hm
  obtain rfl : m'' = m' := by simpa using hm
  exact ⟨hw', hsz, hfr.hdr_size, hfr.lo⟩

theorem fit_alloc (csz sz : Nat) : fit csz ⟨sz, true⟩ = false := by simp [fit]

theorem roundUp16_8 : roundUp16 8 = 16 := by decide

theorem roundUp16_64 : roundUp16 64 = 64 := by decide

/-! ## Scenarios from an empty heap -/

/-- `allocate(8)`, `allocate(8)`, `release(p1)`, `allocate(8)`: the third block is the
first one again. -/
theorem reuse_scenario {m0 m1 m2 m3 m4 : Heap} {p1 p2 p3 : Nat} (hE : EmptyHeap m0)
    (c1 : mm_malloc m0 8 = .ok (m1, p1)) (c2 : mm_malloc m1 8 = .ok (m2, p2))
    (c3 : mm_free m2 p1 = .ok m3) (c4 : mm_malloc m3 8 = .ok (m4, p3)) :
    p3 = p1 ∧ mem_heapsize m4 = mem_heapsize m2 := by
  have hs := hE.hdr_small
  have hn0 : m0.hdr_size + roundUp16 8 < SIZE_MOD := by rw [roundUp16_8]; exact hs
  obtain ⟨e1, w1, s1, hh1, hl1⟩ := malloc_grow_of_ok (wf_empty hE) hn0 (by simp) c1
  rw [roundUp16_8] at w1 s1
  have hn1 : m1.hdr_size + roundUp16 8 < SIZE_MOD := by rw [hh1]; exact hn0
  obtain ⟨e2, w2, s2, hh2, hl2⟩ := malloc_grow_of_ok w1 hn1
    (by intro d hd; simp at hd; rw [hd]; exact fit_alloc _ _) c2
  rw [roundUp16_8, hh1] at w2 s2
  have w2' : WF m2 ([] ++ (⟨m0.hdr_size + 16, true⟩ : header_t) ::
      [⟨m0.hdr_size + 16, true⟩]) := w2
  obtain ⟨w3, s3, hh3, hl3⟩ := free_of_ok w2'
    (by rw [e1, hl2, hl1, hh2, hh1, hE.size_zero]; simp [total]) c3
  have w3' : WF m3 ([] ++ (⟨m0.hdr_size + 16, false⟩ : header_t) ::
      [⟨m0.hdr_size + 16, true⟩]) := by
    simpa [free_run, after_run, total] using w3
  have hn3 : m3.hdr_size + roundUp16 8 < SIZE_MOD := by rw [hh3, hh2, hh1]; exact hn0
  obtain ⟨e4, _, s4, _, _⟩ := malloc_found_of_ok w3' hn3
    (by rw [roundUp16_8, hh3, hh2, hh1]; simp [fit]) (by simp) c4
  refine ⟨?_, ?_⟩
  · rw [e4, e1, hl3, hl2, hl1, hh3, hh2, hh1, hE.size_zero]; simp [total]
  · unfold mem_heapsize; rw [s4, s3]

/-- Three allocations from an empty heap: three allocated chunks in a row. -/
theorem three_blocks {m0 m1 m2 m3 : Heap} {A B C a b c : Nat} (hE : EmptyHeap m0)
    (hA : m0.hdr_size + roundUp16 A < SIZE_MOD) (hB : m0.hdr_size + roundUp16 B < SIZE_MOD)
    (hC : m0.hdr_size + roundUp16 C < SIZE_MOD)
    (c1 : mm_malloc m0 A = .ok (m1, a)) (c2 : mm_malloc m1 B = .ok (m2, b))
    (c3 : mm_malloc m2 C = .ok (m3, c)) :
    WF m3 [⟨m0.hdr_size + roundUp16 A, true⟩, ⟨m0.hdr_size + roundUp16 B, true⟩,
      ⟨m0.hdr_size + roundUp16 C, true⟩] ∧
    m3.hdr_size = m0.hdr_size ∧ m3.lo = m0.lo ∧
    a = m0.lo + m0.hdr_size ∧ b = m0.lo + (m0.hdr_size + roundUp16 A) + m0.hdr_size := by
  obtain ⟨e1, w1, s1, hh1, hl1⟩ := malloc_grow_of_ok (wf_empty hE) hA (by simp) c1
  obtain ⟨e2, w2, s2, hh2, hl2⟩ := malloc_grow_of_ok w1 (by rw [hh1]; exact hB)
    (by intro d hd; simp at hd; rw [hd]; exact fit_alloc _ _) c2
  obtain ⟨e3, w3, s3, hh3, hl3⟩ := malloc_grow_of_ok w2 (by rw [hh2, hh1]; exact hC)
    (by
      intro d hd; simp at hd
      rcases hd with rfl | rfl <;> exact fit_alloc _ _) c3
  rw [hh2, hh1] at w3
  rw [hh1] at w2 e2
  refine ⟨by simpa using w3, by rw [hh3, hh2, hh1], by rw [hl3, hl2, hl1], ?_, ?_⟩
  · rw [e1, hE.size_zero]; rfl
  · rw [e2, hl1, s1, hE.size_zero]; omega

theorem after_run_head (L : List header_t) :
    after_run L = [] ∨ ∃ d R, after_run L = d :: R ∧ d.allocated = true := by
  induction L with
  | nil => exact Or.inl rfl
  | cons c L ih =>
    cases hc : c.allocated
    · simpa [after_run, hc] using ih
    · exact Or.inr ⟨c, L, by simp [after_run, hc], hc⟩

/-! ## Further facts about single calls -/

theorem align_idem (n : Nat) : align (align n) = align n := by
  unfold align roundUp16 SIZE_MOD; omega

theorem mm_malloc_align (m : Heap) (n : Nat) : mm_malloc m (align n) = mm_malloc m n := by
  simp only [mm_malloc, align_idem]

theorem at_replace {a : Nat} {L1 Mid Mid' L2 : List header_t} {y : Nat} {d : header_t}
    (h : At a (L1 ++ (Mid ++ L2)) y d) (hout : ¬ At (a + total L1) Mid y d)
    (htot : total Mid' = total Mid) : At a (L1 ++ (Mid' ++ L2)) y d := by
  rcases at_append.1 h with h | h
  · exact at_append.2 (Or.inl h)
  · rcases at_append.1 h with h | h
    · exact (hout h).elim
    · refine at_append.2 (Or.inr (at_append.2 (Or.inr ?_)))
      rw [htot]; exact h

/-- The effect of `split` on a chunk of a tiled heap, for the whole heap. -/
theorem split_wf {m : Heap} {L1 L2 : List header_t} {c : header_t} {csz : Nat}
    (hw : WF m (L1 ++ c :: L2)) (h1 : m.hdr_size ≤ csz) (h2 : csz ≤ c.size) :
    ∃ m', split m (m.lo + total L1) csz = .ok m' ∧
      WF m' (L1 ++ (split_list m.hdr_size csz c ++ L2)) ∧
      Frame m m' (m.lo + total L1) (m.lo + total L1 + c.size) ∧ m'.size = m.size := by
  have hseg := (seg_append.1 hw.seg).2
  have hcl := (wf_chunk_lt hw).2
  obtain ⟨m1, hsp, hseg1, hfr1, hsz1⟩ := split_seg hseg hw.hdr_pos hw.hdr_small h1 h2 hcl
  refine ⟨m1, hsp, ?_, hfr1, hsz1⟩
  have hw' : WF m (L1 ++ ([c] ++ L2)) := hw
  refine wf_replace hw' (by simpa [total] using hfr1) hsz1 ?_
  have hx := (@seg_append _ (split_list m.hdr_size csz c) L2 _ _).1 hseg1
  have e1 := seg_end hx.2
  have e2 := seg_end hseg.2.2
  have : m.lo + total L1 + total (split_list m.hdr_size csz c)
      = m.lo + total L1 + total [c] := by simp only [total]; omega
  rw [← this]; exact hx.1

theorem split_unchanged {m : Heap} {x csz : Nat} {c : header_t} (hl : m.hdr x = some c)
    (hr : usub c.size csz < uadd m.hdr_size 16) : split m x csz = .ok m := by
  simp [split, load, hl, hr]

/-! ## The logged functions -/

theorem drop_split_log (m : Heap) (x csz : Nat) : drop_log (split_log m x csz) = split m x csz := by
  simp only [split_log, split]
  cases hl : load m x with
  | error e => rfl
  | ok o =>
    simp only
    by_cases hr : usub o.size csz < uadd m.hdr_size 16
    · simp only [hr, if_true, drop_log]
    · simp only [hr, if_false]
      cases hs : set_size m x csz with
      | error e => rfl
      | ok m1 => rfl

theorem drop_mm_malloc_log (m : Heap) (n : Nat) :
    drop_log (mm_malloc_log m n) = mm_malloc m n := by
  simp only [mm_malloc_log, mm_malloc]
  cases hff : first_fit m (uadd m.hdr_size (align n)) with
  | error e => rfl
  | ok p =>
    simp only
    by_cases hp : p = NULL
    · simp only [hp, if_true]
      cases ha : ask_os_for_chunk m (uadd m.hdr_size (align n)) with
      | error e => rfl
      | ok r =>
        obtain ⟨m1, p1⟩ := r
        simp only
        cases hs : set_size m1 p1 (uadd m.hdr_size (align n)) with
        | error e => rfl
        | ok m2 =>
          simp only
          cases hb : set_allocated m2 p1 true with
          | error e => rfl
          | ok m3 =>
            simp only [debug_check_ok, drop_log]
    · simp only [hp, if_false]
      have hd := drop_split_log m p (uadd m.hdr_size (align n))
      cases hs : split_log m p (uadd m.hdr_size (align n)) with
      | error e =>
        rw [hs] at hd
        simp only [drop_log] at hd
        simp only [← hd, drop_log]
      | ok r =>
        obtain ⟨m1, lg⟩ := r
        rw [hs] at hd
        simp only [drop_log] at hd
        simp only [← hd]
        cases hb : set_allocated m1 p true with
        | error e => rfl
        | ok m3 =>
          simp only [debug_check_ok, drop_log]

theorem drop_mm_realloc_log (m : Heap) (ptr n : Nat) :
    drop_log (mm_realloc_log m ptr n) = mm_realloc m ptr n := by
  simp only [mm_realloc_log, mm_realloc]
  by_cases hp : ptr = NULL
  · simp only [hp, if_true]
    exact drop_mm_malloc_log m (align n)
  · simp only [hp, if_false]
    by_cases hz : align n = 0
    · simp only [hz, if_true]
      cases hf : mm_free m ptr with
      | error e => rfl
      | ok m1 => rfl
    · simp only [hz, if_false]
      cases hl : load m (payload2header m ptr) with
      | error e => rfl
      | ok hd =>
        simp only
        by_cases hge : hd.size ≥ uadd m.hdr_size (align n)
        · simp only [hge, if_true]
          have hds := drop_split_log m (payload2header m ptr) (uadd m.hdr_size (align n))
          cases hs : split_log m (payload2header m ptr) (uadd m.hdr_size (align n)) with
          | error e =>
            rw [hs] at hds
            simp only [drop_log] at hds
            simp only [← hds, drop_log]
          | ok r =>
            obtain ⟨m1, lg⟩ := r
            rw [hs] at hds
            simp only [drop_log] at hds
            simp only [← hds, drop_log]
        · simp only [hge, if_false]
          have hdm := drop_mm_malloc_log m (align n)
          cases hnx : next_chunk m (payload2header m ptr) with
          | error e => rfl
          | ok next =>
            simp only
            by_cases hnn : next = NULL
            · simp only [hnn, if_true, List.nil_append]
              cases hm : mm_malloc_log m (align n) with
              | error e =>
                rw [hm] at hdm
                simp only [drop_log] at hdm
                simp only [← hdm, drop_log]
              | ok r =>
                obtain ⟨⟨m1, q⟩, lg⟩ := r
                rw [hm] at hdm
                simp only [drop_log] at hdm
                simp only [← hdm]
                by_cases hc : usub hd.size m.hdr_size ≥ 2 ^ 31
                · simp only [hc, if_true, drop_log]
                · simp only [hc, if_false]
                  cases hf : mm_free (copy_loop q ptr (usub hd.size m.hdr_size) 0 m1) ptr with
                  | error e => rfl
                  | ok m3 => rfl
            · simp only [hnn, if_false]
              cases hln : load m next with
              | error e => rfl
              | ok nh =>
                simp only
                cases hna : nh.allocated
                · simp only [Bool.not_false, Bool.true_and, Bool.false_eq_true, if_false]
                  by_cases hroom : nh.size ≥ usub (uadd m.hdr_size (align n)) hd.size
                  · simp only [hroom, if_true, decide_True]
                    cases hss : set_size m (payload2header m ptr) (uadd hd.size nh.size) with
                    | error e => rfl
                    | ok m1 =>
                      simp only
                      have hds := drop_split_log m1 (payload2header m ptr)
                        (uadd m.hdr_size (align n))
                      cases hs : split_log m1 (payload2header m ptr)
                          (uadd m.hdr_size (align n)) with
                      | error e =>
                        rw [hs] at hds
                        simp only [drop_log] at hds
                        simp only [← hds, drop_log]
                      | ok r =>
                        obtain ⟨m2, lg⟩ := r
                        rw [hs] at hds
                        simp only [drop_log] at hds
                        simp only [← hds, drop_log]
                  · simp only [hroom, if_false, decide_False, Bool.false_eq_true]
                    cases hm : mm_malloc_log m (align n) with
                    | error e =>
                      rw [hm] at hdm
                      simp only [drop_log] at hdm
                      simp only [← hdm, drop_log]
                    | ok r =>
                      obtain ⟨⟨m1, q⟩, lg⟩ := r
                      rw [hm] at hdm
                      simp only [drop_log] at hdm
                      simp only [← hdm]
                      by_cases hc : usub hd.size m.hdr_size ≥ 2 ^ 31
                      · simp only [hc, if_true, drop_log]
                      · simp only [hc, if_false]
                        cases hf : mm_free (copy_loop q ptr (usub hd.size m.hdr_size) 0 m1)
                            ptr with
                        | error e => rfl
                        | ok m3 => rfl
                · simp only [if_true, Bool.not_true, Bool.false_and, List.nil_append,
                    Bool.false_eq_true, if_false]
                  cases hm : mm_malloc_log m (align n) with
                  | error e =>
                    rw [hm] at hdm
                    simp only [drop_log] at hdm
                    simp only [← hdm, drop_log]
                  | ok r =>
                    obtain ⟨⟨m1, q⟩, lg⟩ := r
                    rw [hm] at hdm
                    simp only [drop_log] at hdm
                    simp only [← hdm]
                    by_cases hc : usub hd.size m.hdr_size ≥ 2 ^ 31
                    · simp only [hc, if_true, drop_log]
                    · simp only [hc, if_false]
                      cases hf : mm_free (copy_loop q ptr (usub hd.size m.hdr_size) 0 m1)
                          ptr with
                      | error e => rfl
                      | ok m3 => rfl

theorem split_log_entries {m m' : Heap} {x csz : Nat} {lg : SubLog}
    (h : split_log m x csz = .ok (m', lg)) :
    ∃ o, m.hdr x = some o ∧ lg = [(o.size, csz)] := by
  simp only [split_log] at h
  cases hl : m.hdr x with
  | none => simp [load, hl] at h
  | some o =>
    refine ⟨o, rfl, ?_⟩
    simp only [load, hl] at h
    by_cases hr : usub o.size csz < uadd m.hdr_size 16
    · simp only [hr, if_true] at h
      exact ((Prod.mk.inj (Except.ok.inj h)).2).symm
    · simp only [hr, if_false, set_size, hl] at h
      exact ((Prod.mk.inj (Except.ok.inj h)).2).symm

/-- On every heap, the subtraction in the `split` call of `mm_malloc` does not wrap. -/
theorem malloc_log_ok {m : Heap} {n : Nat} {r : Heap × Nat} {lg : SubLog}
    (h : mm_malloc_log m n = .ok (r, lg)) : ∀ e ∈ lg, e.2 ≤ e.1 := by
  simp only [mm_malloc_log] at h
  cases hff : first_fit m (uadd m.hdr_size (align n)) with
  | error e => simp [hff] at h
  | ok p =>
    simp only [hff] at h
    by_cases hp : p = NULL
    · simp only [hp, if_true] at h
      cases ha : ask_os_for_chunk m (uadd m.hdr_size (align n)) with
      | error e => simp [ha] at h
      | ok r1 =>
        obtain ⟨m1, p1⟩ := r1
        simp only [ha] at h
        cases hs : set_size m1 p1 (uadd m.hdr_size (align n)) with
        | error e => simp [hs] at h
        | ok m2 =>
          simp only [hs] at h
          cases hb : set_allocated m2 p1 true with
          | error e => simp [hb] at h
          | ok m3 =>
            simp only [hb, debug_check_ok] at h
            have := (Prod.mk.inj (Except.ok.inj h)).2
            rw [← this]; simp
    · simp only [hp, if_false] at h
      cases hs : split_log m p (uadd m.hdr_size (align n)) with
      | error e => simp [hs] at h
      | ok r1 =>
        obtain ⟨m1, lg1⟩ := r1
        simp only [hs] at h
        cases hb : set_allocated m1 p true with
        | error e => simp [hb] at h
        | ok m3 =>
          simp only [hb, debug_check_ok] at h
          have hlg := (Prod.mk.inj (Except.ok.inj h)).2
          obtain ⟨o, ho, hlg1⟩ := split_log_entries hs
          obtain ⟨hd, hhd, _, hsz⟩ := first_fit_post hff hp
          rw [ho] at hhd
          have : o = hd := by simpa using hhd
          rw [← hlg, hlg1, this]
          intro e he
          simp at he
          rw [he]; exact hsz

theorem move_tail_ok {m : Heap} {ptr s count a b : Nat} {pre : SubLog} {r : Heap × Nat}
    {lg : SubLog} (hpre : ∀ e ∈ pre, e.2 ≤ e.1) (hab : b ≤ a)
    (h : (match mm_malloc_log m s with
      | .error e => .error e
      | .ok ((m1, new_ptr), log1) =>
        if count ≥ 2 ^ 31 then .error .int_overflow
        else
          match mm_free (copy_loop new_ptr ptr count 0 m1) ptr with
          | .error e => .error e
          | .ok m3 => .ok ((m3, new_ptr), pre ++ log1 ++ [(a, b)]) :
        Except Fault ((Heap × Nat) × SubLog)) = .ok (r, lg)) :
    ∀ e ∈ lg, e.2 ≤ e.1 := by
  cases hm : mm_malloc_log m s with
  | error e => simp [hm] at h
  | ok r1 =>
    obtain ⟨⟨m1, q⟩, log1⟩ := r1
    simp only [hm] at h
    by_cases hc : count ≥ 2 ^ 31
    · rw [if_pos hc] at h; cases h
    · rw [if_neg hc] at h
      cases hf : mm_free (copy_loop q ptr count 0 m1) ptr with
      | error e => simp [hf] at h
      | ok m3 =>
        simp only [hf] at h
        have hlg := (Prod.mk.inj (Except.ok.inj h)).2
        have h1 := malloc_log_ok hm
        rw [← hlg]
        intro e he
        simp only [List.mem_append, List.mem_singleton] at he
        rcases he with (he | he) | he
        · exact hpre e he
        · exact h1 e he
        · rw [he]; exact hab

/-- On a tiled heap, no subtraction evaluated by `mm_realloc` on the block of a chunk
wraps around. -/
theorem realloc_log_ok {m : Heap} {L1 L2 : List header_t} {c : header_t} {n : Nat}
    {r : Heap × Nat} {lg : SubLog} (hw : WF m (L1 ++ c :: L2))
    (h : mm_realloc_log m (m.lo + total L1 + m.hdr_size) n = .ok (r, lg)) :
    ∀ e ∈ lg, e.2 ≤ e.1 := by
  have hseg := (seg_append.1 hw.seg).2
  have hcl := (wf_chunk_lt hw).2
  have hcs := hseg.2.1
  have hne : m.lo + total L1 + m.hdr_size ≠ NULL := by have := hw.lo_pos; unfold NULL; omega
  have hcszlt : uadd m.hdr_size (align n) < SIZE_MOD := Nat.mod_lt _ (by decide)
  have hlo := hw.lo_pos
  simp only [mm_realloc_log, hne, if_false, payload2header_add, load_seg hseg] at h
  by_cases hz : align n = 0
  · simp only [hz, if_true] at h
    cases hf : mm_free m (m.lo + total L1 + m.hdr_size) with
    | error e => simp [hf] at h
    | ok m1 =>
      simp only [hf] at h
      have := (Prod.mk.inj (Except.ok.inj h)).2
      rw [← this]; simp
  · simp only [hz, if_false] at h
    by_cases hge : c.size ≥ uadd m.hdr_size (align n)
    · simp only [hge, if_true] at h
      cases hs : split_log m (m.lo + total L1) (uadd m.hdr_size (align n)) with
      | error e => simp [hs] at h
      | ok r1 =>
        obtain ⟨m1, lg1⟩ := r1
        simp only [hs] at h
        have hlg := (Prod.mk.inj (Except.ok.inj h)).2
        obtain ⟨o, ho, hlg1⟩ := split_log_entries hs
        rw [hseg.1] at ho
        have : c = o := by simpa using ho
        rw [← hlg, hlg1, ← this]
        intro e he
        simp at he
        rw [he]; exact hge
    · simp only [hge, if_false] at h
      have hlt : c.size < uadd m.hdr_size (align n) := by omega
      have hsub : (c.size, m.hdr_size).2 ≤ (c.size, m.hdr_size).1 := hcs
      cases L2 with
      | nil =>
        have hnx := next_chunk_last hw.lo_pos (by omega) hseg
        simp only [hnx, if_true] at h
        exact move_tail_ok (by simp) hcs h
      | cons d L3 =>
        have hnx := next_chunk_cons hw.lo_pos hw.hdr_pos (by omega) hseg
        have hnn : m.lo + total L1 + c.size ≠ NULL := by unfold NULL; omega
        have hld : load m (m.lo + total L1 + c.size) = .ok d := load_seg hseg.2.2
        simp only [hnx, hnn, if_false, hld] at h
        cases hda : d.allocated
        · simp only [hda, Bool.false_eq_true, if_false] at h
          have hus : usub (uadd m.hdr_size (align n)) c.size
              = uadd m.hdr_size (align n) - c.size := usub_small (by omega) hcszlt
          by_cases hroom : d.size ≥ usub (uadd m.hdr_size (align n)) c.size
          · simp only [hroom, if_true, set_size_seg hseg] at h
            cases hs : split_log (store m (m.lo + total L1) ⟨uadd c.size d.size, c.allocated⟩)
                (m.lo + total L1) (uadd m.hdr_size (align n)) with
            | error e => simp [hs] at h
            | ok r1 =>
              obtain ⟨m2, lg1⟩ := r1
              simp only [hs] at h
              have hlg := (Prod.mk.inj (Except.ok.inj h)).2
              obtain ⟨o, ho, hlg1⟩ := split_log_entries hs
              rw [store_hdr_same] at ho
              have ho' : (⟨uadd c.size d.size, c.allocated⟩ : header_t) = o := by simpa using ho
              have he := seg_end hw.seg
              have hfits := hw.fits
              have hsl := hw.size_le
              have hua : uadd c.size d.size = c.size + d.size :=
                uadd_small (by simp only [total_append, total] at he; omega)
              rw [← hlg, hlg1, ← ho']
              intro e he'
              simp only [List.mem_cons, List.mem_singleton, List.not_mem_nil, or_false] at he'
              rcases he' with rfl | rfl
              · show c.size ≤ uadd m.hdr_size (align n); omega
              · show uadd m.hdr_size (align n) ≤ uadd c.size d.size
                rw [hua]; omega
          · simp only [hroom, if_false] at h
            refine move_tail_ok ?_ hcs h
            intro e he
            simp at he
            rw [he]
            show c.size ≤ uadd m.hdr_size (align n); omega
        · simp only [hda, if_true] at h
          exact move_tail_ok (by simp) hcs h

/-- When the chunk is large enough, `mm_realloc` evaluates the subtraction of `split`
and no other. -/
theorem realloc_log_shrink {m : Heap} {L1 L2 : List header_t} {c : header_t} {n : Nat}
    {r : Heap × Nat} {lg : SubLog} (hw : WF m (L1 ++ c :: L2)) (hz : align n ≠ 0)
    (hge : uadd m.hdr_size (align n) ≤ c.size)
    (h : mm_realloc_log m (m.lo + total L1 + m.hdr_size) n = .ok (r, lg)) :
    lg = [(c.size, uadd m.hdr_size (align n))] := by
  have hseg := (seg_append.1 hw.seg).2
  have hne : m.lo + total L1 + m.hdr_size ≠ NULL := by have := hw.lo_pos; unfold NULL; omega
  have hge' : c.size ≥ uadd m.hdr_size (align n) := hge
  simp only [mm_realloc_log, hne, if_false, payload2header_add, load_seg hseg, hz, hge',
    if_true] at h
  cases hs : split_log m (m.lo + total L1) (uadd m.hdr_size (align n)) with
  | error e => simp [hs] at h
  | ok r1 =>
    obtain ⟨m1, lg1⟩ := r1
    simp only [hs] at h
    have hlg := (Prod.mk.inj (Except.ok.inj h)).2
    obtain ⟨o, ho, hlg1⟩ := split_log_entries hs
    rw [hseg.1] at ho
    have : c = o := by simpa using ho
    rw [← hlg, hlg1, ← this]

/-! ## Chunks that a call does not touch -/

/-- When the chunks `Mid` are replaced by `Mid'` and the memory changes inside `Mid`
only, every chunk outside `Mid` is kept. -/
theorem kept_replace {m m' : Heap} {L1 Mid Mid' L2 : List header_t}
    (hw' : WF m' (L1 ++ (Mid' ++ L2)))
    (hf : Frame m m' (m.lo + total L1) (m.lo + total L1 + total Mid))
    (htot : total Mid' = total Mid) {y : Nat} {d : header_t}
    (hat : At m.lo (L1 ++ (Mid ++ L2)) y d) (hout : ¬ At (m.lo + total L1) Mid y d) :
    Kept m m' (L1 ++ (Mid' ++ L2)) y d := by
  have hat' : At m'.lo (L1 ++ (Mid' ++ L2)) y d := by
    rw [hf.lo]; exact at_replace hat hout htot
  refine ⟨hat', seg_at hw'.seg hat', ?_⟩
  intro i h1 h2
  apply hf.byte
  rcases at_append.1 hat with h | h
  · have := at_bounds h; left; omega
  · rcases at_append.1 h with h | h
    · exact (hout h).elim
    · have := at_bounds h; right; omega

theorem kept_trans {m1 m2 m3 : Heap} {L2 L3 : List header_t} {y : Nat} {d : header_t}
    (h12 : Kept m1 m2 L2 y d) (h23 : Kept m2 m3 L3 y d) : Kept m1 m3 L3 y d :=
  ⟨h23.1, h23.2.1, fun i a b => (h23.2.2 i a b).trans (h12.2.2 i a b)⟩

/-- A returning `mm_malloc` keeps every allocated chunk, and the chunk of the block it
returns is none of them. -/
theorem malloc_keeps {m m' : Heap} {L : List header_t} {n p : Nat} (hw : WF m L)
    (hn : m.hdr_size + roundUp16 n < SIZE_MOD) (hm : mm_malloc m n = .ok (m', p)) :
    ∃ L' xq cq, WF m' L' ∧ m'.hdr_size = m.hdr_size ∧ m'.lo = m.lo ∧
      p = xq + m.hdr_size ∧ At m.lo L' xq cq ∧ cq.allocated = true ∧
      m.hdr_size + roundUp16 n ≤ cq.size ∧
      ∀ y d, At m.lo L y d → d.allocated = true → Kept m m' L' y d ∧ y ≠ xq := by
  have hsz := seg_sizes hw.seg
  have hpos := hw.hdr_pos
  rcases mm_malloc_spec hw hn with
    ⟨L1, c0, L2, m'', rfl, hfit, _, hcall, hw', hfr, hs⟩ | ⟨_, _, m'', hcall, hw', hfr, hs⟩ |
    ⟨_, _, herr⟩
  · rw [hcall] at hm
    obtain ⟨rfl, rfl⟩ : m'' = m' ∧ m.lo + total L1 + m.hdr_size = p := by simpa using hm
    obtain ⟨hfree, hle⟩ := fit_iff.1 hfit
    have htot : total (split_list m.hdr_size (m.hdr_size + roundUp16 n) ⟨c0.size, true⟩)
        = total [c0] := by
      rw [total_split_list (by exact hle)]; simp [total]
    obtain ⟨h0, ha, hb, hc⟩ := @split_list_head m.hdr_size _
      (⟨c0.size, true⟩ : header_t) (by exact hle) (m.lo + total L1)
    refine ⟨_, m.lo + total L1, h0, hw', hfr.hdr_size, hfr.lo, rfl,
      at_append.2 (Or.inr (at_append.2 (Or.inl ha))), hb, hc, ?_⟩
    intro y d hat hd
    have hout : ¬ At (m.lo + total L1) [c0] y d := by
      rintro (⟨_, rfl⟩ | h)
      · rw [hfree] at hd; cases hd
      · exact h
    refine ⟨@kept_replace _ _ L1 [c0] _ L2 hw' (by simpa [total] using hfr) htot _ _ hat hout,
      ?_⟩
    intro hy
    rcases at_disjoint hsz hat (at_mid m.lo L1 L2 c0) with ⟨_, hcc⟩ | h | h
    · rw [hcc, hfree] at hd; cases hd
    · have := hsz d (at_mem hat); omega
    · have := hsz c0 (by simp); omega
  · rw [hcall] at hm
    obtain ⟨rfl, rfl⟩ : m'' = m' ∧ m.lo + m.size + m.hdr_size = p := by simpa using hm
    have he := seg_end hw.seg
    refine ⟨_, m.lo + m.size, ⟨m.hdr_size + roundUp16 n, true⟩, hw', hfr.hdr_size, hfr.lo, rfl,
      by rw [← he]; exact at_mid m.lo L [] _, rfl, Nat.le_refl _, ?_⟩
    intro y d hat hd
    have hb := at_bounds hat
    have hds := hsz d (at_mem hat)
    have hat' : At m''.lo (L ++ [⟨m.hdr_size + roundUp16 n, true⟩]) y d := by
      rw [hfr.lo]; exact at_append.2 (Or.inl hat)
    refine ⟨⟨hat', seg_at hw'.seg hat', ?_⟩, by omega⟩
    intro i h1 h2
    exact hfr.byte i (Or.inl (by omega))
  · rw [herr] at hm; cases hm

/-- `mm_free` keeps every allocated chunk other than the released one. -/
theorem free_keeps {m : Heap} {L1 L2 : List header_t} {c : header_t}
    (hw : WF m (L1 ++ c :: L2)) :
    ∃ m' L', mm_free m (m.lo + total L1 + m.hdr_size) = .ok m' ∧ WF m' L' ∧
      ∀ y d, At m.lo (L1 ++ c :: L2) y d → d.allocated = true → y ≠ m.lo + total L1 →
        Kept m m' L' y d := by
  obtain ⟨m', hcall, hw', hfr, _⟩ := mm_free_wf hw
  have hseg := (seg_append.1 hw.seg).2
  have hcs := hseg.2.1
  refine ⟨m', _, hcall, hw', ?_⟩
  intro y d hat hd hy
  have hat2 : At m.lo (L1 ++ ((c :: free_run L2) ++ after_run L2)) y d := by
    rw [List.cons_append, free_run_append]; exact hat
  have hw2 : WF m' (L1 ++ ([⟨c.size + total (free_run L2), false⟩] ++ after_run L2)) := hw'
  have hout : ¬ At (m.lo + total L1) (c :: free_run L2) y d := by
    rintro (⟨h, _⟩ | h)
    · exact hy h
    · rw [free_run_free (at_mem h)] at hd; cases hd
  exact @kept_replace _ _ L1 (c :: free_run L2) _ (after_run L2) hw2
    (frame_mono hfr (Nat.le_refl _) (by simp only [total]; omega)) (by simp [total]) _ _
    hat2 hout

theorem roundUp16_pos {n : Nat} (h : 0 < n) : 0 < roundUp16 n := by
  have := roundUp16_ge n; omega

/-- A returning `mm_realloc` on the block of the allocated chunk `c` keeps every other
allocated chunk. -/
theorem realloc_keeps {m m' : Heap} {L1 L2 : List header_t} {c : header_t} {n q : Nat}
    (hw : WF m (L1 ++ c :: L2)) (hc : c.allocated = true)
    (hn : m.hdr_size + roundUp16 n < SIZE_MOD)
    (hm : mm_realloc m (m.lo + total L1 + m.hdr_size) n = .ok (m', q)) :
    ∃ L', WF m' L' ∧
      ∀ y d, At m.lo (L1 ++ c :: L2) y d → d.allocated = true → y ≠ m.lo + total L1 →
        Kept m m' L' y d := by
  have hne : m.lo + total L1 + m.hdr_size ≠ NULL := by
    have := hw.lo_pos; unfold NULL; omega
  have hsz := seg_sizes hw.seg
  rcases Nat.eq_zero_or_pos n with rfl | h0
  · obtain ⟨m1, L', hcall, hw', hk⟩ := free_keeps hw
    rw [mm_realloc_zero m _ hne, hcall] at hm
    obtain ⟨rfl, _⟩ : m1 = m' ∧ NULL = q := by simpa using hm
    exact ⟨L', hw', hk⟩
  · by_cases hle : m.hdr_size + roundUp16 n ≤ c.size
    · obtain ⟨m1, hcall, hw', hfr, _⟩ := mm_realloc_shrink hw h0 hn hle
      rw [hcall] at hm
      obtain ⟨rfl, _⟩ : m1 = m' ∧ m.lo + total L1 + m.hdr_size = q := by simpa using hm
      refine ⟨_, hw', ?_⟩
      intro y d hat hd hy
      have hout : ¬ At (m.lo + total L1) [c] y d := by
        rintro (⟨h, _⟩ | h)
        · exact hy h
        · exact h
      exact @kept_replace _ _ L1 [c] _ L2 hw' (by simpa [total] using hfr)
        (by rw [total_split_list hle]; simp [total]) _ _ hat hout
    · have hlt : c.size < m.hdr_size + roundUp16 n := by omega
      rcases no_room_or (m.hdr_size + roundUp16 n) c L2 with hno | ⟨d0, L3, rfl, hd0, hroom⟩
      · rw [mm_realloc_move hw h0 hn hlt hno] at hm
        have ha : align n = roundUp16 n := align_small (by omega)
        cases hmal : mm_malloc m (align n) with
        | error e => rw [hmal] at hm; cases hm
        | ok r =>
          obtain ⟨m1, q1⟩ := r
          rw [hmal] at hm
          simp only at hm
          by_cases hcnt : c.size - m.hdr_size ≥ 2 ^ 31
          · rw [if_pos hcnt] at hm; cases hm
          · rw [if_neg hcnt] at hm
            rw [ha] at hmal
            have hn' : m.hdr_size + roundUp16 (roundUp16 n) < SIZE_MOD := by
              rw [roundUp16_idem]; exact hn
            obtain ⟨La, xq, cq, hwa, hc1, hc2, hq, hatq, _, hcq, hkeep⟩ :=
              malloc_keeps hw hn' hmal
            rw [roundUp16_idem] at hcq
            have hcp := copy_loop_frame q1 (m.lo + total L1 + m.hdr_size)
              (c.size - m.hdr_size) 0 m1
            have hw2 := wf_payload_frame hwa (by rw [hc2]; exact hatq) hcp.1 hcp.2
              (by rw [hc1]; omega) (by omega)
            have hsza := seg_sizes hwa.seg
            rw [hc1] at hsza
            -- the old chunk after the allocation
            obtain ⟨hkc, hxq⟩ := hkeep _ c (at_mid m.lo L1 L2 c) hc
            have hatc : At m.lo La (m.lo + total L1) c := by
              have := hkc.1; rw [hc2] at this; exact this
            obtain ⟨A, B, rfl, hx⟩ := at_decomp hatc
            have hw2' : WF (copy_loop q1 (m.lo + total L1 + m.hdr_size)
                (c.size - m.hdr_size) 0 m1) (A ++ c :: B) := hw2
            obtain ⟨m3, L3, hcall3, hw3, hk3⟩ := free_keeps hw2'
            have hlo2 : (copy_loop q1 (m.lo + total L1 + m.hdr_size)
                (c.size - m.hdr_size) 0 m1).lo = m.lo := by rw [hcp.1.lo, hc2]
            have hh2 : (copy_loop q1 (m.lo + total L1 + m.hdr_size)
                (c.size - m.hdr_size) 0 m1).hdr_size = m.hdr_size := by
              rw [hcp.1.hdr_size, hc1]
            rw [hlo2, hh2, ← hx] at hcall3
            rw [hcall3] at hm
            obtain ⟨rfl, _⟩ : m3 = m' ∧ q1 = q := by simpa using hm
            refine ⟨L3, hw3, ?_⟩
            intro y d hat hd hy
            obtain ⟨hk1, hyq⟩ := hkeep y d hat hd
            have hat1 : At m.lo (A ++ c :: B) y d := by
              have := hk1.1; rw [hc2] at this; exact this
            have hk2 : Kept m1 (copy_loop q1 (m.lo + total L1 + m.hdr_size)
                (c.size - m.hdr_size) 0 m1) (A ++ c :: B) y d := by
              have hat2 : At (copy_loop q1 (m.lo + total L1 + m.hdr_size)
                  (c.size - m.hdr_size) 0 m1).lo (A ++ c :: B) y d := by
                rw [hlo2]; exact hat1
              refine ⟨hat2, seg_at hw2.seg hat2, ?_⟩
              intro i h1 h2
              apply hcp.1.byte
              rcases at_disjoint hsza hat1 hatq with ⟨hxy, _⟩ | h | h
              · exact (hyq hxy).elim
              · left; omega
              · right; omega
            have hk3' := hk3 y d (by rw [hlo2]; exact hat1) hd (by rw [hlo2, ← hx]; exact hy)
            exact kept_trans (kept_trans hk1 hk2) hk3'
      · obtain ⟨m1, hcall, hw', hfr, _⟩ := mm_realloc_absorb hw h0 hn hlt hd0 hroom
        rw [hcall] at hm
        obtain ⟨rfl, _⟩ : m1 = m' ∧ m.lo + total L1 + m.hdr_size = q := by simpa using hm
        refine ⟨_, hw', ?_⟩
        intro y d hat hd hy
        have hout : ¬ At (m.lo + total L1) [c, d0] y d := by
          rintro (⟨h, _⟩ | ⟨_, rfl⟩ | h)
          · exact hy h
          · rw [hd0] at hd; cases hd
          · exact h
        have hsum : m.hdr_size + roundUp16 n ≤
            (⟨c.size + d0.size, c.allocated⟩ : header_t).size := by
          show m.hdr_size + roundUp16 n ≤ c.size + d0.size; omega
        exact @kept_replace _ _ L1 [c, d0] _ L3 hw' (by simpa [total] using hfr)
          (by rw [total_split_list hsum]; simp [total]) _ _ hat hout

/-! ## `mm_checkheap` leaves the state as it is -/

/-- `next_chunk` returns the state it was called in. -/
theorem next_chunk_st_eq (m : Heap) (h : Nat) :
    next_chunk_st m h = (next_chunk m h).map (fun q => (m, q)) := by
  unfold next_chunk_st next_chunk
  by_cases hn : h = NULL
  · rw [if_pos hn, if_pos hn]
    by_cases hz : mem_heapsize m = 0
    · rw [if_pos hz, if_pos hz]; rfl
    · rw [if_neg hz, if_neg hz]; rfl
  · rw [if_neg hn, if_neg hn]
    cases hl : load m h with
    | error e => rfl
    | ok hd =>
      simp only
      by_cases he : h + hd.size = mem_heap_hi m + 1
      · rw [if_pos he, if_pos he]; rfl
      · rw [if_neg he, if_neg he]; rfl

/-- The loop of `mm_checkheap` returns the state it was started in, with the statistics
computed by `checkheap_loop`. -/
theorem checkheap_loop_st_eq (m : Heap) :
    ∀ (fuel p : Nat) (info : heap_info_t),
      checkheap_loop_st fuel m p info
        = (checkheap_loop m fuel p info).map (fun i => (m, i)) := by
  intro fuel
  induction fuel with
  | zero => intro p info; rfl
  | succ k ih =>
    intro p info
    unfold checkheap_loop_st checkheap_loop
    by_cases hn : p = NULL
    · rw [if_pos hn, if_pos hn]; rfl
    · rw [if_neg hn, if_neg hn]
      cases hl : load m p with
      | error e => rfl
      | ok hd =>
        simp only
        rw [next_chunk_st_eq]
        cases hq : next_chunk m p with
        | error e => rfl
        | ok q => exact ih q _

/-- A call of `mm_checkheap` that returns leaves the state it was called in, and
returns the statistics computed by the function of the state `mm_checkheap`. -/
theorem mm_checkheap_st_eq (m : Heap) (verbose : Bool) :
    mm_checkheap_st m verbose = (mm_checkheap m verbose).map (fun i => (m, i)) := by
  unfold mm_checkheap_st mm_checkheap
  simp only
  rw [next_chunk_st_eq]
  cases hq : next_chunk m NULL with
  | error e => rfl
  | ok p =>
    simp only [Except.map]
    rw [checkheap_loop_st_eq]
    cases hc : checkheap_loop m (mem_heapsize m + 1) p ⟨0, 0, 0, 0⟩ with
    | error e => rfl
    | ok info =>
      simp only [Except.map]
      by_cases ha : mem_heapsize m = uadd info.allocated_size info.free_size
      · rw [if_pos ha, if_pos ha]
      · rw [if_neg ha, if_neg ha]

/-- Whatever the state, a call of `mm_checkheap` that returns changes nothing. -/
theorem mm_checkheap_st_frame {m m' : Heap} {verbose : Bool} {info : heap_info_t}
    (h : mm_checkheap_st m verbose = .ok (m', info)) :
    m' = m ∧ mm_checkheap m verbose = .ok info := by
  rw [mm_checkheap_st_eq] at h
  cases hc : mm_checkheap m verbose with
  | error e => rw [hc] at h; cases h
  | ok i =>
    rw [hc] at h
    have h1 : (m, i) = (m', info) := by
      simpa [Except.map] using h
    injection h1 with h2 h3
    exact ⟨h2.symm, by rw [h3]⟩

/-- `next_chunk` reads only header objects and heap bounds. -/
theorem next_chunk_congr {m m' : Heap} (hh : m'.hdr = m.hdr) (hl : m'.lo = m.lo)
    (hs : m'.size = m.size) (h : Nat) : next_chunk m' h = next_chunk m h := by
  unfold next_chunk load mem_heapsize mem_heap_lo mem_heap_hi
  rw [hh, hl, hs]

/-- The loop of `mm_checkheap` reads only header objects and heap bounds. -/
theorem checkheap_loop_congr {m m' : Heap} (hh : m'.hdr = m.hdr) (hl : m'.lo = m.lo)
    (hs : m'.size = m.size) :
    ∀ (fuel p : Nat) (info : heap_info_t),
      checkheap_loop m' fuel p info = checkheap_loop m fuel p info := by
  intro fuel
  induction fuel with
  | zero => intro p info; rfl
  | succ k ih =>
    intro p info
    unfold checkheap_loop
    rw [next_chunk_congr hh hl hs]
    have hld : load m' p = load m p := by unfold load; rw [hh]
    rw [hld]
    by_cases hn : p = NULL
    · rw [if_pos hn, if_pos hn]
    · rw [if_neg hn, if_neg hn]
      cases load m p with
      | error e => rfl
      | ok hd =>
        simp only
        cases next_chunk m p with
        | error e => rfl
        | ok q => exact ih q _

/-- The result of `mm_checkheap` is determined by the header objects and the heap
bounds of the state, whatever `verbose` is. -/
theorem mm_checkheap_congr {m m' : Heap} (hh : m'.hdr = m.hdr) (hl : m'.lo = m.lo)
    (hs : m'.size = m.size) (v v' : Bool) : mm_checkheap m' v' = mm_checkheap m v := by
  unfold mm_checkheap
  simp only
  rw [next_chunk_congr hh hl hs]
  cases next_chunk m NULL with
  | error e => rfl
  | ok p =>
    simp only
    rw [checkheap_loop_congr hh hl hs]
    unfold mem_heapsize
    rw [hs]

/-! ## Properties of the allocator -/

theorem heap0_empty : EmptyHeap heap0 :=
  ⟨rfl, by decide, by decide, by decide, by decide, rfl⟩

theorem heap1_step : mm_malloc heap0 8 = .ok (heap1, 4112) := rfl

theorem heap2_step : mm_malloc heap1 8 = .ok (heap2, 4144) := rfl

theorem heap1_reachable : Reachable heap0 heap1 [(4112, 8)] :=
  Reachable.malloc Reachable.start (by decide) heap1_step

theorem heap2_reachable : Reachable heap0 heap2 [(4144, 8), (4112, 8)] :=
  Reachable.malloc heap1_reachable (by decide) heap2_step

/-- C2 as stated fails for a requested size whose chunk size does not fit in a `size_t`:
from the empty heap, after `allocate(8)` and `release` of that block,
`allocate(2 ^ 64 - 16)` computes the chunk size `16 + (2 ^ 64 - 16) = 0`, takes the free
chunk of 32 bytes and returns `4112`; a following `allocate(8)` returns `4144`.  Both
pointers are live, they are distinct, and the byte `4144` lies in both ranges
`[4112, 4112 + (2 ^ 64 - 16))` and `[4144, 4144 + 8)`. -/
theorem no_overlap_counterexample :
    EmptyHeap heap0 ∧ mm_malloc heap0 8 = .ok (heap1, 4112) ∧
    mm_free heap1 4112 = .ok heap2o ∧
    uadd heap2o.hdr_size (align (2 ^ 64 - 16)) = 0 ∧
    mm_malloc heap2o (2 ^ 64 - 16) = .ok (heap3o, 4112) ∧
    heap3o.hdr 4096 = some ⟨32, true⟩ ∧
    mm_malloc heap3o 8 = .ok (heap4o, 4144) ∧
    heap4o.hdr 4096 = some ⟨32, true⟩ ∧ heap4o.hdr 4128 = some ⟨32, true⟩ ∧
    4112 ≠ 4144 ∧ (4112 ≤ 4144 ∧ 4144 < 4112 + (2 ^ 64 - 16)) ∧
    (4144 ≤ 4144 ∧ 4144 < 4144 + 8) ∧
    ¬ (4112 + (2 ^ 64 - 16) ≤ 4144 ∨ 4144 + 8 ≤ 4112) :=
  ⟨heap0_empty, rfl, rfl, by decide, rfl, rfl, rfl, rfl, rfl, by decide, by decide, by decide,
    by decide⟩

/-- C2 as amended (no overlap): in every state reached by calls on live pointers with
requested sizes whose chunk size `hdr_size + roundUp16 n` is below `2 ^ 64` (the calls
`Reachable` admits), two distinct live pointers `p` and `q`, requested for `k` and `n`
bytes, have disjoint byte ranges `[p, p + k)` and `[q, q + n)`. -/
theorem no_overlap {m0 m : Heap} {led : Ledger} (h0 : EmptyHeap m0)
    (h : Reachable m0 m led) {p k q n : Nat} (hp : (p, k) ∈ led) (hq : (q, n) ∈ led)
    (hne : p ≠ q) : p + k ≤ q ∨ q + n ≤ p := by
  obtain ⟨L, hi, _⟩ := reachable_inv h0 h
  obtain ⟨x, c, h1, h2, _, h4⟩ := hi.live _ hp
  obtain ⟨y, d, g1, g2, _, g4⟩ := hi.live _ hq
  simp only at h1 h4 g1 g4
  rcases at_disjoint (seg_sizes hi.wf.seg) h2 g2 with ⟨hxy, _⟩ | hd | hd
  · omega
  · left; omega
  · right; omega

theorem no_overlap_witness :
    EmptyHeap heap0 ∧ Reachable heap0 heap2 [(4144, 8), (4112, 8)] ∧
    (4144 + 8 ≤ 4112 ∨ 4112 + 8 ≤ 4144) :=
  ⟨heap0_empty, heap2_reachable,
    no_overlap heap0_empty heap2_reachable (by simp) (by simp) (by decide)⟩

/-- C3 (capacity): for every heap and every requested size `n` whose chunk size
`hdr_size + roundUp16 n` does not overflow a `size_t`, when `mm_malloc n` returns, the
header in front of the returned block is marked allocated and its size is at least
`hdr_size + n`. -/
theorem malloc_capacity {m m' : Heap} {n p : Nat} (hn : m.hdr_size + roundUp16 n < SIZE_MOD)
    (hm : mm_malloc m n = .ok (m', p)) :
    ∃ c, m'.hdr (payload2header m' p) = some c ∧ c.allocated = true ∧
      m'.hdr_size + n ≤ c.size := by
  obtain ⟨hs, c, h1, h2, h3⟩ := mm_malloc_header hm
  rw [csz_small hn] at h3
  have := roundUp16_ge n
  refine ⟨c, ?_, h2, by rw [hs]; omega⟩
  unfold payload2header; rw [hs]; exact h1

theorem malloc_capacity_witness :
    heap0.hdr_size + roundUp16 8 < SIZE_MOD ∧ mm_malloc heap0 8 = .ok (heap1, 4112) ∧
    ∃ c, heap1.hdr (payload2header heap1 4112) = some c ∧ c.allocated = true ∧
      heap1.hdr_size + 8 ≤ c.size :=
  ⟨by decide, heap1_step, malloc_capacity (by decide) heap1_step⟩

/-- C5 (out of memory), what the code does: when `first_fit` finds no chunk and
`mem_sbrk` fails, `mm_malloc` does not return `NULL` with an unchanged heap; it goes on
to initialise a header through the failure result of `mem_sbrk`. -/
theorem malloc_out_of_memory (m : Heap) (n : Nat)
    (hff : first_fit m (uadd m.hdr_size (align n)) = .ok NULL)
    (hs : mem_sbrk m (uadd m.hdr_size (align n)) = none) :
    mm_malloc m n = .error .failed_grow_deref ∧ mm_malloc m n ≠ .ok (m, NULL) := by
  have h := mm_malloc_failed_grow m n hff hs
  refine ⟨h, ?_⟩
  rw [h]; intro hc; cases hc

theorem malloc_out_of_memory_witness :
    first_fit heap_full (uadd heap_full.hdr_size (align 8)) = .ok NULL ∧
    mem_sbrk heap_full (uadd heap_full.hdr_size (align 8)) = none ∧
    mm_malloc heap_full 8 = .error .failed_grow_deref ∧
    mm_malloc heap_full 8 ≠ .ok (heap_full, NULL) :=
  ⟨rfl, rfl, malloc_out_of_memory heap_full 8 rfl rfl⟩

/-- C7 (first-fit reuse): on a tiled heap, if some free chunk has size at least
`hdr_size + roundUp16 n`, then `mm_malloc n` returns without growing the heap, and the
block it returns is the payload of the lowest such chunk; `first_fit` returns `NULL`
exactly when no free chunk is large enough.  From an empty heap, `p1 = allocate(8)`,
`p2 = allocate(8)`, `release(p1)`, `p3 = allocate(8)` gives `p3 = p1`. -/
theorem first_fit_reuse {m : Heap} {L : List header_t} (hw : WF m L) :
    (∀ n x c, At m.lo L x c → c.allocated = false → m.hdr_size + roundUp16 n ≤ c.size →
      ∃ m' x0 c0, mm_malloc m n = .ok (m', x0 + m.hdr_size) ∧
        mem_heapsize m' = mem_heapsize m ∧ At m.lo L x0 c0 ∧ c0.allocated = false ∧
        m.hdr_size + roundUp16 n ≤ c0.size ∧
        ∀ y d, At m.lo L y d → d.allocated = false → m.hdr_size + roundUp16 n ≤ d.size →
          x0 ≤ y) ∧
    (∀ csz, first_fit m csz = .ok NULL ↔
      ∀ d ∈ L, ¬ (d.allocated = false ∧ csz ≤ d.size)) ∧
    (∀ m0 m1 m2 m3 m4 p1 p2 p3, EmptyHeap m0 → mm_malloc m0 8 = .ok (m1, p1) →
      mm_malloc m1 8 = .ok (m2, p2) → mm_free m2 p1 = .ok m3 →
      mm_malloc m3 8 = .ok (m4, p3) → p3 = p1) := by
  refine ⟨?_, ?_, ?_⟩
  · intro n x c hat hfree hsz
    have hn : m.hdr_size + roundUp16 n < SIZE_MOD := by
      obtain ⟨L1, L2, rfl, _⟩ := at_decomp hat
      have := (wf_chunk_lt hw).2
      omega
    rcases mm_malloc_spec hw hn with
      ⟨L1, c0, L2, m', rfl, hfit, hnot, hcall, _, _, hs⟩ | ⟨hnot, _⟩ | ⟨hnot, _⟩
    · obtain ⟨f1, f2⟩ := fit_iff.1 hfit
      refine ⟨m', m.lo + total L1, c0, hcall, hs, at_mid _ _ _ _, f1, f2, ?_⟩
      intro y d hy hd hds
      rcases at_append.1 hy with h | h
      · have := hnot d (at_mem h)
        rw [fit_iff.2 ⟨hd, hds⟩] at this; cases this
      · exact (at_bounds h).1
    · have := hnot c (at_mem hat)
      rw [fit_iff.2 ⟨hfree, hsz⟩] at this; cases this
    · have := hnot c (at_mem hat)
      rw [fit_iff.2 ⟨hfree, hsz⟩] at this; cases this
  · intro csz
    rw [first_fit_wf hw]
    constructor
    · intro h d hd hfit
      have h' : find_fit csz m.lo L = NULL := by simpa using h
      have := (find_fit_null hw.lo_pos).1 h' d hd
      rw [fit_iff.2 hfit] at this; cases this
    · intro h
      have : find_fit csz m.lo L = NULL := by
        refine (find_fit_null hw.lo_pos).2 (fun d hd => ?_)
        cases hf : fit csz d
        · rfl
        · exact (h d hd (fit_iff.1 hf)).elim
      rw [this]
  · intro m0 m1 m2 m3 m4 p1 p2 p3 hE c1 c2 c3 c4
    exact (reuse_scenario hE c1 c2 c3 c4).1

theorem heap3_wf : WF heap3 [⟨32, false⟩, ⟨32, true⟩] :=
  ⟨by decide, by decide, by decide, by decide, by decide, rfl, by decide, rfl, by decide, rfl⟩

theorem first_fit_reuse_witness :
    WF heap3 [⟨32, false⟩, ⟨32, true⟩] ∧
    At heap3.lo [⟨32, false⟩, ⟨32, true⟩] 4096 ⟨32, false⟩ ∧
    heap3.hdr_size + roundUp16 8 ≤ 32 ∧
    ∃ m' x0 c0, mm_malloc heap3 8 = .ok (m', x0 + heap3.hdr_size) ∧
      mem_heapsize m' = mem_heapsize heap3 ∧
      At heap3.lo [⟨32, false⟩, ⟨32, true⟩] x0 c0 ∧ c0.allocated = false ∧
      heap3.hdr_size + roundUp16 8 ≤ c0.size ∧
      ∀ y d, At heap3.lo [⟨32, false⟩, ⟨32, true⟩] y d → d.allocated = false →
        heap3.hdr_size + roundUp16 8 ≤ d.size → x0 ≤ y :=
  ⟨heap3_wf, Or.inl ⟨rfl, rfl⟩, by decide,
    (first_fit_reuse heap3_wf).1 8 4096 ⟨32, false⟩ (Or.inl ⟨rfl, rfl⟩) rfl (by decide)⟩

/-- C8 as stated fails: after `allocate(8)` three times and `release` of the first and
then of the second block, `mm_checkheap` reports two free chunks, not one, and a
following `allocate(40)`, whose chunk of 64 bytes fits in the two free chunks together
but in neither of them, grows the heap. -/
theorem forward_coalescing_counterexample :
    mm_malloc heap0 8 = .ok (heap1, 4112) ∧ mm_malloc heap1 8 = .ok (heap2, 4144) ∧
    mm_malloc heap2 8 = .ok (heap3b, 4176) ∧ mm_free heap3b 4112 = .ok heap4b ∧
    mm_free heap4b 4144 = .ok heap5b ∧
    mm_checkheap heap5b true = .ok
      { num_allocated_chunks := 1,
        num_free_chunks := 2,
        free_size := 64,
        allocated_size := 32 } ∧
    ¬ (∃ info, mm_checkheap heap5b true = .ok info ∧ info.num_free_chunks = 1) ∧
    mem_heapsize heap5b = 96 ∧
    mem_heapsize (after heap5b (mm_malloc heap5b 40)) = 160 := by
  refine ⟨rfl, rfl, rfl, rfl, rfl, rfl, ?_, rfl, rfl⟩
  rintro ⟨info, h1, h2⟩
  have h3 : mm_checkheap heap5b true = .ok ⟨1, 2, 64, 32⟩ := rfl
  rw [h3] at h1
  have h4 : (⟨1, 2, 64, 32⟩ : heap_info_t) = info := by simpa using h1
  rw [← h4] at h2
  cases h2

/-- C8 as amended: after `a = allocate(A)`, `b = allocate(B)`, `c = allocate(C)` from an
empty heap, releasing `b` and then `a` leaves exactly one free chunk, of size
`size(A-chunk) + size(B-chunk)`, and a following allocation whose chunk fits in that
size returns without growing the heap.  Releasing `a` and then `b` leaves two free
chunks (sizes `size(A-chunk)` and `size(B-chunk)`, not merged), and a following
allocation whose chunk fits in neither of them grows the heap. -/
theorem forward_coalescing {m0 m1 m2 m3 : Heap} {A B C a b c : Nat} (hE : EmptyHeap m0)
    (hA : m0.hdr_size + roundUp16 A < SIZE_MOD) (hB : m0.hdr_size + roundUp16 B < SIZE_MOD)
    (hC : m0.hdr_size + roundUp16 C < SIZE_MOD)
    (c1 : mm_malloc m0 A = .ok (m1, a)) (c2 : mm_malloc m1 B = .ok (m2, b))
    (c3 : mm_malloc m2 C = .ok (m3, c)) (verbose : Bool) :
    (∃ m4 m5, mm_free m3 b = .ok m4 ∧ mm_free m4 a = .ok m5 ∧
      mm_checkheap m5 verbose = .ok
        { num_allocated_chunks := 1,
          num_free_chunks := 1,
          free_size := (m0.hdr_size + roundUp16 A) + (m0.hdr_size + roundUp16 B),
          allocated_size := m0.hdr_size + roundUp16 C } ∧
      ∀ n, m0.hdr_size + roundUp16 n ≤
          (m0.hdr_size + roundUp16 A) + (m0.hdr_size + roundUp16 B) →
        ∃ m6 p, mm_malloc m5 n = .ok (m6, p) ∧ mem_heapsize m6 = mem_heapsize m5) ∧
    (∃ m4 m5, mm_free m3 a = .ok m4 ∧ mm_free m4 b = .ok m5 ∧
      Seg m5 (mem_heap_lo m5) [⟨m0.hdr_size + roundUp16 A, false⟩,
        ⟨m0.hdr_size + roundUp16 B, false⟩, ⟨m0.hdr_size + roundUp16 C, true⟩]
        (mem_heap_lo m5 + mem_heapsize m5) ∧
      mm_checkheap m5 verbose = .ok
        { num_allocated_chunks := 1,
          num_free_chunks := 2,
          free_size := (m0.hdr_size + roundUp16 A) + (m0.hdr_size + roundUp16 B),
          allocated_size := m0.hdr_size + roundUp16 C } ∧
      ∀ n m6 p, m0.hdr_size + roundUp16 n < SIZE_MOD →
        m0.hdr_size + roundUp16 A < m0.hdr_size + roundUp16 n →
        m0.hdr_size + roundUp16 B < m0.hdr_size + roundUp16 n →
        mm_malloc m5 n = .ok (m6, p) →
        mem_heapsize m6 = mem_heapsize m5 + (m0.hdr_size + roundUp16 n)) := by
  obtain ⟨w3, hh3, hl3, ea, eb⟩ := three_blocks hE hA hB hC c1 c2 c3
  constructor
  · -- release b, then a
    have w3' : WF m3 ([(⟨m0.hdr_size + roundUp16 A, true⟩ : header_t)] ++
        (⟨m0.hdr_size + roundUp16 B, true⟩ : header_t) ::
        [⟨m0.hdr_size + roundUp16 C, true⟩]) := w3
    obtain ⟨m4, f1, w4, fr4, s4⟩ := mm_free_wf w3'
    have eb' : m3.lo + total [(⟨m0.hdr_size + roundUp16 A, true⟩ : header_t)] + m3.hdr_size
        = b := by rw [eb, hl3, hh3]; simp [total]
    rw [eb'] at f1
    have w4' : WF m4 ([] ++ (⟨m0.hdr_size + roundUp16 A, true⟩ : header_t) ::
        [⟨m0.hdr_size + roundUp16 B, false⟩, ⟨m0.hdr_size + roundUp16 C, true⟩]) := by
      simpa [free_run, after_run, total] using w4
    obtain ⟨m5, f2, w5, fr5, s5⟩ := mm_free_wf w4'
    have ea' : m4.lo + total ([] : List header_t) + m4.hdr_size = a := by
      rw [ea, fr4.lo, fr4.hdr_size, hl3, hh3]; simp [total]
    rw [ea'] at f2
    have w5' : WF m5 ([] ++ (⟨(m0.hdr_size + roundUp16 A) + (m0.hdr_size + roundUp16 B),
        false⟩ : header_t) :: [⟨m0.hdr_size + roundUp16 C, true⟩]) := by
      simpa [free_run, after_run, total] using w5
    have h5 : m5.hdr_size = m0.hdr_size := by rw [fr5.hdr_size, fr4.hdr_size, hh3]
    refine ⟨m4, m5, f1, f2, ?_, ?_⟩
    · rw [mm_checkheap_wf w5' verbose]
      simp [allocd, freed, total]
    · intro n hn
      have hlt := (wf_chunk_lt w5').2
      have hn' : m5.hdr_size + roundUp16 n < SIZE_MOD := by
        rw [h5]; exact Nat.lt_of_le_of_lt hn hlt
      obtain ⟨m6, hcall, _, _, hs⟩ := mm_malloc_found w5' hn'
        (by rw [h5]; exact fit_iff.2 ⟨rfl, hn⟩) (by simp)
      exact ⟨m6, _, hcall, hs⟩
  · -- release a, then b
    have w3' : WF m3 ([] ++ (⟨m0.hdr_size + roundUp16 A, true⟩ : header_t) ::
        [⟨m0.hdr_size + roundUp16 B, true⟩, ⟨m0.hdr_size + roundUp16 C, true⟩]) := w3
    obtain ⟨m4, f1, w4, fr4, s4⟩ := mm_free_wf w3'
    have ea' : m3.lo + total ([] : List header_t) + m3.hdr_size = a := by
      rw [ea, hl3, hh3]; simp [total]
    rw [ea'] at f1
    have w4' : WF m4 ([(⟨m0.hdr_size + roundUp16 A, false⟩ : header_t)] ++
        (⟨m0.hdr_size + roundUp16 B, true⟩ : header_t) ::
        [⟨m0.hdr_size + roundUp16 C, true⟩]) := by
      simpa [free_run, after_run, total] using w4
    obtain ⟨m5, f2, w5, fr5, s5⟩ := mm_free_wf w4'
    have eb' : m4.lo + total [(⟨m0.hdr_size + roundUp16 A, false⟩ : header_t)] + m4.hdr_size
        = b := by rw [eb, fr4.lo, fr4.hdr_size, hl3, hh3]; simp [total]
    rw [eb'] at f2
    have w5' : WF m5 [⟨m0.hdr_size + roundUp16 A, false⟩,
        ⟨m0.hdr_size + roundUp16 B, false⟩, ⟨m0.hdr_size + roundUp16 C, true⟩] := by
      simpa [free_run, after_run, total] using w5
    have h5 : m5.hdr_size = m0.hdr_size := by rw [fr5.hdr_size, fr4.hdr_size, hh3]
    refine ⟨m4, m5, f1, f2, w5'.seg, ?_, ?_⟩
    · rw [mm_checkheap_wf w5' verbose]
      simp [allocd, freed, total]
    · intro n m6 p hn h1 h2 hcall
      rw [← h5] at hn
      obtain ⟨_, _, hs, _, _⟩ := malloc_grow_of_ok w5' hn (by
        intro d hd
        simp at hd
        rw [h5]
        rcases hd with rfl | rfl | rfl
        · simp [fit]; omega
        · simp [fit]; omega
        · exact fit_alloc _ _) hcall
      unfold mem_heapsize
      rw [hs, h5]

theorem forward_coalescing_witness :
    EmptyHeap heap0 ∧ mm_malloc heap0 8 = .ok (heap1, 4112) ∧
    mm_malloc heap1 8 = .ok (heap2, 4144) ∧ mm_malloc heap2 8 = .ok (heap3b, 4176) ∧
    ∃ m4 m5, mm_free heap3b 4144 = .ok m4 ∧ mm_free m4 4112 = .ok m5 ∧
      mm_checkheap m5 true = .ok
        { num_allocated_chunks := 1,
          num_free_chunks := 1,
          free_size := (heap0.hdr_size + roundUp16 8) + (heap0.hdr_size + roundUp16 8),
          allocated_size := heap0.hdr_size + roundUp16 8 } ∧
      ∀ n, heap0.hdr_size + roundUp16 n ≤
          (heap0.hdr_size + roundUp16 8) + (heap0.hdr_size + roundUp16 8) →
        ∃ m6 p, mm_malloc m5 n = .ok (m6, p) ∧ mem_heapsize m6 = mem_heapsize m5 :=
  ⟨heap0_empty, rfl, rfl, rfl,
    (forward_coalescing heap0_empty (by decide) (by decide) (by decide) heap1_step
      heap2_step (rfl : mm_malloc heap2 8 = .ok (heap3b, 4176)) true).1⟩

theorem heap3_reachable : Reachable heap0 heap3 [(4144, 8)] :=
  Reachable.free (n := 8) heap2_reachable (by simp) (rfl : mm_free heap2 4112 = .ok heap3)

theorem heap4_reachable : Reachable heap0 heap4 [] :=
  Reachable.free (n := 8) heap3_reachable (by simp) (rfl : mm_free heap3 4144 = .ok heap4)

theorem heap2s_reachable : Reachable heap0 heap2s [(4192, 8), (4112, 64)] :=
  Reachable.malloc
    (Reachable.malloc Reachable.start (by decide)
      (rfl : mm_malloc heap0 64 = .ok (heap1c, 4112)))
    (by decide) (rfl : mm_malloc heap1c 8 = .ok (heap2s, 4192))

theorem heap3s_reachable : Reachable heap0 heap3s [(4112, 64)] :=
  Reachable.free (n := 8) heap2s_reachable (by simp) (rfl : mm_free heap2s 4192 = .ok heap3s)

/-- C9 as stated fails for each of the three calls.  Release: after `allocate(8)` twice,
`release` of the first block and `release` of the second block, the heap consists of two
adjacent chunks that are both free.  Coalesce: in that state `coalesce` on the second
free chunk returns and leaves the two adjacent free chunks.  Shrinking resize: after
`allocate(64)`, `allocate(8)` and `release` of the second block, `resize` of the first
block to 8 bytes splits its chunk of 80 bytes into an allocated chunk of 32 bytes and a
free chunk of 48 bytes, which is followed by the free chunk of 32 bytes. -/
theorem no_adjacent_free_counterexample :
    (Reachable heap0 heap3 [(4144, 8)] ∧ mm_free heap3 4144 = .ok heap4 ∧
      Seg heap4 (mem_heap_lo heap4) [⟨32, false⟩, ⟨32, false⟩]
        (mem_heap_lo heap4 + mem_heapsize heap4) ∧
      heap4.hdr 4096 = some ⟨32, false⟩ ∧ heap4.hdr (4096 + 32) = some ⟨32, false⟩ ∧
      mm_checkheap heap4 true = .ok
        { num_allocated_chunks := 0,
          num_free_chunks := 2,
          free_size := 64,
          allocated_size := 0 }) ∧
    (Reachable heap0 heap4 [] ∧
      ∃ m', coalesce heap4 (4096 + 32) = .ok m' ∧
        Seg m' (mem_heap_lo m') [⟨32, false⟩, ⟨32, false⟩]
          (mem_heap_lo m' + mem_heapsize m') ∧
        m'.hdr 4096 = some ⟨32, false⟩ ∧ m'.hdr (4096 + 32) = some ⟨32, false⟩) ∧
    (Reachable heap0 heap3s [(4112, 64)] ∧
      heap3s.hdr (payload2header heap3s 4112) = some ⟨80, true⟩ ∧
      heap3s.hdr_size + roundUp16 8 ≤ 80 ∧
      mm_realloc heap3s 4112 8 = .ok (heap4s, 4112) ∧
      Seg heap4s (mem_heap_lo heap4s) [⟨32, true⟩, ⟨48, false⟩, ⟨32, false⟩]
        (mem_heap_lo heap4s + mem_heapsize heap4s) ∧
      heap4s.hdr (4096 + 32) = some ⟨48, false⟩ ∧
      heap4s.hdr (4096 + 32 + 48) = some ⟨32, false⟩ ∧
      mm_checkheap heap4s true = .ok
        { num_allocated_chunks := 1,
          num_free_chunks := 2,
          free_size := 80,
          allocated_size := 32 }) :=
  ⟨⟨heap3_reachable, rfl, ⟨rfl, by decide, rfl, by decide, rfl⟩, rfl, rfl, rfl⟩,
    ⟨heap4_reachable, after_free heap4 (coalesce heap4 (4096 + 32)), rfl,
      ⟨rfl, by decide, rfl, by decide, rfl⟩, rfl, rfl⟩,
    ⟨heap3s_reachable, rfl, by decide, rfl,
      ⟨rfl, by decide, rfl, by decide, rfl, by decide, rfl⟩, rfl, rfl, rfl⟩⟩

/-- C9 as amended: in every reachable state every live pointer is the block of an
allocated chunk of the chunk list, and for every chunk `c` of the chunk list, with the
chunks `L1` in front of it and the chunks `L2` after it:
`mm_free` on the live pointer of `c` returns and leaves the chunk list
`L1 ++ merged :: rest`, where the free chunk `merged` has the size of `c` plus the sizes
of the free chunks that followed it and `rest` is empty or starts with an allocated
chunk; the chunks `L1` are unchanged, so a free chunk immediately in front of `c` stays a
separate free chunk.  `mm_realloc` on the live pointer of `c` with a new size `n > 0`
whose chunk size is at most the size of `c` returns the same pointer and leaves the
chunk list `L1 ++ split_list .. c ++ L2`: `c` is unchanged or split into an allocated
chunk of the new chunk size and a free remainder, and the remainder is followed by `L2`
unchanged (it is not merged with a free chunk at the front of `L2`).  `coalesce` on `c`,
when `c` is free, returns and leaves the chunk list `L1 ++ merged :: rest` as `mm_free`
does. -/
theorem release_merges_forward {m0 m : Heap} {led : Ledger} (hE : EmptyHeap m0)
    (h : Reachable m0 m led) :
    (∀ p k, (p, k) ∈ led →
      ∃ L1 c L2, Seg m (mem_heap_lo m) (L1 ++ c :: L2) (mem_heap_lo m + mem_heapsize m) ∧
        payload2header m p = mem_heap_lo m + total L1 ∧ c.allocated = true) ∧
    (∀ L1 c L2, Seg m (mem_heap_lo m) (L1 ++ c :: L2) (mem_heap_lo m + mem_heapsize m) →
      (∀ p k, (p, k) ∈ led → payload2header m p = mem_heap_lo m + total L1 →
        ∃ m', mm_free m p = .ok m' ∧
          Seg m' (mem_heap_lo m')
            (L1 ++ ⟨c.size + total (free_run L2), false⟩ :: after_run L2)
            (mem_heap_lo m' + mem_heapsize m') ∧
          mem_heap_lo m' = mem_heap_lo m ∧ mem_heapsize m' = mem_heapsize m ∧
          (after_run L2 = [] ∨ ∃ d R, after_run L2 = d :: R ∧ d.allocated = true)) ∧
      (∀ p k n, (p, k) ∈ led → payload2header m p = mem_heap_lo m + total L1 → 0 < n →
        m.hdr_size + roundUp16 n ≤ c.size →
        ∃ m', mm_realloc m p n = .ok (m', p) ∧
          Seg m' (mem_heap_lo m')
            (L1 ++ (split_list m.hdr_size (m.hdr_size + roundUp16 n) c ++ L2))
            (mem_heap_lo m' + mem_heapsize m') ∧
          mem_heap_lo m' = mem_heap_lo m ∧ mem_heapsize m' = mem_heapsize m) ∧
      (c.allocated = false →
        ∃ m', coalesce m (mem_heap_lo m + total L1) = .ok m' ∧
          Seg m' (mem_heap_lo m')
            (L1 ++ ⟨c.size + total (free_run L2), false⟩ :: after_run L2)
            (mem_heap_lo m' + mem_heapsize m') ∧
          mem_heap_lo m' = mem_heap_lo m ∧ mem_heapsize m' = mem_heapsize m ∧
          (after_run L2 = [] ∨ ∃ d R, after_run L2 = d :: R ∧ d.allocated = true))) := by
  obtain ⟨L, hi, _⟩ := reachable_inv hE h
  constructor
  · intro p k hp
    obtain ⟨x, c, h1, h2, h3, _⟩ := hi.live _ hp
    simp only at h1
    obtain ⟨L1, L2, rfl, rfl⟩ := at_decomp h2
    refine ⟨L1, c, L2, hi.wf.seg, ?_, h3⟩
    rw [h1]
    exact payload2header_add m _
  · intro L1 c L2 hseg
    have hw : WF m (L1 ++ c :: L2) :=
      ⟨hi.wf.lo_pos, hi.wf.hdr_pos, hi.wf.hdr_small, hi.wf.fits, hi.wf.size_le, hseg⟩
    have hptr : ∀ p k, (p, k) ∈ led → payload2header m p = mem_heap_lo m + total L1 →
        m.lo + total L1 + m.hdr_size = p := by
      intro p k hp hph
      obtain ⟨x, d, h1, _, _, _⟩ := hi.live _ hp
      simp only at h1
      rw [h1, payload2header_add] at hph
      rw [h1, hph]
      rfl
    refine ⟨?_, ?_, ?_⟩
    · intro p k hp hph
      obtain ⟨m', hcall, hw', hfr, hs⟩ := mm_free_wf hw
      rw [hptr p k hp hph] at hcall
      exact ⟨m', hcall, hw'.seg, hfr.lo, hs, after_run_head L2⟩
    · intro p k n hp hph h0 hle
      have hcl := (wf_chunk_lt hw).2
      obtain ⟨m', hcall, hw', hfr, hs, _⟩ := mm_realloc_shrink hw h0 (by omega) hle
      rw [hptr p k hp hph] at hcall
      exact ⟨m', hcall, hw'.seg, hfr.lo, hs⟩
    · intro hc
      obtain ⟨m', hcall, hw', hfr, hs⟩ := coalesce_wf hw hc
      exact ⟨m', hcall, hw'.seg, hfr.lo, hs, after_run_head L2⟩

theorem release_merges_forward_witness :
    EmptyHeap heap0 ∧ Reachable heap0 heap3 [(4144, 8)] ∧
    Reachable heap0 heap3s [(4112, 64)] ∧
    (∃ m', mm_free heap3 4144 = .ok m' ∧
      Seg m' (mem_heap_lo m')
        ([⟨32, false⟩] ++ ⟨(⟨32, true⟩ : header_t).size + total (free_run []), false⟩ ::
          after_run [])
        (mem_heap_lo m' + mem_heapsize m') ∧
      mem_heap_lo m' = mem_heap_lo heap3 ∧ mem_heapsize m' = mem_heapsize heap3 ∧
      (after_run [] = [] ∨ ∃ d R, after_run [] = d :: R ∧ d.allocated = true)) ∧
    split_list heap3s.hdr_size (heap3s.hdr_size + roundUp16 8) ⟨80, true⟩
      = [⟨32, true⟩, ⟨48, false⟩] ∧
    (∃ m', mm_realloc heap3s 4112 8 = .ok (m', 4112) ∧
      Seg m' (mem_heap_lo m')
        ([] ++ (split_list heap3s.hdr_size (heap3s.hdr_size + roundUp16 8) ⟨80, true⟩ ++
          [⟨32, false⟩]))
        (mem_heap_lo m' + mem_heapsize m') ∧
      mem_heap_lo m' = mem_heap_lo heap3s ∧ mem_heapsize m' = mem_heapsize heap3s) :=
  ⟨heap0_empty, heap3_reachable, heap3s_reachable,
    ((release_merges_forward heap0_empty heap3_reachable).2 [⟨32, false⟩] ⟨32, true⟩ []
      ⟨rfl, by decide, rfl, by decide, rfl⟩).1 4144 8 (by simp) rfl,
    rfl,
    ((release_merges_forward heap0_empty heap3s_reachable).2 [] ⟨80, true⟩ [⟨32, false⟩]
      ⟨rfl, by decide, rfl, by decide, rfl⟩).2.1 4112 64 8 (by simp) rfl (by decide)
      (by decide)⟩

/-- C10 as stated fails: after `allocate(64)`, `release`, `allocate(8)` with a 16-byte
header, `mm_checkheap` reports one free chunk of 48 bytes, not of
`64 - (hdr_size + 16) = 32` bytes. -/
theorem split_threshold_counterexample :
    mm_malloc heap0 64 = .ok (heap1c, 4112) ∧ mm_free heap1c 4112 = .ok heap2c ∧
    mm_malloc heap2c 8 = .ok (heap3c, 4112) ∧
    mm_checkheap heap3c true = .ok
      { num_allocated_chunks := 1,
        num_free_chunks := 1,
        free_size := 48,
        allocated_size := 32 } ∧
    ¬ (∃ info, mm_checkheap heap3c true = .ok info ∧ info.num_free_chunks = 1 ∧
      info.free_size = 64 - (heap0.hdr_size + 16)) := by
  refine ⟨rfl, rfl, rfl, rfl, ?_⟩
  rintro ⟨info, h1, _, h3⟩
  have h : mm_checkheap heap3c true = .ok ⟨1, 1, 48, 32⟩ := rfl
  rw [h] at h1
  have h4 : (⟨1, 1, 48, 32⟩ : heap_info_t) = info := by simpa using h1
  rw [← h4] at h3
  revert h3
  decide

/-- C10 as amended: from an empty heap whose header is at most 32 bytes wide, after
`p = allocate(64)`, `release(p)`, `allocate(8)`, `mm_checkheap` reports exactly one
allocated chunk of `hdr_size + 16` bytes and exactly one free chunk, whose size is the
remainder `(hdr_size + 64) - (hdr_size + 16) = 48`; the second block is the first one
again. -/
theorem split_threshold {m0 m1 m2 m3 : Heap} {p q : Nat} (hE : EmptyHeap m0)
    (hh : m0.hdr_size ≤ 32) (c1 : mm_malloc m0 64 = .ok (m1, p))
    (c2 : mm_free m1 p = .ok m2) (c3 : mm_malloc m2 8 = .ok (m3, q)) (verbose : Bool) :
    mm_checkheap m3 verbose = .ok
      { num_allocated_chunks := 1,
        num_free_chunks := 1,
        free_size := 48,
        allocated_size := m0.hdr_size + 16 } ∧
    (m0.hdr_size + 64) - (m0.hdr_size + 16) = 48 ∧ q = p := by
  have hs := hE.fits
  have hlo := hE.lo_pos
  have hn0 : m0.hdr_size + roundUp16 64 < SIZE_MOD := by
    rw [roundUp16_64]; have := hE.hdr_small; unfold SIZE_MOD at *; omega
  obtain ⟨e1, w1, s1, hh1, hl1⟩ := malloc_grow_of_ok (wf_empty hE) hn0 (by simp) c1
  rw [roundUp16_64] at w1
  have w1' : WF m1 ([] ++ (⟨m0.hdr_size + 64, true⟩ : header_t) :: []) := w1
  obtain ⟨w2, s2, hh2, hl2⟩ := free_of_ok w1'
    (by rw [e1, hl1, hh1, hE.size_zero]; simp [total]) c2
  have w2' : WF m2 ([] ++ (⟨m0.hdr_size + 64, false⟩ : header_t) :: []) := by
    simpa [free_run, after_run, total] using w2
  have hn2 : m2.hdr_size + roundUp16 8 < SIZE_MOD := by
    rw [hh2, hh1, roundUp16_8]; exact hE.hdr_small
  obtain ⟨e3, w3, _, _, _⟩ := malloc_found_of_ok w2' hn2
    (by rw [roundUp16_8, hh2, hh1]; simp [fit]) (by simp) c3
  rw [roundUp16_8, hh2, hh1] at w3
  have hsl : split_list m0.hdr_size (m0.hdr_size + 16) ⟨m0.hdr_size + 64, true⟩
      = [⟨m0.hdr_size + 16, true⟩, ⟨48, false⟩] := by
    unfold split_list
    have e : m0.hdr_size + 64 - (m0.hdr_size + 16) = 48 := by omega
    simp only [e]
    rw [if_neg (by omega)]
  rw [hsl] at w3
  refine ⟨?_, by omega, ?_⟩
  · rw [mm_checkheap_wf w3 verbose]
    simp [allocd, freed, total]
  · rw [e3, e1, hl2, hl1, hh2, hh1, hE.size_zero]; simp [total]

theorem split_threshold_witness :
    EmptyHeap heap0 ∧ heap0.hdr_size ≤ 32 ∧ mm_malloc heap0 64 = .ok (heap1c, 4112) ∧
    mm_free heap1c 4112 = .ok heap2c ∧ mm_malloc heap2c 8 = .ok (heap3c, 4112) ∧
    mm_checkheap heap3c true = .ok
      { num_allocated_chunks := 1,
        num_free_chunks := 1,
        free_size := 48,
        allocated_size := heap0.hdr_size + 16 } ∧
    (heap0.hdr_size + 64) - (heap0.hdr_size + 16) = 48 ∧ 4112 = 4112 :=
  ⟨heap0_empty, by decide, rfl, rfl, rfl,
    split_threshold heap0_empty (by decide) (rfl : mm_malloc heap0 64 = .ok (heap1c, 4112))
      (rfl : mm_free heap1c 4112 = .ok heap2c)
      (rfl : mm_malloc heap2c 8 = .ok (heap3c, 4112)) true⟩

/-- C11 (resize to zero): on a tiled heap, for the block of any chunk `c`, `mm_free`
returns a state `m'`, `mm_realloc` with size 0 returns `NULL` and exactly that state
`m'`, and in `m'` the chunk of the block is free. -/
theorem realloc_zero_is_free {m : Heap} {L1 L2 : List header_t} {c : header_t}
    (hw : WF m (L1 ++ c :: L2)) :
    ∃ m' c', mm_free m (m.lo + total L1 + m.hdr_size) = .ok m' ∧
      mm_realloc m (m.lo + total L1 + m.hdr_size) 0 = .ok (m', NULL) ∧
      m'.hdr (payload2header m' (m.lo + total L1 + m.hdr_size)) = some c' ∧
      c'.allocated = false := by
  obtain ⟨m', hcall, hw', hfr, _⟩ := mm_free_wf hw
  have hne : m.lo + total L1 + m.hdr_size ≠ NULL := by
    have := hw.lo_pos; unfold NULL; omega
  refine ⟨m', ⟨c.size + total (free_run L2), false⟩, hcall, ?_, ?_, rfl⟩
  · rw [mm_realloc_zero m _ hne, hcall]
  · have hseg := (seg_append.1 hw'.seg).2
    rw [hfr.lo] at hseg
    unfold payload2header
    rw [hfr.hdr_size, Nat.add_sub_cancel]
    exact hseg.1

theorem realloc_zero_is_free_witness :
    WF heap3 ([⟨32, false⟩] ++ (⟨32, true⟩ : header_t) :: []) ∧
    ∃ m' c', mm_free heap3 (heap3.lo + total [⟨32, false⟩] + heap3.hdr_size) = .ok m' ∧
      mm_realloc heap3 (heap3.lo + total [⟨32, false⟩] + heap3.hdr_size) 0 = .ok (m', NULL) ∧
      m'.hdr (payload2header m' (heap3.lo + total [⟨32, false⟩] + heap3.hdr_size)) = some c' ∧
      c'.allocated = false :=
  ⟨heap3_wf, @realloc_zero_is_free heap3 [⟨32, false⟩] [] ⟨32, true⟩ heap3_wf⟩

/-- C12 (resize of null): for every heap and every size, `mm_realloc` with a null
pointer gives the result of `mm_malloc` with the same size, pointer and state alike:
`align` is applied twice on this path and `align (align n) = align n`. -/
theorem realloc_null_is_malloc (m : Heap) (n : Nat) :
    mm_realloc m NULL n = mm_malloc m n ∧ align (align n) = align n := by
  refine ⟨?_, align_idem n⟩
  rw [mm_realloc_null, mm_malloc_align]

/-- C13 (idempotent validate): on a tiled heap a call of `mm_checkheap` returns, and the
state `m1` it leaves behind has the same header objects and the same heap bounds
(`mem_heap_lo`, `mem_heap_hi`, `mem_heapsize`) as the state before the call; a second
call, made in `m1` with any value of `verbose`, returns the same statistics (all four
fields) and again changes no header and no bound; the first call with the other value of
`verbose` returns the same state and statistics; in every state with the same header
objects and heap bounds a call returns these statistics and leaves that state; and the
byte totals add up to the heap size. -/
theorem checkheap_idempotent {m : Heap} {L : List header_t} (hw : WF m L)
    (v1 v2 : Bool) :
    ∃ m1 m2 info, mm_checkheap_st m v1 = .ok (m1, info) ∧
      m1.hdr = m.hdr ∧ mem_heap_lo m1 = mem_heap_lo m ∧ mem_heap_hi m1 = mem_heap_hi m ∧
      mem_heapsize m1 = mem_heapsize m ∧
      mm_checkheap_st m1 v2 = .ok (m2, info) ∧
      m2.hdr = m.hdr ∧ mem_heap_lo m2 = mem_heap_lo m ∧ mem_heap_hi m2 = mem_heap_hi m ∧
      mem_heapsize m2 = mem_heapsize m ∧
      mm_checkheap_st m (!v1) = .ok (m1, info) ∧
      (∀ (h : Heap) (v : Bool), h.hdr = m.hdr → mem_heap_lo h = mem_heap_lo m →
        mem_heapsize h = mem_heapsize m → mm_checkheap_st h v = .ok (h, info)) ∧
      info.allocated_size + info.free_size = mem_heapsize m := by
  have he := seg_end hw.seg
  have hsum := total_allocd_freed L
  have hcall : ∀ (h : Heap) (v : Bool), h.hdr = m.hdr → mem_heap_lo h = mem_heap_lo m →
      mem_heapsize h = mem_heapsize m →
      mm_checkheap_st h v = .ok (h, ⟨(allocd L).length, (freed L).length,
        total (freed L), total (allocd L)⟩) := by
    intro h v hh hl hs
    rw [mm_checkheap_st_eq, mm_checkheap_congr hh hl hs v1 v, mm_checkheap_wf hw v1]
    rfl
  obtain ⟨m1, info, h1⟩ : ∃ m1 info, mm_checkheap_st m v1 = .ok (m1, info) :=
    ⟨_, _, hcall m v1 rfl rfl rfl⟩
  obtain ⟨e1, _⟩ := mm_checkheap_st_frame h1
  have h1' := h1
  rw [hcall m v1 rfl rfl rfl] at h1'
  obtain ⟨_, e2⟩ : m = m1 ∧ (⟨(allocd L).length, (freed L).length, total (freed L),
      total (allocd L)⟩ : heap_info_t) = info := by simpa using h1'
  subst e1
  subst e2
  refine ⟨m1, m1, _, h1, rfl, rfl, rfl, rfl, hcall m1 v2 rfl rfl rfl, rfl, rfl, rfl, rfl,
    hcall m1 _ rfl rfl rfl, hcall, ?_⟩
  show total (allocd L) + total (freed L) = m1.size
  omega

theorem checkheap_idempotent_witness :
    WF heap3 [⟨32, false⟩, ⟨32, true⟩] ∧
    ∃ m1 m2 info, mm_checkheap_st heap3 true = .ok (m1, info) ∧
      m1.hdr = heap3.hdr ∧ mem_heap_lo m1 = mem_heap_lo heap3 ∧
      mem_heap_hi m1 = mem_heap_hi heap3 ∧ mem_heapsize m1 = mem_heapsize heap3 ∧
      mm_checkheap_st m1 false = .ok (m2, info) ∧
      m2.hdr = heap3.hdr ∧ mem_heap_lo m2 = mem_heap_lo heap3 ∧
      mem_heap_hi m2 = mem_heap_hi heap3 ∧ mem_heapsize m2 = mem_heapsize heap3 ∧
      mm_checkheap_st heap3 (!true) = .ok (m1, info) ∧
      (∀ (h : Heap) (v : Bool), h.hdr = heap3.hdr → mem_heap_lo h = mem_heap_lo heap3 →
        mem_heapsize h = mem_heapsize heap3 → mm_checkheap_st h v = .ok (h, info)) ∧
      info.allocated_size + info.free_size = mem_heapsize heap3 :=
  ⟨heap3_wf, checkheap_idempotent heap3_wf true false⟩

/-- C15 (coalesce): on a tiled heap, for a free chunk `c` followed by the chunks `L2`,
`coalesce` returns; afterwards the chunk has the size of `c` plus the sizes of the
maximal run of free chunks at the front of `L2`, it is followed by what follows that
run, which is empty or starts with an allocated chunk, the chunks in front of it are
the same, and the chunk sizes still add up to the heap size. -/
theorem coalesce_merges_run {m : Heap} {L1 L2 : List header_t} {c : header_t}
    (hw : WF m (L1 ++ c :: L2)) (hc : c.allocated = false) :
    ∃ m', coalesce m (m.lo + total L1) = .ok m' ∧
      Seg m' (mem_heap_lo m') (L1 ++ ⟨c.size + total (free_run L2), false⟩ :: after_run L2)
        (mem_heap_lo m' + mem_heapsize m') ∧
      mem_heap_lo m' = mem_heap_lo m ∧ mem_heapsize m' = mem_heapsize m ∧
      free_run L2 ++ after_run L2 = L2 ∧ (∀ d ∈ free_run L2, d.allocated = false) ∧
      (after_run L2 = [] ∨ ∃ d R, after_run L2 = d :: R ∧ d.allocated = true) ∧
      total (L1 ++ ⟨c.size + total (free_run L2), false⟩ :: after_run L2)
        = total (L1 ++ c :: L2) ∧
      total (L1 ++ c :: L2) = mem_heapsize m := by
  obtain ⟨m', hcall, hw', hfr, hs⟩ := coalesce_wf hw hc
  have he := seg_end hw.seg
  have he' := seg_end hw'.seg
  refine ⟨m', hcall, hw'.seg, hfr.lo, hs, free_run_append L2,
    fun d hd => free_run_free hd, after_run_head L2, ?_, ?_⟩
  · rw [hfr.lo, hs] at he'; omega
  · unfold mem_heapsize; omega

theorem heap5b_wf : WF heap5b [⟨32, false⟩, ⟨32, false⟩, ⟨32, true⟩] :=
  ⟨by decide, by decide, by decide, by decide, by decide, rfl, by decide, rfl, by decide, rfl,
    by decide, rfl⟩

theorem coalesce_merges_run_witness :
    WF heap5b ([] ++ (⟨32, false⟩ : header_t) :: [⟨32, false⟩, ⟨32, true⟩]) ∧
    free_run [⟨32, false⟩, ⟨32, true⟩] = [⟨32, false⟩] ∧
    after_run [⟨32, false⟩, ⟨32, true⟩] = [⟨32, true⟩] ∧
    (⟨32, false⟩ : header_t).size + total (free_run [⟨32, false⟩, ⟨32, true⟩]) = 64 ∧
    ∃ m', coalesce heap5b (heap5b.lo + total []) = .ok m' ∧
      Seg m' (mem_heap_lo m')
        ([] ++ ⟨(⟨32, false⟩ : header_t).size + total (free_run [⟨32, false⟩, ⟨32, true⟩]),
          false⟩ :: after_run [⟨32, false⟩, ⟨32, true⟩])
        (mem_heap_lo m' + mem_heapsize m') ∧
      mem_heap_lo m' = mem_heap_lo heap5b ∧ mem_heapsize m' = mem_heapsize heap5b ∧
      free_run [⟨32, false⟩, ⟨32, true⟩] ++ after_run [⟨32, false⟩, ⟨32, true⟩]
        = [⟨32, false⟩, ⟨32, true⟩] ∧
      (∀ d ∈ free_run [⟨32, false⟩, ⟨32, true⟩], d.allocated = false) ∧
      (after_run [⟨32, false⟩, ⟨32, true⟩] = [] ∨
        ∃ d R, after_run [⟨32, false⟩, ⟨32, true⟩] = d :: R ∧ d.allocated = true) ∧
      total ([] ++ ⟨(⟨32, false⟩ : header_t).size +
          total (free_run [⟨32, false⟩, ⟨32, true⟩]), false⟩ ::
          after_run [⟨32, false⟩, ⟨32, true⟩])
        = total ([] ++ (⟨32, false⟩ : header_t) :: [⟨32, false⟩, ⟨32, true⟩]) ∧
      total ([] ++ (⟨32, false⟩ : header_t) :: [⟨32, false⟩, ⟨32, true⟩])
        = mem_heapsize heap5b :=
  ⟨heap5b_wf, rfl, rfl, rfl,
    @coalesce_merges_run heap5b [] [⟨32, false⟩, ⟨32, true⟩] ⟨32, false⟩ heap5b_wf rfl⟩

/-- C16 (no backward coalescing): on a tiled heap, `mm_free` on the block of the chunk
`c` returns, and every chunk in front of `c` is afterwards a chunk at the same address
with the same header; a free chunk right in front of `c` is still a chunk of its own,
followed by the released chunk. -/
theorem free_keeps_lower_chunks {m : Heap} {L1 L2 : List header_t} {c : header_t}
    (hw : WF m (L1 ++ c :: L2)) :
    ∃ m' R c', mm_free m (m.lo + total L1 + m.hdr_size) = .ok m' ∧
      Seg m' (mem_heap_lo m') (L1 ++ c' :: R) (mem_heap_lo m' + mem_heapsize m') ∧
      mem_heap_lo m' = mem_heap_lo m ∧ c'.allocated = false ∧
      (∀ y d, At (mem_heap_lo m) L1 y d →
        m.hdr y = some d ∧ m'.hdr y = some d ∧ At (mem_heap_lo m') (L1 ++ c' :: R) y d) := by
  obtain ⟨m', hcall, hw', hfr, _⟩ := mm_free_wf hw
  refine ⟨m', after_run L2, _, hcall, hw'.seg, hfr.lo, rfl, ?_⟩
  intro y d hat
  unfold mem_heap_lo at hat ⊢
  have h1 : At m.lo (L1 ++ c :: L2) y d := at_append.2 (Or.inl hat)
  have h2 : At m'.lo (L1 ++ ⟨c.size + total (free_run L2), false⟩ :: after_run L2) y d := by
    rw [hfr.lo]; exact at_append.2 (Or.inl hat)
  exact ⟨seg_at hw.seg h1, seg_at hw'.seg h2, h2⟩

theorem free_keeps_lower_chunks_witness :
    WF heap3 ([⟨32, false⟩] ++ (⟨32, true⟩ : header_t) :: []) ∧
    ∃ m' R c', mm_free heap3 (heap3.lo + total [⟨32, false⟩] + heap3.hdr_size) = .ok m' ∧
      Seg m' (mem_heap_lo m') ([⟨32, false⟩] ++ c' :: R)
        (mem_heap_lo m' + mem_heapsize m') ∧
      mem_heap_lo m' = mem_heap_lo heap3 ∧ c'.allocated = false ∧
      (∀ y d, At (mem_heap_lo heap3) [⟨32, false⟩] y d →
        heap3.hdr y = some d ∧ m'.hdr y = some d ∧
        At (mem_heap_lo m') ([⟨32, false⟩] ++ c' :: R) y d) :=
  ⟨heap3_wf, @free_keeps_lower_chunks heap3 [⟨32, false⟩] [] ⟨32, true⟩ heap3_wf⟩

theorem heap2_wf : WF heap2 [⟨32, true⟩, ⟨32, true⟩] :=
  ⟨by decide, by decide, by decide, by decide, by decide, rfl, by decide, rfl, by decide, rfl⟩

/-- C17 as stated fails where `align` or the chunk size wraps around: on the heap of two
allocated chunks of 32 bytes, for the block `4112` and the new size `2 ^ 64 - 1`,
`align` gives 0, so `headerSize + align(newSize) = 16 <= 32 = existingSize`, but
`mm_realloc` releases the block and returns `NULL`, not the block.  For the new size
`2 ^ 64 - 16` the chunk size computed by the code is `16 + (2 ^ 64 - 16) = 0 <= 32`;
`mm_realloc` returns the block, but leaves its chunk marked free. -/
theorem realloc_in_place_counterexample :
    WF heap2 [⟨32, true⟩, ⟨32, true⟩] ∧
    heap2.hdr (payload2header heap2 4112) = some ⟨32, true⟩ ∧
    0 < 2 ^ 64 - 1 ∧ heap2.hdr_size + align (2 ^ 64 - 1) ≤ 32 ∧
    mm_realloc heap2 4112 (2 ^ 64 - 1) = .ok (heap3, NULL) ∧ NULL ≠ 4112 ∧
    ¬ (∃ m', mm_realloc heap2 4112 (2 ^ 64 - 1) = .ok (m', 4112)) ∧
    0 < 2 ^ 64 - 16 ∧ uadd heap2.hdr_size (align (2 ^ 64 - 16)) ≤ 32 ∧
    mm_realloc heap2 4112 (2 ^ 64 - 16) = .ok (heap3u, 4112) ∧
    heap3u.hdr (payload2header heap3u 4112) = some ⟨32, false⟩ := by
  refine ⟨heap2_wf, rfl, by decide, by decide, rfl, by decide, ?_, by decide, by decide, rfl,
    rfl⟩
  rintro ⟨m', h⟩
  have h1 : mm_realloc heap2 4112 (2 ^ 64 - 1) = .ok (heap3, NULL) := rfl
  rw [h1] at h
  have h2 : NULL = 4112 := by
    injection h with h
    exact congrArg Prod.snd h
  exact absurd h2 (by decide)

/-- C17 as amended (resize in place): on a tiled heap, for the block of an allocated
chunk `c` and a new size `n > 0` with new chunk size `hdr_size + roundUp16 n`, the
rounding and the sum taken as natural numbers (without wrap-around): if `c` is at least
that large, or the chunk after `c` exists, is free and is at least as large as what is
missing, then `mm_realloc` returns the same pointer, the heap size is unchanged, and the
chunk of the block is still allocated and at least `hdr_size + roundUp16 n` bytes
large. -/
theorem realloc_in_place {m : Heap} {L1 L2 : List header_t} {c : header_t} {n : Nat}
    (hw : WF m (L1 ++ c :: L2)) (hc : c.allocated = true) (h0 : 0 < n)
    (hroom : m.hdr_size + roundUp16 n ≤ c.size ∨
      ∃ d L3, L2 = d :: L3 ∧ d.allocated = false ∧
        m.hdr_size + roundUp16 n - c.size ≤ d.size) :
    ∃ m' L' c', mm_realloc m (m.lo + total L1 + m.hdr_size) n
        = .ok (m', m.lo + total L1 + m.hdr_size) ∧
      mem_heapsize m' = mem_heapsize m ∧
      Seg m' (mem_heap_lo m') L' (mem_heap_lo m' + mem_heapsize m') ∧
      At (mem_heap_lo m') L' (payload2header m' (m.lo + total L1 + m.hdr_size)) c' ∧
      c'.allocated = true ∧ m.hdr_size + roundUp16 n ≤ c'.size := by
  have hcl := (wf_chunk_lt hw).2
  by_cases hle : m.hdr_size + roundUp16 n ≤ c.size
  · have hn : m.hdr_size + roundUp16 n < SIZE_MOD := by omega
    obtain ⟨m', hcall, hw', hfr, hs, _⟩ := mm_realloc_shrink hw h0 hn hle
    obtain ⟨c', ha, hb, hd⟩ := @split_list_head m.hdr_size _ c hle (m.lo + total L1)
    refine ⟨m', _, c', hcall, hs, hw'.seg, ?_, by rw [hb]; exact hc, hd⟩
    unfold payload2header mem_heap_lo
    rw [hfr.hdr_size, hfr.lo, Nat.add_sub_cancel]
    exact at_append.2 (Or.inr (at_append.2 (Or.inl ha)))
  · rcases hroom with h | ⟨d, L3, rfl, hd, hr⟩
    · exact (hle h).elim
    · have he := seg_end hw.seg
      have hfits := hw.fits
      have hsl := hw.size_le
      have hn : m.hdr_size + roundUp16 n < SIZE_MOD := by
        simp only [total_append, total] at he; omega
      obtain ⟨m', hcall, hw', hfr, hs, _⟩ :=
        mm_realloc_absorb hw h0 hn (by omega) hd hr
      have hsum : m.hdr_size + roundUp16 n ≤
          (⟨c.size + d.size, c.allocated⟩ : header_t).size := by
        show m.hdr_size + roundUp16 n ≤ c.size + d.size; omega
      obtain ⟨c', ha, hb, hd'⟩ := @split_list_head m.hdr_size _
        (⟨c.size + d.size, c.allocated⟩ : header_t) hsum (m.lo + total L1)
      refine ⟨m', _, c', hcall, hs, hw'.seg, ?_, by rw [hb]; exact hc, hd'⟩
      unfold payload2header mem_heap_lo
      rw [hfr.hdr_size, hfr.lo, Nat.add_sub_cancel]
      exact at_append.2 (Or.inr (at_append.2 (Or.inl ha)))

theorem realloc_in_place_witness :
    WF heap2 ([] ++ (⟨32, true⟩ : header_t) :: [⟨32, true⟩]) ∧
    heap2.hdr_size + roundUp16 4 ≤ 32 ∧
    ∃ m' L' c', mm_realloc heap2 (heap2.lo + total [] + heap2.hdr_size) 4
        = .ok (m', heap2.lo + total [] + heap2.hdr_size) ∧
      mem_heapsize m' = mem_heapsize heap2 ∧
      Seg m' (mem_heap_lo m') L' (mem_heap_lo m' + mem_heapsize m') ∧
      At (mem_heap_lo m') L' (payload2header m' (heap2.lo + total [] + heap2.hdr_size)) c' ∧
      c'.allocated = true ∧ heap2.hdr_size + roundUp16 4 ≤ c'.size :=
  ⟨heap2_wf, by decide,
    @realloc_in_place heap2 [] [⟨32, true⟩] ⟨32, true⟩ 4 heap2_wf rfl (by decide)
      (Or.inl (by decide))⟩

/-- C18 (allocate by growth): on a tiled heap, when no free chunk is as large as the
chunk size `hdr_size + roundUp16 n` and the substrate can grow by that much,
`mm_malloc` returns one header beyond the old end of the heap, the heap has grown by
exactly the chunk size, the chunk list is the old one followed by one allocated chunk
of that size, which starts at the old end of the heap, and the header stored for every
chunk of the old list is unchanged. -/
theorem malloc_by_growth {m : Heap} {L : List header_t} {n : Nat} (hw : WF m L)
    (hnone : ∀ d ∈ L, ¬ (d.allocated = false ∧ m.hdr_size + roundUp16 n ≤ d.size))
    (hcap : mem_heapsize m + (m.hdr_size + roundUp16 n) ≤ m.cap) :
    ∃ m', mm_malloc m n = .ok (m', mem_heap_lo m + mem_heapsize m + m.hdr_size) ∧
      mem_heapsize m' = mem_heapsize m + (m.hdr_size + roundUp16 n) ∧
      mem_heap_lo m' = mem_heap_lo m ∧
      Seg m' (mem_heap_lo m') (L ++ [⟨m.hdr_size + roundUp16 n, true⟩])
        (mem_heap_lo m' + mem_heapsize m') ∧
      At (mem_heap_lo m') (L ++ [⟨m.hdr_size + roundUp16 n, true⟩])
        (mem_heap_lo m + mem_heapsize m) ⟨m.hdr_size + roundUp16 n, true⟩ ∧
      (∀ y d, At (mem_heap_lo m) L y d → m.hdr y = some d ∧ m'.hdr y = some d) := by
  have hfits := hw.fits
  have hn : m.hdr_size + roundUp16 n < SIZE_MOD := by unfold mem_heapsize at hcap; omega
  have hnot : ∀ d ∈ L, fit (m.hdr_size + roundUp16 n) d = false := by
    intro d hd
    cases hf : fit (m.hdr_size + roundUp16 n) d
    · rfl
    · exact (hnone d hd (fit_iff.1 hf)).elim
  obtain ⟨m', hcall, hw', hfr, hs⟩ := mm_malloc_grow hw hn hnot hcap
  have he := seg_end hw.seg
  refine ⟨m', hcall, hs, hfr.lo, hw'.seg, ?_, ?_⟩
  · unfold mem_heap_lo mem_heapsize
    rw [hfr.lo, ← he]
    exact at_mid m.lo L [] _
  · intro y d hat
    unfold mem_heap_lo at hat
    refine ⟨seg_at hw.seg hat, ?_⟩
    have h2 : At m'.lo (L ++ [⟨m.hdr_size + roundUp16 n, true⟩]) y d := by
      rw [hfr.lo]; exact at_append.2 (Or.inl hat)
    exact seg_at hw'.seg h2

theorem malloc_by_growth_witness :
    WF heap2 [⟨32, true⟩, ⟨32, true⟩] ∧
    mem_heapsize heap2 + (heap2.hdr_size + roundUp16 8) ≤ heap2.cap ∧
    ∃ m', mm_malloc heap2 8 = .ok (m', mem_heap_lo heap2 + mem_heapsize heap2 + heap2.hdr_size) ∧
      mem_heapsize m' = mem_heapsize heap2 + (heap2.hdr_size + roundUp16 8) ∧
      mem_heap_lo m' = mem_heap_lo heap2 ∧
      Seg m' (mem_heap_lo m')
        ([⟨32, true⟩, ⟨32, true⟩] ++ [⟨heap2.hdr_size + roundUp16 8, true⟩])
        (mem_heap_lo m' + mem_heapsize m') ∧
      At (mem_heap_lo m') ([⟨32, true⟩, ⟨32, true⟩] ++ [⟨heap2.hdr_size + roundUp16 8, true⟩])
        (mem_heap_lo heap2 + mem_heapsize heap2) ⟨heap2.hdr_size + roundUp16 8, true⟩ ∧
      (∀ y d, At (mem_heap_lo heap2) [⟨32, true⟩, ⟨32, true⟩] y d →
        heap2.hdr y = some d ∧ m'.hdr y = some d) :=
  ⟨heap2_wf, by decide,
    malloc_by_growth heap2_wf (by
      intro d hd
      simp at hd
      rw [hd]; simp) (by decide)⟩

/-- C14 as stated fails for a `keepSize` below the header size: `split` of an allocated
chunk of 80 bytes with `csz = 0` (the remainder 80 is not below `hdr_size + 16 = 32`)
writes the remainder header over the chunk's own header: afterwards the chunk has size
80, not 0, and is marked free. -/
theorem split_policy_counterexample :
    heap1c.hdr 4096 = some ⟨80, true⟩ ∧ 0 ≤ 80 ∧ ¬ (80 - 0 < heap1c.hdr_size + 16) ∧
    split heap1c 4096 0 = .ok heap1d ∧ heap1d.hdr 4096 = some ⟨80, false⟩ ∧
    ¬ (∃ b, heap1d.hdr 4096 = some b ∧ b.size = 0 ∧ b.allocated = true) := by
  refine ⟨rfl, by decide, by decide, rfl, rfl, ?_⟩
  rintro ⟨b, h1, h2, _⟩
  have h : heap1d.hdr 4096 = some ⟨80, false⟩ := rfl
  rw [h] at h1
  have h3 : (⟨80, false⟩ : header_t) = b := by simpa using h1
  rw [← h3] at h2
  revert h2
  decide

/-- C14 as amended: on a tiled heap, for a chunk `c` and a size `csz` with
`hdr_size ≤ csz ≤ c.size`: if the remainder `c.size - csz` is below `hdr_size + 16`,
`split` leaves the heap as it is; otherwise `split` returns a heap in which the chunk
has size `csz` and its old flag, a free chunk of the size of the remainder starts `csz`
bytes after it, and the other chunks are the same.  In both cases the chunk sizes add
up to the unchanged heap size. -/
theorem split_policy {m : Heap} {L1 L2 : List header_t} {c : header_t} {csz : Nat}
    (hw : WF m (L1 ++ c :: L2)) (h1 : m.hdr_size ≤ csz) (h2 : csz ≤ c.size) :
    (c.size - csz < m.hdr_size + 16 → split m (m.lo + total L1) csz = .ok m) ∧
    (¬ c.size - csz < m.hdr_size + 16 →
      ∃ m', split m (m.lo + total L1) csz = .ok m' ∧
        Seg m' (mem_heap_lo m') (L1 ++ ⟨csz, c.allocated⟩ :: ⟨c.size - csz, false⟩ :: L2)
          (mem_heap_lo m' + mem_heapsize m') ∧
        m'.hdr (m.lo + total L1) = some ⟨csz, c.allocated⟩ ∧
        m'.hdr (m.lo + total L1 + csz) = some ⟨c.size - csz, false⟩ ∧
        mem_heap_lo m' = mem_heap_lo m ∧ mem_heapsize m' = mem_heapsize m ∧
        total (L1 ++ ⟨csz, c.allocated⟩ :: ⟨c.size - csz, false⟩ :: L2)
          = total (L1 ++ c :: L2)) ∧
    total (L1 ++ c :: L2) = mem_heapsize m := by
  have hseg := (seg_append.1 hw.seg).2
  have hcl := (wf_chunk_lt hw).2
  have he := seg_end hw.seg
  refine ⟨?_, ?_, by unfold mem_heapsize; omega⟩
  · intro hr
    apply split_unchanged hseg.1
    rw [usub_small h2 hcl, uadd_small hw.hdr_small]; exact hr
  · intro hr
    obtain ⟨m', hcall, hw', hfr, hs⟩ := split_wf hw h1 h2
    have hsl : split_list m.hdr_size csz c = [⟨csz, c.allocated⟩, ⟨c.size - csz, false⟩] := by
      unfold split_list; rw [if_neg hr]
    rw [hsl] at hw'
    have hseg' := (seg_append.1 hw'.seg).2
    rw [hfr.lo] at hseg'
    refine ⟨m', hcall, hw'.seg, hseg'.1, hseg'.2.2.1, hfr.lo, hs, ?_⟩
    simp only [total_append, total]; omega

theorem split_policy_witness :
    WF heap3 ([] ++ (⟨32, false⟩ : header_t) :: [⟨32, true⟩]) ∧ heap3.hdr_size ≤ 16 ∧
    16 ≤ (⟨32, false⟩ : header_t).size ∧
    ((⟨32, false⟩ : header_t).size - 16 < heap3.hdr_size + 16 →
      split heap3 (heap3.lo + total []) 16 = .ok heap3) :=
  ⟨heap3_wf, by decide, by decide,
    (@split_policy heap3 [] [⟨32, true⟩] ⟨32, false⟩ 16 heap3_wf (by decide) (by decide)).1⟩

/-- C19 (no unsigned underflow): `mm_malloc_log` and `mm_realloc_log` are `mm_malloc` and
`mm_realloc` with the list of the `size_t` subtractions they evaluate.  On every heap,
the subtraction `original->size - csz` of the `split` call of `mm_malloc` has
`csz ≤ original->size`.  On a tiled heap, for the block of a chunk `c`, every
subtraction evaluated by `mm_realloc` has its subtrahend at most its minuend (in
`split` on the shrink path and after absorbing the neighbour, in `csz - original_size`,
and in the allocation of the relocation path); and when `c` is at least `csz` bytes
large, the only subtraction evaluated is the one of `split`, so `csz - original_size`
is evaluated only when `original_size < csz`. -/
theorem no_unsigned_underflow {m : Heap} {L1 L2 : List header_t} {c : header_t}
    (hw : WF m (L1 ++ c :: L2)) :
    (∀ (h : Heap) (n : Nat), drop_log (mm_malloc_log h n) = mm_malloc h n ∧
      ∀ r lg, mm_malloc_log h n = .ok (r, lg) → ∀ e ∈ lg, e.2 ≤ e.1) ∧
    (∀ n, drop_log (mm_realloc_log m (m.lo + total L1 + m.hdr_size) n)
        = mm_realloc m (m.lo + total L1 + m.hdr_size) n ∧
      (∀ r lg, mm_realloc_log m (m.lo + total L1 + m.hdr_size) n = .ok (r, lg) →
        ∀ e ∈ lg, e.2 ≤ e.1) ∧
      (∀ r lg, align n ≠ 0 → uadd m.hdr_size (align n) ≤ c.size →
        mm_realloc_log m (m.lo + total L1 + m.hdr_size) n = .ok (r, lg) →
        lg = [(c.size, uadd m.hdr_size (align n))])) := by
  refine ⟨fun h n => ⟨drop_mm_malloc_log h n, fun r lg hl => malloc_log_ok hl⟩, ?_⟩
  intro n
  exact ⟨drop_mm_realloc_log m _ n, fun r lg hl => realloc_log_ok hw hl,
    fun r lg hz hge hl => realloc_log_shrink hw hz hge hl⟩

theorem heap4e_wf : WF heap4e [⟨32, true⟩, ⟨32, false⟩, ⟨32, true⟩] :=
  ⟨by decide, by decide, by decide, by decide, by decide, rfl, by decide, rfl, by decide, rfl,
    by decide, rfl⟩

theorem no_unsigned_underflow_witness :
    WF heap4e ([] ++ (⟨32, true⟩ : header_t) :: [⟨32, false⟩, ⟨32, true⟩]) ∧
    (∃ r, mm_realloc_log heap4e (heap4e.lo + total [] + heap4e.hdr_size) 40
      = .ok (r, [(64, 32), (64, 64)])) ∧
    ∀ r lg, mm_realloc_log heap4e (heap4e.lo + total [] + heap4e.hdr_size) 40 = .ok (r, lg) →
      ∀ e ∈ lg, e.2 ≤ e.1 :=
  ⟨heap4e_wf, ⟨(after heap4e (mm_realloc heap4e 4112 40), 4112), rfl⟩,
    ((@no_unsigned_underflow heap4e [] [⟨32, false⟩, ⟨32, true⟩] ⟨32, true⟩ heap4e_wf).2
      40).2.1⟩

/-- C20 (live blocks are untouched): on a tiled heap with chunk list `L`, after a
returning call of `mm_malloc`, of `mm_free` on the block of an allocated chunk at `x`,
or of `mm_realloc` on that block, the new state is tiled by a chunk list `L'` in which
every chunk `d` of `L` that was allocated (and does not start at `x`) is kept: it is a
chunk of `L'` at the same address with the same header, so the same size and still
allocated, and all its bytes are unchanged.  Sizes are sizes whose chunk size
`hdr_size + roundUp16 n` is a `size_t`. -/
theorem live_blocks_untouched {m : Heap} {L : List header_t} (hw : WF m L) :
    (∀ n m' p, m.hdr_size + roundUp16 n < SIZE_MOD → mm_malloc m n = .ok (m', p) →
      ∃ L', Seg m' (mem_heap_lo m') L' (mem_heap_lo m' + mem_heapsize m') ∧
        ∀ y d, At (mem_heap_lo m) L y d → d.allocated = true → Kept m m' L' y d) ∧
    (∀ x c m', At (mem_heap_lo m) L x c → c.allocated = true →
      mm_free m (x + m.hdr_size) = .ok m' →
      ∃ L', Seg m' (mem_heap_lo m') L' (mem_heap_lo m' + mem_heapsize m') ∧
        ∀ y d, At (mem_heap_lo m) L y d → d.allocated = true → y ≠ x → Kept m m' L' y d) ∧
    (∀ x c n m' q, At (mem_heap_lo m) L x c → c.allocated = true →
      m.hdr_size + roundUp16 n < SIZE_MOD → mm_realloc m (x + m.hdr_size) n = .ok (m', q) →
      ∃ L', Seg m' (mem_heap_lo m') L' (mem_heap_lo m' + mem_heapsize m') ∧
        ∀ y d, At (mem_heap_lo m) L y d → d.allocated = true → y ≠ x →
          Kept m m' L' y d) := by
  refine ⟨?_, ?_, ?_⟩
  · intro n m' p hn hm
    obtain ⟨L', _, _, hw', _, _, _, _, _, _, hk⟩ := malloc_keeps hw hn hm
    exact ⟨L', hw'.seg, fun y d hat hd => (hk y d hat hd).1⟩
  · intro x c m' hat _ hm
    obtain ⟨L1, L2, rfl, rfl⟩ := at_decomp hat
    obtain ⟨m1, L', hcall, hw', hk⟩ := free_keeps hw
    unfold mem_heap_lo at hm
    rw [hcall] at hm
    obtain rfl : m1 = m' := by simpa using hm
    exact ⟨L', hw'.seg, hk⟩
  · intro x c n m' q hat hc hn hm
    obtain ⟨L1, L2, rfl, rfl⟩ := at_decomp hat
    obtain ⟨L', hw', hk⟩ := realloc_keeps hw hc hn hm
    exact ⟨L', hw'.seg, hk⟩

theorem live_blocks_untouched_witness :
    WF heap2 [⟨32, true⟩, ⟨32, true⟩] ∧
    At (mem_heap_lo heap2) [⟨32, true⟩, ⟨32, true⟩] 4096 ⟨32, true⟩ ∧
    mm_free heap2 (4096 + heap2.hdr_size) = .ok heap3 ∧
    ∃ L', Seg heap3 (mem_heap_lo heap3) L' (mem_heap_lo heap3 + mem_heapsize heap3) ∧
      ∀ y d, At (mem_heap_lo heap2) [⟨32, true⟩, ⟨32, true⟩] y d → d.allocated = true →
        y ≠ 4096 → Kept heap2 heap3 L' y d :=
  ⟨heap2_wf, Or.inl ⟨rfl, rfl⟩, rfl,
    (live_blocks_untouched heap2_wf).2.1 4096 ⟨32, true⟩ heap3 (Or.inl ⟨rfl, rfl⟩) rfl rfl⟩

end Malloc
